import Mathlib

/-!
# hb-sort-r.hh: binary search and the fallback sort

A shallow embedding of `hb_bsearch_r`, `sort_r_cmpswap` and `sort_r_simple`
(`src/hb-sort-r.hh`).

* Memory is a list of bytes; a pointer is a byte offset into it.
* A comparator receives the `w` bytes stored at each of its two pointers and the
  context `arg`; it returns a C `int`.
* Every function records what it does in a log (newest entry first): comparator
  calls, byte exchanges, calls of `sort_r_cmpswap`, entry to and exit from
  `sort_r_simple`.
* Loops whose trip count depends on the comparator take a fuel argument and return
  `none` when it runs out.
* The `int` variables of `hb_bsearch_r` wrap modulo `2^32`; `size_t` values and
  pointers of the sort are natural numbers (an array that exists fits the address
  space, so they do not wrap).
-/

namespace HbSortR

/-- A `char` of the element buffer. The code moves bytes and never computes on them. -/
abbrev Byte := Nat

/-- The comparator of the sort: the two elements (their bytes) and the context. -/
abbrev Compar (γ : Type) := List Byte → List Byte → γ → Int

/-- The `w` bytes stored at byte offset `p`. -/
def elem (mem : List Byte) (w p : Nat) : List Byte := (mem.drop p).take w

/-- The `n` elements of width `w` of the array that starts at byte offset `base`. -/
def elems (mem : List Byte) (base w n : Nat) : List (List Byte) :=
  (List.range n).map (fun i => elem mem w (base + i * w))

/-! ## The log -/

/-- One recorded action of the sort. -/
inductive Access (γ : Type) where
  /-- The comparator is called on the elements at byte offsets `a` and `b` with `arg`. -/
  | compar (a b : Nat) (arg : γ) : Access γ
  /-- The bytes at offsets `x` and `y` are read and written (exchanged). -/
  | xchg (x y : Nat) : Access γ
  /-- A call of `sort_r_cmpswap` with pointers `a` and `b`. -/
  | cmpswap (a b : Nat) : Access γ
  /-- A call of `sort_r_simple` on `nel` elements at `base`. -/
  | enter (base nel : Nat) : Access γ
  /-- The return of the innermost pending call of `sort_r_simple`. -/
  | leave : Access γ
deriving DecidableEq

/-- The memory together with the log of what was done so far (newest first). -/
structure Heap (γ : Type) where
  mem : List Byte
  log : List (Access γ)
deriving DecidableEq

/-- Add one entry to the log. -/
def Heap.note {γ : Type} (h : Heap γ) (e : Access γ) : Heap γ := ⟨h.mem, e :: h.log⟩

/-! ## sort_r_cmpswap -/

/-- The byte loop `for(; a < end; a++, b++) { tmp = *a; *a = *b; *b = tmp; }`.
The first argument is `end - a`, the number of bytes still to exchange: the loop
condition `a < end` is `end - a ≠ 0`, and each round lowers `end - a` by one. -/
def swap_loop {γ : Type} : Nat → Nat → Nat → Heap γ → Heap γ
  | 0, _, _, h => h
  | n + 1, a, b, h =>
    let tmp := h.mem.getD a 0
    let m1 := h.mem.set a (h.mem.getD b 0)
    let m2 := m1.set b tmp
    swap_loop n (a + 1) (b + 1) ⟨m2, Access.xchg a b :: h.log⟩

/-- The function `sort_r_cmpswap`: swap a, b iff a > b; returns 1 when it swapped. -/
def sort_r_cmpswap {γ : Type} (a b w : Nat) (compar : Compar γ) (arg : γ)
    (h : Heap γ) : Int × Heap γ :=
  let end_ := a + w
  let h1 := (h.note (Access.cmpswap a b)).note (Access.compar a b arg)
  if compar (elem h.mem w a) (elem h.mem w b) arg > 0 then
    (1, swap_loop (end_ - a) a b h1)
  else
    (0, h1)

/-! ## sort_r_simple: the insertion sort -/

/-- The inner loop
`for(pj = pi; pj > b && sort_r_cmpswap(pj-w,pj,w,compar,arg); pj -= w) {}`. -/
def ins_inner {γ : Type} : Nat → Nat → Nat → Compar γ → γ → Nat → Heap γ → Option (Heap γ)
  | 0, _, _, _, _, _, _ => none
  | fuel + 1, b, w, compar, arg, pj, h =>
    if pj > b then
      match sort_r_cmpswap (pj - w) pj w compar arg h with
      | (r, h1) => if r ≠ 0 then ins_inner fuel b w compar arg (pj - w) h1 else some h1
    else some h

/-- The outer loop `for(pi = b+w; pi < end; pi += w) { ... }`. -/
def ins_outer {γ : Type} : Nat → Nat → Nat → Nat → Compar γ → γ → Nat → Heap γ →
    Option (Heap γ)
  | 0, _, _, _, _, _, _, _ => none
  | fuel + 1, b, w, end_, compar, arg, pi, h =>
    if pi < end_ then
      match ins_inner fuel b w compar arg pi h with
      | none => none
      | some h1 => ins_outer fuel b w end_ compar arg (pi + w) h1
    else some h

/-! ## sort_r_simple: the quicksort -/

/-- The median of first, middle and last item: the three comparisons on `l[0..2]`
and the pointer exchanges they cause. Returns `l[1]`; the memory is not written. -/
def median3 {γ : Type} (b w nel : Nat) (compar : Compar γ) (arg : γ) (h : Heap γ) :
    Nat × Heap γ :=
  let last := b + w * (nel - 1)
  let l0 := b
  let l1 := b + w * (nel / 2)
  let l2 := last
  let h1 := h.note (Access.compar l0 l1 arg)
  let c1 := compar (elem h.mem w l0) (elem h.mem w l1) arg > 0
  let l0a := if c1 then l1 else l0
  let l1a := if c1 then l0 else l1
  let h2 := h1.note (Access.compar l1a l2 arg)
  if compar (elem h.mem w l1a) (elem h.mem w l2) arg > 0 then
    let l1b := l2
    let _l2b := l1a
    let h3 := h2.note (Access.compar l0a l1b arg)
    if compar (elem h.mem w l0a) (elem h.mem w l1b) arg > 0 then
      (l0a, h3)
    else
      (l1b, h3)
  else
    (l1a, h2)

/-- The first inner loop of the partition:
`for(; pl < pr; pl += w) if(sort_r_cmpswap(pl, pr, ...)) { pr -= w; break; }`. -/
def scan_left {γ : Type} : Nat → Nat → Compar γ → γ → Nat → Nat → Heap γ →
    Option (Nat × Nat × Heap γ)
  | 0, _, _, _, _, _, _ => none
  | fuel + 1, w, compar, arg, pl, pr, h =>
    if pl < pr then
      match sort_r_cmpswap pl pr w compar arg h with
      | (r, h1) =>
        if r ≠ 0 then some (pl, pr - w, h1)
        else scan_left fuel w compar arg (pl + w) pr h1
    else some (pl, pr, h)

/-- The second inner loop of the partition:
`for(; pl < pr; pr -= w) if(sort_r_cmpswap(pl, pr, ...)) { pl += w; break; }`. -/
def scan_right {γ : Type} : Nat → Nat → Compar γ → γ → Nat → Nat → Heap γ →
    Option (Nat × Nat × Heap γ)
  | 0, _, _, _, _, _, _ => none
  | fuel + 1, w, compar, arg, pl, pr, h =>
    if pl < pr then
      match sort_r_cmpswap pl pr w compar arg h with
      | (r, h1) =>
        if r ≠ 0 then some (pl + w, pr, h1)
        else scan_right fuel w compar arg pl (pr - w) h1
    else some (pl, pr, h)

/-- The loop `while(pl < pr) { ... }` around the two scans. -/
def partition_loop {γ : Type} : Nat → Nat → Compar γ → γ → Nat → Nat → Heap γ →
    Option (Nat × Nat × Heap γ)
  | 0, _, _, _, _, _, _ => none
  | fuel + 1, w, compar, arg, pl, pr, h =>
    if pl < pr then
      match scan_left fuel w compar arg pl pr h with
      | none => none
      | some (pl1, pr1, h1) =>
        match scan_right fuel w compar arg pl1 pr1 h1 with
        | none => none
        | some (pl2, pr2, h2) => partition_loop fuel w compar arg pl2 pr2 h2
    else some (pl, pr, h)

/-- The quicksort branch up to the recursive calls: choose the pivot, exchange it
with the last element (`for(x = l[1], y = last, xend = x+w; x<xend; x++, y++)`),
then partition from `pl = b`, `pr = last`. Returns the final `pl` and `pr`. -/
def qs_partition {γ : Type} (fuel b nel w : Nat) (compar : Compar γ) (arg : γ)
    (h : Heap γ) : Option (Nat × Nat × Heap γ) :=
  let last := b + w * (nel - 1)
  match median3 b w nel compar arg h with
  | (l1, h1) =>
    let x := l1
    let y := last
    let xend := x + w
    let h2 := swap_loop (xend - x) x y h1
    partition_loop fuel w compar arg b last h2

/-- The function `sort_r_simple`. -/
def sort_r_simple {γ : Type} : Nat → Nat → Nat → Nat → Compar γ → γ → Heap γ →
    Option (Heap γ)
  | 0, _, _, _, _, _, _ => none
  | fuel + 1, base, nel, w, compar, arg, h0 =>
    let h := h0.note (Access.enter base nel)
    let b := base
    let end_ := b + nel * w
    if nel < 7 then
      match ins_outer fuel b w end_ compar arg (b + w) h with
      | none => none
      | some h1 => some (h1.note Access.leave)
    else
      match qs_partition fuel b nel w compar arg h with
      | none => none
      | some (pl, _, h1) =>
        match sort_r_simple fuel b ((pl - b) / w) w compar arg h1 with
        | none => none
        | some h2 =>
          match sort_r_simple fuel (pl + w) ((end_ - (pl + w)) / w) w compar arg h2 with
          | none => none
          | some h3 => some (h3.note Access.leave)

/-- The function `hb_sort_r` in the configuration without a native `qsort_r`
(the final `#else` of the dispatch): it calls `sort_r_simple`. -/
def hb_sort_r {γ : Type} (fuel base nel width : Nat) (compar : Compar γ) (arg : γ)
    (h : Heap γ) : Option (Heap γ) :=
  sort_r_simple fuel base nel width compar arg h

/-- Fuel that suffices for `sort_r_simple` on `nel` elements. -/
def sortFuel (nel : Nat) : Nat := 2 * nel + 4

/-! ## hb_bsearch_r -/

/-- A value reduced to the range of a 32-bit `int` (two's complement). -/
def wrap_int (x : Int) : Int := (x + 2147483648) % 4294967296 - 2147483648

/-- The comparator of the search: the key, the element (its bytes) and the context. -/
abbrev KeyCompar (κ γ : Type) := κ → List Byte → γ → Int

/-- The `w` bytes at address `p`; an address below the start of memory holds nothing. -/
def load (mem : List Byte) (w : Nat) (p : Int) : List Byte :=
  if 0 ≤ p then elem mem w p.toNat else []

/-- One comparator call of the search: the values of `min`, `max`, `mid`, the address
`p` of the element read, and the context passed. -/
structure Probe (γ : Type) where
  min : Int
  max : Int
  mid : Int
  p : Int
  arg : γ
deriving DecidableEq

/-- How a run of the search ends. -/
inductive Outcome where
  /-- The call returned the pointer `p`. -/
  | found (p : Int) : Outcome
  /-- The call returned `NULL`. -/
  | null : Outcome
  /-- The fuel ran out before the loop ended. -/
  | running : Outcome
deriving DecidableEq

/-- The loop `while (min <= max) { ... }` of `hb_bsearch_r`; returns the outcome and
the probes made (newest first). `int` arithmetic wraps; `/` truncates as in C. -/
def bsearch_loop {κ γ : Type} : Nat → κ → Nat → Nat → KeyCompar κ γ → γ → List Byte →
    Int → Int → List (Probe γ) → Outcome × List (Probe γ)
  | 0, _, _, _, _, _, _, _, _, log => (Outcome.running, log)
  | fuel + 1, key, base, size, compar, arg, mem, min, max, log =>
    if min ≤ max then
      let mid := Int.tdiv (wrap_int (min + max)) 2
      let p : Int := (base : Int) + mid * (size : Int)
      let c := compar key (load mem size p) arg
      let log1 := (⟨min, max, mid, p, arg⟩ : Probe γ) :: log
      if c < 0 then
        bsearch_loop fuel key base size compar arg mem min (wrap_int (mid - 1)) log1
      else if c > 0 then
        bsearch_loop fuel key base size compar arg mem (wrap_int (mid + 1)) max log1
      else
        (Outcome.found p, log1)
    else (Outcome.null, log)

/-- The function `hb_bsearch_r`: `int min = 0, max = (int) nmemb - 1;` and the loop. -/
def hb_bsearch_r {κ γ : Type} (fuel : Nat) (key : κ) (base nmemb size : Nat)
    (compar : KeyCompar κ γ) (arg : γ) (mem : List Byte) : Outcome × List (Probe γ) :=
  bsearch_loop fuel key base size compar arg mem 0 (wrap_int (wrap_int (nmemb : Int) - 1)) []


/-! ## The same algorithm on elements

The functions below are `sort_r_cmpswap` ... `sort_r_simple` with an element index
in place of each pointer and one whole element in place of its `w` bytes. They are
used in proofs only: the simulation lemmas relate every run of the byte-level
functions above to a run of these. -/

namespace Abs

/-- One recorded action at element granularity. -/
inductive Event where
  | compar (i j : Nat) : Event
  | swap (i j : Nat) : Event
  | cmpswap (i j : Nat) : Event
  | enter (b n : Nat) : Event
  | leave : Event
deriving DecidableEq

/-- The elements and the log (newest first). -/
structure State (α : Type) where
  es : List α
  log : List Event

/-- Add one entry to the log. -/
def State.note {α : Type} (s : State α) (e : Event) : State α := ⟨s.es, e :: s.log⟩

/-- Exchange the elements at indices `i` and `j`. -/
def swap {α : Type} [Inhabited α] (es : List α) (i j : Nat) : List α :=
  (es.set i (es.getD j default)).set j (es.getD i default)

/-- Element-level `sort_r_cmpswap`. -/
def cmpswap {α : Type} [Inhabited α] (cmp : α → α → Int) (i j : Nat) (s : State α) :
    Int × State α :=
  let s1 := (s.note (Event.cmpswap i j)).note (Event.compar i j)
  if cmp (s.es.getD i default) (s.es.getD j default) > 0 then
    (1, ⟨swap s.es i j, Event.swap i j :: s1.log⟩)
  else
    (0, s1)

/-- Element-level `ins_inner`. -/
def ins_inner {α : Type} [Inhabited α] : Nat → Nat → (α → α → Int) → Nat → State α →
    Option (State α)
  | 0, _, _, _, _ => none
  | fuel + 1, b, cmp, j, s =>
    if j > b then
      match cmpswap cmp (j - 1) j s with
      | (r, s1) => if r ≠ 0 then ins_inner fuel b cmp (j - 1) s1 else some s1
    else some s

/-- Element-level `ins_outer`. -/
def ins_outer {α : Type} [Inhabited α] : Nat → Nat → Nat → (α → α → Int) → Nat → State α →
    Option (State α)
  | 0, _, _, _, _, _ => none
  | fuel + 1, b, e, cmp, i, s =>
    if i < e then
      match ins_inner fuel b cmp i s with
      | none => none
      | some s1 => ins_outer fuel b e cmp (i + 1) s1
    else some s

/-- Element-level `median3`. -/
def median3 {α : Type} [Inhabited α] (b nel : Nat) (cmp : α → α → Int) (s : State α) :
    Nat × State α :=
  let last := b + (nel - 1)
  let l0 := b
  let l1 := b + nel / 2
  let l2 := last
  let s1 := s.note (Event.compar l0 l1)
  let c1 := cmp (s.es.getD l0 default) (s.es.getD l1 default) > 0
  let l0a := if c1 then l1 else l0
  let l1a := if c1 then l0 else l1
  let s2 := s1.note (Event.compar l1a l2)
  if cmp (s.es.getD l1a default) (s.es.getD l2 default) > 0 then
    let l1b := l2
    let s3 := s2.note (Event.compar l0a l1b)
    if cmp (s.es.getD l0a default) (s.es.getD l1b default) > 0 then
      (l0a, s3)
    else
      (l1b, s3)
  else
    (l1a, s2)

/-- Element-level `scan_left`. -/
def scan_left {α : Type} [Inhabited α] : Nat → (α → α → Int) → Nat → Nat → State α →
    Option (Nat × Nat × State α)
  | 0, _, _, _, _ => none
  | fuel + 1, cmp, pl, pr, s =>
    if pl < pr then
      match cmpswap cmp pl pr s with
      | (r, s1) =>
        if r ≠ 0 then some (pl, pr - 1, s1)
        else scan_left fuel cmp (pl + 1) pr s1
    else some (pl, pr, s)

/-- Element-level `scan_right`. -/
def scan_right {α : Type} [Inhabited α] : Nat → (α → α → Int) → Nat → Nat → State α →
    Option (Nat × Nat × State α)
  | 0, _, _, _, _ => none
  | fuel + 1, cmp, pl, pr, s =>
    if pl < pr then
      match cmpswap cmp pl pr s with
      | (r, s1) =>
        if r ≠ 0 then some (pl + 1, pr, s1)
        else scan_right fuel cmp pl (pr - 1) s1
    else some (pl, pr, s)

/-- Element-level `partition_loop`. -/
def partition_loop {α : Type} [Inhabited α] : Nat → (α → α → Int) → Nat → Nat → State α →
    Option (Nat × Nat × State α)
  | 0, _, _, _, _ => none
  | fuel + 1, cmp, pl, pr, s =>
    if pl < pr then
      match scan_left fuel cmp pl pr s with
      | none => none
      | some (pl1, pr1, s1) =>
        match scan_right fuel cmp pl1 pr1 s1 with
        | none => none
        | some (pl2, pr2, s2) => partition_loop fuel cmp pl2 pr2 s2
    else some (pl, pr, s)

/-- The state after the pivot was chosen and exchanged with the last element. -/
def pivot_last {α : Type} [Inhabited α] (b nel : Nat) (cmp : α → α → Int) (s : State α) :
    State α :=
  match median3 b nel cmp s with
  | (l1, s1) => ⟨swap s1.es l1 (b + (nel - 1)), Event.swap l1 (b + (nel - 1)) :: s1.log⟩

/-- Element-level `qs_partition`. -/
def qs_partition {α : Type} [Inhabited α] (fuel b nel : Nat) (cmp : α → α → Int)
    (s : State α) : Option (Nat × Nat × State α) :=
  partition_loop fuel cmp b (b + (nel - 1)) (pivot_last b nel cmp s)

/-- Element-level `sort_r_simple`. -/
def sort {α : Type} [Inhabited α] : Nat → Nat → Nat → (α → α → Int) → State α →
    Option (State α)
  | 0, _, _, _, _ => none
  | fuel + 1, b, nel, cmp, s0 =>
    let s := s0.note (Event.enter b nel)
    if nel < 7 then
      match ins_outer fuel b (b + nel) cmp (b + 1) s with
      | none => none
      | some s1 => some (s1.note Event.leave)
    else
      match qs_partition fuel b nel cmp s with
      | none => none
      | some (pl, _, s1) =>
        match sort fuel b (pl - b) cmp s1 with
        | none => none
        | some s2 =>
          match sort fuel (pl + 1) (b + nel - (pl + 1)) cmp s2 with
          | none => none
          | some s3 => some (s3.note Event.leave)

/-- The list `es'` arises from `es` by exchanging elements at indices in `[lo, hi)`. -/
inductive SwapsIn {α : Type} [Inhabited α] (lo hi : Nat) : List α → List α → Prop where
  | refl (es : List α) : SwapsIn lo hi es es
  | step (es es' : List α) (i j : Nat) : lo ≤ i → i < hi → lo ≤ j → j < hi →
      i < es.length → j < es.length → SwapsIn lo hi (swap es i j) es' → SwapsIn lo hi es es'

/-- The entry concerns only indices in `[lo, hi)`; a `cmpswap` has two different
elements, the first one to the left of the second. -/
def EventIn (lo hi : Nat) : Event → Prop
  | Event.compar i j => lo ≤ i ∧ i < hi ∧ lo ≤ j ∧ j < hi
  | Event.swap i j => lo ≤ i ∧ i ≤ j ∧ j < hi
  | Event.cmpswap i j => lo ≤ i ∧ i < j ∧ j < hi
  | Event.enter b n => lo ≤ b ∧ b + n ≤ hi
  | Event.leave => True

/-- The log `l'` is `l` with new entries on top, all of them inside `[lo, hi)`. -/
def LogExt (lo hi : Nat) (l l' : List Event) : Prop :=
  ∃ new, l' = new ++ l ∧ ∀ e ∈ new, EventIn lo hi e

/-- Adjacent elements at indices in `[lo, hi)` are in order. -/
def SortedOn {α : Type} [Inhabited α] (cmp : α → α → Int) (lo hi : Nat) (es : List α) : Prop :=
  ∀ k, lo ≤ k → k + 1 < hi → cmp (es.getD k default) (es.getD (k + 1) default) ≤ 0

/-- The weak form of antisymmetry the sort relies on, on the members of `es`. -/
def Anti {α : Type} (cmp : α → α → Int) (es : List α) : Prop :=
  ∀ x ∈ es, ∀ y ∈ es, cmp x y > 0 → cmp y x ≤ 0

end Abs

/-! ## From elements back to bytes -/

/-- The log entries of one run of the byte loop of `swap_loop`. -/
def xchgs {γ : Type} : Nat → Nat → Nat → List (Access γ) → List (Access γ)
  | 0, _, _, l => l
  | n + 1, a, b, l => xchgs n (a + 1) (b + 1) (Access.xchg a b :: l)

/-- The byte-level log entries that one element-level entry stands for, pushed on `l`. -/
def concEvent {γ : Type} (B w : Nat) (arg : γ) (e : Abs.Event) (l : List (Access γ)) :
    List (Access γ) :=
  match e with
  | Abs.Event.compar i j => Access.compar (B + i * w) (B + j * w) arg :: l
  | Abs.Event.swap i j => xchgs w (B + i * w) (B + j * w) l
  | Abs.Event.cmpswap i j => Access.cmpswap (B + i * w) (B + j * w) :: l
  | Abs.Event.enter b n => Access.enter (B + b * w) n :: l
  | Abs.Event.leave => Access.leave :: l

/-- The byte-level log of an element-level log, on top of the earlier log `l0`. -/
def concLog {γ : Type} (B w : Nat) (arg : γ) (l0 : List (Access γ)) :
    List Abs.Event → List (Access γ)
  | [] => l0
  | e :: al => concEvent B w arg e (concLog B w arg l0 al)

/-- The byte-level heap of an element-level state: the elements laid out between the
bytes `pre` before the array and the bytes `post` after it. -/
def concHeap {γ : Type} (pre post : List Byte) (w : Nat) (arg : γ) (l0 : List (Access γ))
    (s : Abs.State (List Byte)) : Heap γ :=
  ⟨pre ++ s.es.flatten ++ post, concLog pre.length w arg l0 s.log⟩


/-! ## Vocabulary of the statements -/

/-- A valid comparator on the elements `es`: `compar(a,b) > 0` iff `compar(b,a) < 0`,
and `compar ≤ 0` is transitive. -/
def ValidOn {γ : Type} (compar : Compar γ) (arg : γ) (es : List (List Byte)) : Prop :=
  (∀ a ∈ es, ∀ b ∈ es, (compar a b arg > 0 ↔ compar b a arg < 0)) ∧
  (∀ a ∈ es, ∀ b ∈ es, ∀ c ∈ es, compar a b arg ≤ 0 → compar b c arg ≤ 0 → compar a c arg ≤ 0)

/-- Every adjacent pair of the `n` elements at `base` is in order. -/
def SortedArr {γ : Type} (compar : Compar γ) (arg : γ) (mem : List Byte) (base w n : Nat) :
    Prop :=
  ∀ i, i + 1 < n →
    compar (elem mem w (base + i * w)) (elem mem w (base + (i + 1) * w)) arg ≤ 0

/-- The pointer `p` is the address of one of the `n` elements at `base`. -/
def ElemPtr (base n w p : Nat) : Prop := ∃ i, i < n ∧ p = base + i * w

/-- The log entry stays inside the array of `n` elements at `base` and passes `arg`:
compared and swapped pointers are element addresses of the array, exchanged bytes lie
in it, `sort_r_cmpswap` gets two different elements, a nested call of
`sort_r_simple` gets a sub-range. -/
def AccessIn {γ : Type} (base n w : Nat) (arg : γ) : Access γ → Prop
  | Access.compar a b arg' => ElemPtr base n w a ∧ ElemPtr base n w b ∧ arg' = arg
  | Access.xchg x y => base ≤ x ∧ x < base + n * w ∧ base ≤ y ∧ y < base + n * w
  | Access.cmpswap a b => ElemPtr base n w a ∧ ElemPtr base n w b ∧ a ≠ b
  | Access.enter b m => ∃ i, b = base + i * w ∧ i + m ≤ n
  | Access.leave => True

/-- The number of comparator calls recorded in a log. -/
def comparCount {γ : Type} : List (Access γ) → Nat
  | [] => 0
  | Access.compar _ _ _ :: l => comparCount l + 1
  | _ :: l => comparCount l

/-- A comparator for one-byte elements: the numeric order of the bytes. -/
def byteCmp : Compar Unit := fun a b _ => (a.headD 0 : Int) - (b.headD 0 : Int)

/-- The result of the comparator for the key and element `i` of the array. -/
def keyCmpAt {κ γ : Type} (compar : KeyCompar κ γ) (key : κ) (arg : γ) (mem : List Byte)
    (base size i : Nat) : Int :=
  compar key (elem mem size (base + i * size)) arg

/-- The array is sorted with respect to the key: for `i ≤ j`, a key below element `i`
is below element `j`, and a key above element `j` is above element `i`. -/
def SortedForKey {κ γ : Type} (compar : KeyCompar κ γ) (key : κ) (arg : γ) (mem : List Byte)
    (base size n : Nat) : Prop :=
  ∀ i j, i ≤ j → j < n →
    (keyCmpAt compar key arg mem base size i < 0 → keyCmpAt compar key arg mem base size j < 0) ∧
    (keyCmpAt compar key arg mem base size j > 0 → keyCmpAt compar key arg mem base size i > 0)

/-- The probe stays inside `[lo, hi]` and inside the array of `n` elements, reads the
element at `base + mid * size` and passes `arg`. -/
def ProbeOk {γ : Type} (base size n : Nat) (arg : γ) (p : Probe γ) : Prop :=
  p.min ≤ p.mid ∧ p.mid ≤ p.max ∧ 0 ≤ p.mid ∧ p.mid ≤ (n : Int) - 1 ∧
    p.p = (base : Int) + p.mid * (size : Int) ∧ p.arg = arg

/-- A comparator of the search for one-byte elements: the numeric order. -/
def byteKeyCmp : KeyCompar Nat Unit := fun k e _ => (k : Int) - (e.headD 0 : Int)

/-! ## A reference sort -/

/-- Insert `x` into a list in ascending order: in front of the first element that it
does not exceed. -/
def ref_insert {α : Type} (cmp : α → α → Int) (x : α) : List α → List α
  | [] => [x]
  | y :: l => if cmp x y ≤ 0 then x :: y :: l else y :: ref_insert cmp x l

/-- A plain insertion sort on a list of elements, the reference that `sort_r_simple`
is compared with. It shares no code with the embedding of `sort_r_simple`. -/
def ref_sort {α : Type} (cmp : α → α → Int) : List α → List α
  | [] => []
  | x :: l => ref_insert cmp x (ref_sort cmp l)

/-- A comparator that reads a secondary key through the context: the elements are
one-byte indices into the list of weights `ws`, ordered by their weight. -/
def weightCmp : Compar (List Nat) :=
  fun a b ws => (ws.getD (a.headD 0) 0 : Int) - (ws.getD (b.headD 0) 0 : Int)

/-- The comparator of `hb_sort_r` with the context fixed: the two-argument
comparator `(a, b) ↦ compar(a, b, arg)`, which ignores the context it is given. -/
def closeOver {γ : Type} (compar : Compar γ) (arg : γ) : Compar Unit :=
  fun a b _ => compar a b arg

/-- A comparator of the search that reads a secondary key through the context: the key
is a weight, the elements are one-byte indices into the list of weights `ws`. -/
def weightKeyCmp : KeyCompar Nat (List Nat) :=
  fun k e ws => (k : Int) - (ws.getD (e.headD 0) 0 : Int)

/-! ## Parts of `sort_r_simple` that statements refer to -/

/-- The quicksort branch of `sort_r_simple` before its partition loop: the pivot is
chosen by `median3` and exchanged with the last element. Returns `l[1]` and the heap
that the partition loop starts from; `qs_partition` is the partition loop run from
here. -/
def pivot_step {γ : Type} (b nel w : Nat) (compar : Compar γ) (arg : γ) (h : Heap γ) :
    Nat × Heap γ :=
  let last := b + w * (nel - 1)
  match median3 b w nel compar arg h with
  | (l1, h1) => (l1, swap_loop (l1 + w - l1) l1 last h1)

/-- The calls and returns of `sort_r_simple` in a log, oldest first: `true` for a call,
`false` for a return. -/
def callTrace {γ : Type} (log : List (Access γ)) : List Bool :=
  log.reverse.filterMap (fun e =>
    match e with
    | Access.enter _ _ => some true
    | Access.leave => some false
    | _ => none)

/-- Walk through calls and returns with the current nesting depth `c` and the largest
depth seen `m`. -/
def depthScan : List Bool → Nat → Nat → Nat
  | [], _, m => m
  | true :: l, c, m => depthScan l (c + 1) (max m (c + 1))
  | false :: l, c, m => depthScan l (c - 1) m

/-- The largest number of calls of `sort_r_simple` that are pending at the same time
in a log. -/
def callDepth {γ : Type} (log : List (Access γ)) : Nat := depthScan (callTrace log) 0 0

/-- The calls and returns in an element-level log, oldest first. -/
def Abs.callTrace (log : List Abs.Event) : List Bool :=
  log.reverse.filterMap (fun e =>
    match e with
    | Abs.Event.enter _ _ => some true
    | Abs.Event.leave => some false
    | _ => none)

/-- A profile of a stretch of calls and returns: it is balanced, and it raises the
nesting depth by at most `d`, which it reaches. -/
def DepthProfile (t : List Bool) (d : Nat) : Prop :=
  ∀ rest c m, depthScan (t ++ rest) c m = depthScan rest c (max m (c + d))

/-- The number of byte exchanges recorded in a log. -/
def xchgCount {γ : Type} : List (Access γ) → Nat
  | [] => 0
  | Access.xchg _ _ :: l => xchgCount l + 1
  | _ :: l => xchgCount l

/-- The number of element exchanges recorded in an element-level log. -/
def Abs.swapCount : List Abs.Event → Nat
  | [] => 0
  | Abs.Event.swap _ _ :: l => Abs.swapCount l + 1
  | _ :: l => Abs.swapCount l

/-- All elements compare equal to one another. -/
def Abs.AllEq {α : Type} (cmp : α → α → Int) (es : List α) : Prop :=
  ∀ x ∈ es, ∀ y ∈ es, cmp x y = 0

/-! ## Vocabulary for the insertion sort -/

/-- The list `es'` arises from `es` by `n` exchanges of two adjacent elements of which
the left one compares strictly greater than the right one. -/
inductive Abs.AdjSwaps {α : Type} [Inhabited α] (cmp : α → α → Int) :
    Nat → List α → List α → Prop where
  | refl (es : List α) : Abs.AdjSwaps cmp 0 es es
  | step (n : Nat) (es es' : List α) (k : Nat) : k + 1 < es.length →
      cmp (es.getD k default) (es.getD (k + 1) default) > 0 →
      Abs.AdjSwaps cmp n (Abs.swap es k (k + 1)) es' → Abs.AdjSwaps cmp (n + 1) es es'

/-- The entry concerns an element and its right neighbour (or is a call or a return). -/
def Abs.AdjEvent : Abs.Event → Prop
  | Abs.Event.compar i j => j = i + 1
  | Abs.Event.swap i j => j = i + 1
  | Abs.Event.cmpswap i j => j = i + 1
  | Abs.Event.enter _ _ => True
  | Abs.Event.leave => True

/-- The log `l'` is `l` with new entries on top, all of them about adjacent elements. -/
def Abs.AdjLog (l l' : List Abs.Event) : Prop :=
  ∃ new, l' = new ++ l ∧ ∀ e ∈ new, Abs.AdjEvent e

/-- The map `σ` of positions carries `es` to `es'` (element `i` of `es'` is element
`σ i` of `es`), is one-to-one on the positions, and keeps the order of every two
elements of `es'` that compare equal. -/
def Abs.StableMap {α : Type} [Inhabited α] (cmp : α → α → Int) (es es' : List α)
    (σ : Nat → Nat) : Prop :=
  (∀ i, i < es.length → σ i < es.length) ∧
  (∀ i j, i < es.length → j < es.length → σ i = σ j → i = j) ∧
  (∀ i, i < es.length → es'.getD i default = es.getD (σ i) default) ∧
  (∀ i j, i < j → j < es.length →
    cmp (es'.getD i default) (es'.getD j default) = 0 → σ i < σ j)

/-- The memory `mem'` arises from `mem` by `n` exchanges, one after the other, each of
element `k` of the array of `nel` elements of width `w` at `base` with its right
neighbour `k + 1`, and each made in a memory in which element `k` compares strictly
greater than element `k + 1`. The exchange is the byte loop of `sort_r_cmpswap`. -/
inductive AdjExchanges {γ : Type} (compar : Compar γ) (arg : γ) (base w nel : Nat) :
    Nat → List Byte → List Byte → Prop where
  | done (mem : List Byte) : AdjExchanges compar arg base w nel 0 mem mem
  | step (n : Nat) (mem mem' : List Byte) (k : Nat) : k + 1 < nel →
      compar (elem mem w (base + k * w)) (elem mem w (base + (k + 1) * w)) arg > 0 →
      AdjExchanges compar arg base w nel n
        (swap_loop w (base + k * w) (base + (k + 1) * w) (⟨mem, []⟩ : Heap γ)).mem mem' →
      AdjExchanges compar arg base w nel (n + 1) mem mem'

/-- The log entry concerns an element of width `w` and its right neighbour: the
comparator and `sort_r_cmpswap` get the pointers `a` and `a + w`, and a byte is
exchanged with the byte `w` places to its right. -/
def AdjacentAccess {γ : Type} (w : Nat) : Access γ → Prop
  | Access.compar a b _ => b = a + w
  | Access.xchg x y => y = x + w
  | Access.cmpswap a b => b = a + w
  | Access.enter _ _ => True
  | Access.leave => True

/-! ## Bytes: the exchange loop -/

theorem swap_loop_log {γ : Type} (n a b : Nat) (h : Heap γ) :
    (swap_loop n a b h).log = xchgs n a b h.log := by
  induction n generalizing a b h with
  | zero => rfl
  | succ n ih => simp [swap_loop, xchgs, ih]

theorem getD_append_at {α : Type} (P R : List α) (x d : α) (k : Nat) (hk : k = P.length) :
    (P ++ x :: R).getD k d = x := by
  subst hk
  rw [List.getD_eq_getElem?_getD, List.getElem?_append_right (Nat.le_refl _)]
  simp

theorem set_append_at {α : Type} (P R : List α) (x y : α) (k : Nat) (hk : k = P.length) :
    (P ++ x :: R).set k y = P ++ y :: R := by
  subst hk
  rw [List.set_append_right _ _ (Nat.le_refl _)]
  simp

theorem set_getD_self {α : Type} (m : List α) (a : Nat) (d : α) : m.set a (m.getD a d) = m := by
  apply List.ext_getElem?
  intro k
  rw [List.getElem?_set]
  by_cases hk : a = k
  · subst hk
    by_cases hl : a < m.length
    · simp [hl, List.getD_eq_getElem?_getD]
    · simp [hl]
      omega
  · simp [hk]

theorem swap_loop_self {γ : Type} (n a : Nat) (h : Heap γ) :
    (swap_loop n a a h).mem = h.mem := by
  induction n generalizing a h with
  | zero => rfl
  | succ n ih =>
    simp only [swap_loop]
    rw [ih]
    simp only []
    rw [set_getD_self, set_getD_self]

/-- Exchanging two blocks of equal length that do not overlap. -/
theorem swap_loop_mem {γ : Type} (xs ys P M S : List Byte) (l : List (Access γ))
    (hlen : xs.length = ys.length) (a b : Nat) (ha : a = P.length)
    (hb : b = P.length + xs.length + M.length) :
    (swap_loop xs.length a b ⟨P ++ xs ++ M ++ ys ++ S, l⟩).mem = P ++ ys ++ M ++ xs ++ S := by
  induction xs generalizing ys P M l a b with
  | nil =>
    cases ys with
    | nil => simp [swap_loop]
    | cons y ys => simp at hlen
  | cons x xs ih =>
    cases ys with
    | nil => simp at hlen
    | cons y ys =>
      simp only [List.length_cons, Nat.add_right_cancel_iff] at hlen
      simp only [List.length_cons, swap_loop]
      have e1 : P ++ x :: xs ++ M ++ y :: ys ++ S = P ++ x :: (xs ++ M ++ y :: ys ++ S) := by
        simp [List.append_assoc]
      have e1b : P ++ x :: xs ++ M ++ y :: ys ++ S = (P ++ x :: xs ++ M) ++ y :: (ys ++ S) := by
        simp [List.append_assoc]
      have h1 : (P ++ x :: xs ++ M ++ y :: ys ++ S).getD a 0 = x := by
        rw [e1]; exact getD_append_at _ _ _ _ _ ha
      have h2 : (P ++ x :: xs ++ M ++ y :: ys ++ S).getD b 0 = y := by
        rw [e1b]; exact getD_append_at _ _ _ _ _ (by simp at hb ⊢; omega)
      rw [h1, h2]
      have h3 : ((P ++ x :: xs ++ M ++ y :: ys ++ S).set a y).set b x
          = (P ++ [y]) ++ xs ++ (M ++ [x]) ++ ys ++ S := by
        rw [e1, set_append_at _ _ _ _ _ ha]
        have e2 : P ++ y :: (xs ++ M ++ y :: ys ++ S) = (P ++ y :: xs ++ M) ++ y :: (ys ++ S) := by
          simp [List.append_assoc]
        rw [e2, set_append_at _ _ _ _ _ (by simp at hb ⊢; omega)]
        simp [List.append_assoc]
      rw [h3]
      rw [ih ys (P ++ [y]) (M ++ [x]) _ hlen (a + 1) (b + 1) (by simp [ha])
        (by simp at hb ⊢; omega)]
      simp [List.append_assoc]

/-! ## Elements laid out in memory -/

theorem flatten_length_uniform (w : Nat) (es : List (List Byte))
    (hu : ∀ e ∈ es, e.length = w) : es.flatten.length = es.length * w := by
  induction es with
  | nil => simp
  | cons e es ih =>
    simp only [List.flatten_cons, List.length_append, List.length_cons]
    rw [ih (fun e he => hu e (List.mem_cons_of_mem _ he)), hu e (List.mem_cons_self _ _)]
    ring

theorem split_at {α : Type} [Inhabited α] (es : List α) (i : Nat) (hi : i < es.length) :
    ∃ A C, es = A ++ es.getD i default :: C ∧ A.length = i := by
  refine ⟨es.take i, es.drop (i + 1), ?_, by simp; omega⟩
  rw [List.getD_eq_getElem _ _ hi]
  conv_lhs => rw [← List.take_append_drop i es]
  rw [List.drop_eq_getElem_cons hi]

theorem split_two {α : Type} [Inhabited α] (es : List α) (i j : Nat) (hij : i < j)
    (hj : j < es.length) :
    ∃ A M C, es = A ++ es.getD i default :: (M ++ es.getD j default :: C) ∧
      A.length = i ∧ A.length + 1 + M.length = j := by
  obtain ⟨A, R, hA, hAl⟩ := split_at es i (by omega)
  have hR : j - i - 1 < R.length := by
    have := congrArg List.length hA
    simp at this
    omega
  obtain ⟨M, C, hM, hMl⟩ := split_at R (j - i - 1) hR
  have hget : R.getD (j - i - 1) default = es.getD j default := by
    conv_rhs => rw [hA]
    rw [List.getD_eq_getElem?_getD, List.getD_eq_getElem?_getD,
      List.getElem?_append_right (by omega)]
    have : j - A.length = (j - i - 1) + 1 := by omega
    rw [this, List.getElem?_cons_succ]
  refine ⟨A, M, C, ?_, hAl, by omega⟩
  rw [← hget, ← hM]
  exact hA

theorem swap_split {α : Type} [Inhabited α] (A M C : List α) (x y : α) (i j : Nat)
    (hi : i = A.length) (hj : j = A.length + 1 + M.length) :
    Abs.swap (A ++ x :: (M ++ y :: C)) i j = A ++ y :: (M ++ x :: C) := by
  unfold Abs.swap
  have e1 : A ++ x :: (M ++ y :: C) = (A ++ x :: M) ++ y :: C := by simp
  have h1 : (A ++ x :: (M ++ y :: C)).getD i default = x := getD_append_at _ _ _ _ _ hi
  have h2 : (A ++ x :: (M ++ y :: C)).getD j default = y := by
    rw [e1]; exact getD_append_at _ _ _ _ _ (by simp; omega)
  rw [h1, h2, set_append_at _ _ _ _ _ hi]
  have e2 : A ++ y :: (M ++ y :: C) = (A ++ y :: M) ++ y :: C := by simp
  rw [e2, set_append_at _ _ _ _ _ (by simp; omega)]
  simp

theorem swap_same {α : Type} [Inhabited α] (es : List α) (i : Nat) : Abs.swap es i i = es := by
  unfold Abs.swap
  rw [set_getD_self]
  exact set_getD_self _ _ _

theorem elem_at (P x S : List Byte) (w p : Nat) (hp : p = P.length) (hw : w = x.length) :
    elem (P ++ x ++ S) w p = x := by
  subst hp hw
  simp [elem, List.append_assoc]

theorem elem_concHeap (pre post : List Byte) (w : Nat) (es : List (List Byte))
    (hu : ∀ e ∈ es, e.length = w) (i : Nat) (hi : i < es.length) :
    elem (pre ++ es.flatten ++ post) w (pre.length + i * w) = es.getD i default := by
  obtain ⟨A, C, hA, hAl⟩ := split_at es i hi
  have hx : (es.getD i default).length = w := by
    apply hu
    rw [List.getD_eq_getElem _ _ hi]
    exact List.getElem_mem _
  have hAu : ∀ e ∈ A, e.length = w := by
    intro e he
    apply hu
    rw [hA]
    exact List.mem_append_left _ he
  have hfl := flatten_length_uniform w A hAu
  generalize es.getD i default = x at hA hx ⊢
  subst hA
  have : pre ++ (A ++ x :: C).flatten ++ post = (pre ++ A.flatten) ++ x ++ (C.flatten ++ post) := by
    simp [List.append_assoc]
  rw [this]
  exact elem_at _ _ _ _ _ (by simp [hfl, hAl]) hx.symm

/-! ## Exchanging two elements; `sort_r_cmpswap` on bytes and on elements -/

theorem swap_length {α : Type} [Inhabited α] (es : List α) (i j : Nat) :
    (Abs.swap es i j).length = es.length := by
  simp [Abs.swap]

theorem swap_comm {α : Type} [Inhabited α] (es : List α) (i j : Nat) :
    Abs.swap es i j = Abs.swap es j i := by
  by_cases h : i = j
  · subst h; rfl
  · unfold Abs.swap
    exact List.set_comm _ _ _ h

theorem cons_mid_perm {α : Type} (M C : List α) (x y : α) :
    (y :: (M ++ x :: C)).Perm (x :: (M ++ y :: C)) := by
  have h1 : (y :: (M ++ x :: C)).Perm (y :: x :: (M ++ C)) := List.Perm.cons _ List.perm_middle
  have h2 : (x :: (M ++ y :: C)).Perm (x :: y :: (M ++ C)) := List.Perm.cons _ List.perm_middle
  exact h1.trans ((List.Perm.swap x y _).trans h2.symm)

theorem swap_perm {α : Type} [Inhabited α] (es : List α) (i j : Nat)
    (hi : i < es.length) (hj : j < es.length) : (Abs.swap es i j).Perm es := by
  rcases Nat.lt_trichotomy i j with h | h | h
  · obtain ⟨A, M, C, hes, hA, hM⟩ := split_two es i j h hj
    generalize es.getD i default = x at hes
    generalize es.getD j default = y at hes
    subst hes
    rw [swap_split A M C x y i j hA.symm hM.symm]
    apply List.Perm.append_left
    exact cons_mid_perm _ _ _ _
  · subst h; rw [swap_same]
  · rw [swap_comm]
    obtain ⟨A, M, C, hes, hA, hM⟩ := split_two es j i h hi
    generalize es.getD i default = x at hes
    generalize es.getD j default = y at hes
    subst hes
    rw [swap_split A M C y x j i hA.symm hM.symm]
    apply List.Perm.append_left
    exact cons_mid_perm _ _ _ _

theorem swap_getD {α : Type} [Inhabited α] (es : List α) (i j k : Nat)
    (hi : i < es.length) (hj : j < es.length) :
    (Abs.swap es i j).getD k default =
      if k = j then es.getD i default else if k = i then es.getD j default
      else es.getD k default := by
  unfold Abs.swap
  simp only [List.getD_eq_getElem?_getD, List.getElem?_set, List.length_set]
  by_cases h1 : j = k
  · subst h1; simp [hj]
  · have h1b : ¬ k = j := fun h => h1 h.symm
    by_cases h2 : i = k
    · subst h2; simp [h1, h1b, hi]
    · have h2b : ¬ k = i := fun h => h2 h.symm
      simp [h1, h2, h1b, h2b]

theorem swap_loop_conc {γ : Type} (pre post : List Byte) (w : Nat) (es : List (List Byte))
    (hu : ∀ e ∈ es, e.length = w) (i j : Nat) (hij : i ≤ j) (hj : j < es.length)
    (l : List (Access γ)) :
    swap_loop w (pre.length + i * w) (pre.length + j * w) ⟨pre ++ es.flatten ++ post, l⟩ =
      ⟨pre ++ (Abs.swap es i j).flatten ++ post,
        xchgs w (pre.length + i * w) (pre.length + j * w) l⟩ := by
  have hlog := swap_loop_log w (pre.length + i * w) (pre.length + j * w)
    (⟨pre ++ es.flatten ++ post, l⟩ : Heap γ)
  have hmem : (swap_loop w (pre.length + i * w) (pre.length + j * w)
      (⟨pre ++ es.flatten ++ post, l⟩ : Heap γ)).mem = pre ++ (Abs.swap es i j).flatten ++ post := by
    rcases Nat.lt_or_eq_of_le hij with h | h
    · obtain ⟨A, M, C, hes, hA, hM⟩ := split_two es i j h hj
      have hx : (es.getD i default).length = w := by
        apply hu; rw [List.getD_eq_getElem _ _ (by omega)]; exact List.getElem_mem _
      have hy : (es.getD j default).length = w := by
        apply hu; rw [List.getD_eq_getElem _ _ hj]; exact List.getElem_mem _
      generalize es.getD i default = x at hes hx
      generalize es.getD j default = y at hes hy
      subst hes
      have hAu : ∀ e ∈ A, e.length = w := fun e he => hu e (List.mem_append_left _ he)
      have hMu : ∀ e ∈ M, e.length = w := fun e he =>
        hu e (List.mem_append_right _ (List.mem_cons_of_mem _ (List.mem_append_left _ he)))
      rw [swap_split A M C x y i j hA.symm hM.symm]
      have e1 : pre ++ (A ++ x :: (M ++ y :: C)).flatten ++ post =
          (pre ++ A.flatten) ++ x ++ M.flatten ++ y ++ (C.flatten ++ post) := by
        simp [List.append_assoc]
      have e2 : pre ++ (A ++ y :: (M ++ x :: C)).flatten ++ post =
          (pre ++ A.flatten) ++ y ++ M.flatten ++ x ++ (C.flatten ++ post) := by
        simp [List.append_assoc]
      rw [e1, e2]
      have hw : w = x.length := hx.symm
      rw [hw]
      apply swap_loop_mem x y _ _ _ _ (by omega)
      · simp [flatten_length_uniform w A hAu, hA, hx]
      · simp [flatten_length_uniform w A hAu, flatten_length_uniform w M hMu, hA, hx]
        rw [← hM, ← hA]; ring
    · subst h
      rw [swap_loop_self, swap_same]
  calc swap_loop w (pre.length + i * w) (pre.length + j * w) ⟨pre ++ es.flatten ++ post, l⟩
      = ⟨(swap_loop w (pre.length + i * w) (pre.length + j * w)
            (⟨pre ++ es.flatten ++ post, l⟩ : Heap γ)).mem,
          (swap_loop w (pre.length + i * w) (pre.length + j * w)
            (⟨pre ++ es.flatten ++ post, l⟩ : Heap γ)).log⟩ := rfl
    _ = _ := by rw [hmem, hlog]

/-- The comparator on elements that `compar` and `arg` induce. -/
theorem cmpswap_sim {γ : Type} (pre post : List Byte) (w : Nat) (compar : Compar γ) (arg : γ)
    (l0 : List (Access γ)) (s : Abs.State (List Byte)) (hu : ∀ e ∈ s.es, e.length = w)
    (i j : Nat) (hij : i ≤ j) (hj : j < s.es.length) :
    sort_r_cmpswap (pre.length + i * w) (pre.length + j * w) w compar arg
        (concHeap pre post w arg l0 s) =
      ((Abs.cmpswap (fun x y => compar x y arg) i j s).1,
        concHeap pre post w arg l0 (Abs.cmpswap (fun x y => compar x y arg) i j s).2) := by
  unfold sort_r_cmpswap Abs.cmpswap
  simp only [concHeap, Heap.note, Abs.State.note]
  rw [elem_concHeap pre post w s.es hu i (by omega), elem_concHeap pre post w s.es hu j hj]
  by_cases hc : compar (s.es.getD i default) (s.es.getD j default) arg > 0
  · simp only [hc, if_true, Nat.add_sub_cancel_left]
    rw [swap_loop_conc pre post w s.es hu i j hij hj]
    rfl
  · simp only [hc, if_false]
    rfl

/-! ## Element level: permutation and pointer bounds of the loops -/

namespace Abs

variable {α : Type} [Inhabited α]

theorem cmpswap_cases (cmp : α → α → Int) (i j : Nat) (s : State α) :
    (cmp (s.es.getD i default) (s.es.getD j default) > 0 ∧
      cmpswap cmp i j s = (1, ⟨swap s.es i j,
        Event.swap i j :: Event.compar i j :: Event.cmpswap i j :: s.log⟩)) ∨
    (¬ cmp (s.es.getD i default) (s.es.getD j default) > 0 ∧
      cmpswap cmp i j s = (0, ⟨s.es, Event.compar i j :: Event.cmpswap i j :: s.log⟩)) := by
  unfold cmpswap
  by_cases hc : cmp (s.es.getD i default) (s.es.getD j default) > 0
  · left; simp only [hc, State.note, if_true, true_and]
  · right; simp only [hc, State.note, if_false, not_false_eq_true, true_and]

theorem cmpswap_perm (cmp : α → α → Int) (i j : Nat) (s : State α)
    (hi : i < s.es.length) (hj : j < s.es.length) :
    (cmpswap cmp i j s).2.es.Perm s.es := by
  rcases cmpswap_cases cmp i j s with ⟨_, h⟩ | ⟨_, h⟩
  · rw [h]; exact swap_perm _ _ _ hi hj
  · rw [h]

theorem ins_inner_perm (cmp : α → α → Int) (b : Nat) :
    ∀ (fuel j : Nat) (s s' : State α), j < s.es.length →
      ins_inner fuel b cmp j s = some s' → s'.es.Perm s.es := by
  intro fuel
  induction fuel with
  | zero => intro j s s' _ h; simp [ins_inner] at h
  | succ fuel ih =>
    intro j s s' hj h
    simp only [ins_inner] at h
    split at h
    · have hp := cmpswap_perm cmp (j - 1) j s (by omega) hj
      split at h
      · exact (ih (j - 1) _ s' (by rw [hp.length_eq]; omega) h).trans hp
      · simp only [Option.some.injEq] at h
        rw [← h]; exact hp
    · simp only [Option.some.injEq] at h
      rw [h]

theorem ins_outer_perm (cmp : α → α → Int) (b e : Nat) :
    ∀ (fuel i : Nat) (s s' : State α), e ≤ s.es.length →
      ins_outer fuel b e cmp i s = some s' → s'.es.Perm s.es := by
  intro fuel
  induction fuel with
  | zero => intro i s s' _ h; simp [ins_outer] at h
  | succ fuel ih =>
    intro i s s' he h
    simp only [ins_outer] at h
    split at h
    · split at h
      · simp at h
      · rename_i s1 h1
        have hp := ins_inner_perm cmp b fuel i s s1 (by omega) h1
        exact (ih (i + 1) s1 s' (by rw [hp.length_eq]; exact he) h).trans hp
    · simp only [Option.some.injEq] at h
      rw [h]

theorem scan_left_basic (cmp : α → α → Int) :
    ∀ (fuel pl pr : Nat) (s : State α) (pl' pr' : Nat) (s' : State α),
      pl ≤ pr → pr < s.es.length →
      scan_left fuel cmp pl pr s = some (pl', pr', s') →
      s'.es.Perm s.es ∧ pl ≤ pl' ∧ pl' ≤ pr' ∧ pr' ≤ pr ∧ (pl < pr → pr' - pl' < pr - pl) := by
  intro fuel
  induction fuel with
  | zero => intro pl pr s pl' pr' s' _ _ h; simp [scan_left] at h
  | succ fuel ih =>
    intro pl pr s pl' pr' s' hle hpr h
    simp only [scan_left] at h
    split at h
    · have hp := cmpswap_perm cmp pl pr s (by omega) hpr
      split at h
      · simp only [Option.some.injEq, Prod.mk.injEq] at h
        obtain ⟨h1, h2, h3⟩ := h
        subst h1 h2 h3
        exact ⟨hp, Nat.le_refl _, by omega, by omega, by omega⟩
      · obtain ⟨q1, q2, q3, q4, _⟩ := ih (pl + 1) pr _ pl' pr' s' (by omega)
          (by rw [hp.length_eq]; exact hpr) h
        exact ⟨q1.trans hp, by omega, q3, q4, by omega⟩
    · simp only [Option.some.injEq, Prod.mk.injEq] at h
      obtain ⟨h1, h2, h3⟩ := h
      subst h1 h2 h3
      exact ⟨List.Perm.refl _, Nat.le_refl _, hle, Nat.le_refl _, by omega⟩

theorem scan_right_basic (cmp : α → α → Int) :
    ∀ (fuel pl pr : Nat) (s : State α) (pl' pr' : Nat) (s' : State α),
      pl ≤ pr → pr < s.es.length →
      scan_right fuel cmp pl pr s = some (pl', pr', s') →
      s'.es.Perm s.es ∧ pl ≤ pl' ∧ pl' ≤ pr' ∧ pr' ≤ pr := by
  intro fuel
  induction fuel with
  | zero => intro pl pr s pl' pr' s' _ _ h; simp [scan_right] at h
  | succ fuel ih =>
    intro pl pr s pl' pr' s' hle hpr h
    simp only [scan_right] at h
    split at h
    · have hp := cmpswap_perm cmp pl pr s (by omega) hpr
      split at h
      · simp only [Option.some.injEq, Prod.mk.injEq] at h
        obtain ⟨h1, h2, h3⟩ := h
        subst h1 h2 h3
        exact ⟨hp, by omega, by omega, by omega⟩
      · obtain ⟨q1, q2, q3, q4⟩ := ih pl (pr - 1) _ pl' pr' s' (by omega)
          (by rw [hp.length_eq]; omega) h
        exact ⟨q1.trans hp, by omega, q3, by omega⟩
    · simp only [Option.some.injEq, Prod.mk.injEq] at h
      obtain ⟨h1, h2, h3⟩ := h
      subst h1 h2 h3
      exact ⟨List.Perm.refl _, Nat.le_refl _, hle, Nat.le_refl _⟩

theorem partition_loop_basic (cmp : α → α → Int) :
    ∀ (fuel pl pr : Nat) (s : State α) (pl' pr' : Nat) (s' : State α),
      pl ≤ pr → pr < s.es.length →
      partition_loop fuel cmp pl pr s = some (pl', pr', s') →
      s'.es.Perm s.es ∧ pl ≤ pl' ∧ pl' = pr' ∧ pr' ≤ pr := by
  intro fuel
  induction fuel with
  | zero => intro pl pr s pl' pr' s' _ _ h; simp [partition_loop] at h
  | succ fuel ih =>
    intro pl pr s pl' pr' s' hle hpr h
    simp only [partition_loop] at h
    split at h
    · split at h
      · simp at h
      · rename_i pl1 pr1 s1 h1
        obtain ⟨a1, a2, a3, a4, _⟩ := scan_left_basic cmp fuel pl pr s pl1 pr1 s1 hle hpr h1
        split at h
        · simp at h
        · rename_i pl2 pr2 s2 h2
          obtain ⟨b1, b2, b3, b4⟩ := scan_right_basic cmp fuel pl1 pr1 s1 pl2 pr2 s2 a3
            (by rw [a1.length_eq]; omega) h2
          obtain ⟨c1, c2, c3, c4⟩ := ih pl2 pr2 s2 pl' pr' s' b3
            (by rw [b1.length_eq, a1.length_eq]; omega) h
          exact ⟨c1.trans (b1.trans a1), by omega, c3, by omega⟩
    · simp only [Option.some.injEq, Prod.mk.injEq] at h
      obtain ⟨h1, h2, h3⟩ := h
      subst h1 h2 h3
      exact ⟨List.Perm.refl _, Nat.le_refl _, by omega, Nat.le_refl _⟩

end Abs

namespace Abs

variable {α : Type} [Inhabited α]

theorem median3_es (b nel : Nat) (cmp : α → α → Int) (s : State α) :
    (median3 b nel cmp s).2.es = s.es := by
  unfold median3
  simp only [State.note]
  split_ifs <;> rfl

theorem median3_cases (b nel : Nat) (cmp : α → α → Int) (s : State α) :
    (median3 b nel cmp s).1 = b ∨ (median3 b nel cmp s).1 = b + nel / 2 ∨
      (median3 b nel cmp s).1 = b + (nel - 1) := by
  unfold median3
  simp only [State.note]
  split_ifs <;> simp

theorem median3_le (b nel : Nat) (cmp : α → α → Int) (s : State α) (hn : 0 < nel) :
    b ≤ (median3 b nel cmp s).1 ∧ (median3 b nel cmp s).1 ≤ b + (nel - 1) := by
  rcases median3_cases b nel cmp s with h | h | h <;> rw [h] <;> omega

theorem pivot_last_perm (b nel : Nat) (cmp : α → α → Int) (s : State α) (hn : 0 < nel)
    (hb : b + nel ≤ s.es.length) : (pivot_last b nel cmp s).es.Perm s.es := by
  unfold pivot_last
  have h1 := median3_le b nel cmp s hn
  have h2 := median3_es b nel cmp s
  simp only
  rw [h2]
  exact swap_perm _ _ _ (by omega) (by omega)

theorem qs_partition_basic (cmp : α → α → Int) (fuel b nel : Nat) (s : State α)
    (pl pr : Nat) (s' : State α) (hn : 0 < nel) (hb : b + nel ≤ s.es.length)
    (h : qs_partition fuel b nel cmp s = some (pl, pr, s')) :
    s'.es.Perm s.es ∧ b ≤ pl ∧ pl = pr ∧ pr ≤ b + (nel - 1) := by
  unfold qs_partition at h
  have hp := pivot_last_perm b nel cmp s hn hb
  obtain ⟨a1, a2, a3, a4⟩ := partition_loop_basic cmp fuel b (b + (nel - 1)) _ pl pr s'
    (by omega) (by rw [hp.length_eq]; omega) h
  exact ⟨a1.trans hp, a2, a3, a4⟩

theorem sort_perm (cmp : α → α → Int) :
    ∀ (fuel b nel : Nat) (s s' : State α), b + nel ≤ s.es.length →
      sort fuel b nel cmp s = some s' → s'.es.Perm s.es := by
  intro fuel
  induction fuel with
  | zero => intro b nel s s' _ h; simp [sort] at h
  | succ fuel ih =>
    intro b nel s s' hb h
    simp only [sort] at h
    split at h
    · split at h
      · simp at h
      · rename_i s1 h1
        simp only [Option.some.injEq] at h
        rw [← h]
        exact ins_outer_perm cmp b (b + nel) fuel (b + 1) (s.note (Event.enter b nel)) s1 hb h1
    · split at h
      · simp at h
      · rename_i pl pr s1 h1
        obtain ⟨a1, a2, a3, a4⟩ := qs_partition_basic cmp fuel b nel
          (s.note (Event.enter b nel)) pl pr s1 (by omega) hb h1
        have a1 : s1.es.Perm s.es := a1
        split at h
        · simp at h
        · rename_i s2 h2
          have p2 := ih b (pl - b) s1 s2 (by rw [a1.length_eq]; omega) h2
          split at h
          · simp at h
          · rename_i s3 h3
            have p3 := ih (pl + 1) (b + nel - (pl + 1)) s2 s3
              (by rw [p2.length_eq, a1.length_eq]; omega) h3
            simp only [Option.some.injEq] at h
            rw [← h]
            exact p3.trans (p2.trans a1)

end Abs

/-! ## Simulation: every byte-level loop is its element-level loop -/

theorem uniform_of_perm {w : Nat} {l l' : List (List Byte)} (h : l'.Perm l)
    (hu : ∀ e ∈ l, e.length = w) : ∀ e ∈ l', e.length = w :=
  fun e he => hu e (h.mem_iff.mp he)

theorem ptr_lt_iff (B w i j : Nat) (hw : 0 < w) : B + i * w < B + j * w ↔ i < j := by
  constructor
  · intro h
    by_contra hc
    have : j * w ≤ i * w := Nat.mul_le_mul_right w (by omega)
    omega
  · intro h
    have : i * w < j * w := Nat.mul_lt_mul_of_pos_right h hw
    omega

theorem ptr_pred (B w j : Nat) (hj : 0 < j) : B + j * w - w = B + (j - 1) * w := by
  obtain ⟨k, rfl⟩ : ∃ k, j = k + 1 := ⟨j - 1, by omega⟩
  simp only [Nat.add_sub_cancel, Nat.succ_mul]
  omega

theorem ptr_succ (B w j : Nat) : B + j * w + w = B + (j + 1) * w := by
  rw [Nat.succ_mul]; omega

section Sim

variable {γ : Type} (pre post : List Byte) (w : Nat) (compar : Compar γ) (arg : γ)
  (l0 : List (Access γ))

theorem cmpswap_uniform (s : Abs.State (List Byte)) (hu : ∀ e ∈ s.es, e.length = w)
    (cmp : List Byte → List Byte → Int) (i j : Nat) (hi : i < s.es.length)
    (hj : j < s.es.length) :
    (∀ e ∈ (Abs.cmpswap cmp i j s).2.es, e.length = w) ∧
      (Abs.cmpswap cmp i j s).2.es.length = s.es.length :=
  ⟨uniform_of_perm (Abs.cmpswap_perm cmp i j s hi hj) hu,
    (Abs.cmpswap_perm cmp i j s hi hj).length_eq⟩

theorem ins_inner_sim (hw : 0 < w) (b : Nat) :
    ∀ (fuel j : Nat) (s : Abs.State (List Byte)), (∀ e ∈ s.es, e.length = w) →
      j < s.es.length →
      ins_inner fuel (pre.length + b * w) w compar arg (pre.length + j * w)
          (concHeap pre post w arg l0 s) =
        (Abs.ins_inner fuel b (fun x y => compar x y arg) j s).map
          (concHeap pre post w arg l0) := by
  intro fuel
  induction fuel with
  | zero => intro j s _ _; rfl
  | succ fuel ih =>
    intro j s hu hj
    simp only [ins_inner, Abs.ins_inner, gt_iff_lt, ptr_lt_iff _ _ _ _ hw]
    by_cases hjb : b < j
    · simp only [hjb, if_true]
      rw [ptr_pred _ _ _ (by omega), cmpswap_sim pre post w compar arg l0 s hu (j - 1) j
        (by omega) hj]
      obtain ⟨hu1, hl1⟩ := cmpswap_uniform w s hu (fun x y => compar x y arg) (j - 1) j
        (by omega) hj
      by_cases hr : (Abs.cmpswap (fun x y => compar x y arg) (j - 1) j s).1 ≠ 0
      · simp only [hr, if_true, ne_eq, not_false_eq_true]
        exact ih (j - 1) _ hu1 (by omega)
      · simp only [hr, if_false, Option.map_some']
    · simp only [hjb, if_false, Option.map_some']

theorem ins_outer_sim (hw : 0 < w) (b e : Nat) :
    ∀ (fuel i : Nat) (s : Abs.State (List Byte)), (∀ x ∈ s.es, x.length = w) →
      e ≤ s.es.length →
      ins_outer fuel (pre.length + b * w) w (pre.length + e * w) compar arg
          (pre.length + i * w) (concHeap pre post w arg l0 s) =
        (Abs.ins_outer fuel b e (fun x y => compar x y arg) i s).map
          (concHeap pre post w arg l0) := by
  intro fuel
  induction fuel with
  | zero => intro i s _ _; rfl
  | succ fuel ih =>
    intro i s hu he
    simp only [ins_outer, Abs.ins_outer, ptr_lt_iff _ _ _ _ hw]
    by_cases hie : i < e
    · simp only [hie, if_true]
      rw [ins_inner_sim pre post w compar arg l0 hw b fuel i s hu (by omega)]
      cases h1 : Abs.ins_inner fuel b (fun x y => compar x y arg) i s with
      | none => rfl
      | some s1 =>
        have hp := Abs.ins_inner_perm (fun x y => compar x y arg) b fuel i s s1 (by omega) h1
        simp only [Option.map_some']
        rw [ptr_succ]
        exact ih (i + 1) s1 (uniform_of_perm hp hu) (by rw [hp.length_eq]; exact he)
    · simp only [hie, if_false, Option.map_some']

/-- Pointers and heap of a result of the element-level partition functions. -/
theorem scan_left_sim (hw : 0 < w) :
    ∀ (fuel pl pr : Nat) (s : Abs.State (List Byte)), (∀ x ∈ s.es, x.length = w) →
      pl ≤ pr → pr < s.es.length →
      scan_left fuel w compar arg (pre.length + pl * w) (pre.length + pr * w)
          (concHeap pre post w arg l0 s) =
        (Abs.scan_left fuel (fun x y => compar x y arg) pl pr s).map
          (fun r => (pre.length + r.1 * w, pre.length + r.2.1 * w,
            concHeap pre post w arg l0 r.2.2)) := by
  intro fuel
  induction fuel with
  | zero => intro pl pr s _ _ _; rfl
  | succ fuel ih =>
    intro pl pr s hu hle hpr
    simp only [scan_left, Abs.scan_left, ptr_lt_iff _ _ _ _ hw]
    by_cases hlt : pl < pr
    · simp only [hlt, if_true]
      rw [cmpswap_sim pre post w compar arg l0 s hu pl pr hle hpr]
      obtain ⟨hu1, hl1⟩ := cmpswap_uniform w s hu (fun x y => compar x y arg) pl pr
        (by omega) hpr
      by_cases hr : (Abs.cmpswap (fun x y => compar x y arg) pl pr s).1 ≠ 0
      · simp only [hr, if_true, ne_eq, not_false_eq_true, Option.map_some']
        rw [ptr_pred _ _ _ (by omega)]
      · simp only [hr, if_false]
        rw [ptr_succ]
        exact ih (pl + 1) pr _ hu1 (by omega) (by omega)
    · simp only [hlt, if_false, Option.map_some']

theorem scan_right_sim (hw : 0 < w) :
    ∀ (fuel pl pr : Nat) (s : Abs.State (List Byte)), (∀ x ∈ s.es, x.length = w) →
      pl ≤ pr → pr < s.es.length →
      scan_right fuel w compar arg (pre.length + pl * w) (pre.length + pr * w)
          (concHeap pre post w arg l0 s) =
        (Abs.scan_right fuel (fun x y => compar x y arg) pl pr s).map
          (fun r => (pre.length + r.1 * w, pre.length + r.2.1 * w,
            concHeap pre post w arg l0 r.2.2)) := by
  intro fuel
  induction fuel with
  | zero => intro pl pr s _ _ _; rfl
  | succ fuel ih =>
    intro pl pr s hu hle hpr
    simp only [scan_right, Abs.scan_right, ptr_lt_iff _ _ _ _ hw]
    by_cases hlt : pl < pr
    · simp only [hlt, if_true]
      rw [cmpswap_sim pre post w compar arg l0 s hu pl pr hle hpr]
      obtain ⟨hu1, hl1⟩ := cmpswap_uniform w s hu (fun x y => compar x y arg) pl pr
        (by omega) hpr
      by_cases hr : (Abs.cmpswap (fun x y => compar x y arg) pl pr s).1 ≠ 0
      · simp only [hr, if_true, ne_eq, not_false_eq_true, Option.map_some']
        rw [ptr_succ]
      · simp only [hr, if_false]
        rw [ptr_pred _ _ _ (by omega)]
        exact ih pl (pr - 1) _ hu1 (by omega) (by omega)
    · simp only [hlt, if_false, Option.map_some']

theorem partition_loop_sim (hw : 0 < w) :
    ∀ (fuel pl pr : Nat) (s : Abs.State (List Byte)), (∀ x ∈ s.es, x.length = w) →
      pl ≤ pr → pr < s.es.length →
      partition_loop fuel w compar arg (pre.length + pl * w) (pre.length + pr * w)
          (concHeap pre post w arg l0 s) =
        (Abs.partition_loop fuel (fun x y => compar x y arg) pl pr s).map
          (fun r => (pre.length + r.1 * w, pre.length + r.2.1 * w,
            concHeap pre post w arg l0 r.2.2)) := by
  intro fuel
  induction fuel with
  | zero => intro pl pr s _ _ _; rfl
  | succ fuel ih =>
    intro pl pr s hu hle hpr
    simp only [partition_loop, Abs.partition_loop, ptr_lt_iff _ _ _ _ hw]
    by_cases hlt : pl < pr
    · simp only [hlt, if_true]
      rw [scan_left_sim pre post w compar arg l0 hw fuel pl pr s hu hle hpr]
      cases h1 : Abs.scan_left fuel (fun x y => compar x y arg) pl pr s with
      | none => rfl
      | some r1 =>
        obtain ⟨pl1, pr1, s1⟩ := r1
        obtain ⟨a1, a2, a3, a4, _⟩ := Abs.scan_left_basic _ fuel pl pr s pl1 pr1 s1 hle hpr h1
        simp only [Option.map_some']
        rw [scan_right_sim pre post w compar arg l0 hw fuel pl1 pr1 s1 (uniform_of_perm a1 hu)
          a3 (by rw [a1.length_eq]; omega)]
        cases h2 : Abs.scan_right fuel (fun x y => compar x y arg) pl1 pr1 s1 with
        | none => rfl
        | some r2 =>
          obtain ⟨pl2, pr2, s2⟩ := r2
          obtain ⟨b1, b2, b3, b4⟩ := Abs.scan_right_basic _ fuel pl1 pr1 s1 pl2 pr2 s2 a3
            (by rw [a1.length_eq]; omega) h2
          simp only [Option.map_some']
          exact ih pl2 pr2 s2 (uniform_of_perm (b1.trans a1) hu) b3
            (by rw [b1.length_eq, a1.length_eq]; omega)
    · simp only [hlt, if_false, Option.map_some']

end Sim

section Sim

variable {γ : Type} (pre post : List Byte) (w : Nat) (compar : Compar γ) (arg : γ)
  (l0 : List (Access γ))

theorem median3_sim (b nel : Nat) (s : Abs.State (List Byte))
    (hu : ∀ x ∈ s.es, x.length = w) (hn : 0 < nel) (hb : b + nel ≤ s.es.length) :
    median3 (pre.length + b * w) w nel compar arg (concHeap pre post w arg l0 s) =
      (pre.length + (Abs.median3 b nel (fun x y => compar x y arg) s).1 * w,
        concHeap pre post w arg l0 (Abs.median3 b nel (fun x y => compar x y arg) s).2) := by
  have e1 : pre.length + b * w + w * (nel / 2) = pre.length + (b + nel / 2) * w := by ring
  have e2 : pre.length + b * w + w * (nel - 1) = pre.length + (b + (nel - 1)) * w := by ring
  have hE0 := elem_concHeap pre post w s.es hu b (by omega)
  have hE1 := elem_concHeap pre post w s.es hu (b + nel / 2) (by omega)
  have hE2 := elem_concHeap pre post w s.es hu (b + (nel - 1)) (by omega)
  unfold median3 Abs.median3
  simp only [e1, e2, concHeap, Heap.note, Abs.State.note, hE0, hE1]
  by_cases c1 : compar (s.es.getD b default) (s.es.getD (b + nel / 2) default) arg > 0
  · simp only [c1, if_true, hE0, hE2]
    by_cases c2 : compar (s.es.getD b default) (s.es.getD (b + (nel - 1)) default) arg > 0
    · simp only [c2, if_true, hE1, hE2]
      by_cases c3 : compar (s.es.getD (b + nel / 2) default)
          (s.es.getD (b + (nel - 1)) default) arg > 0
      · simp only [c3, if_true]; rfl
      · simp only [c3, if_false]; rfl
    · simp only [c2, if_false]; rfl
  · simp only [c1, if_false, hE0, hE1, hE2]
    by_cases c2 : compar (s.es.getD (b + nel / 2) default)
        (s.es.getD (b + (nel - 1)) default) arg > 0
    · simp only [c2, if_true, hE0, hE2]
      by_cases c3 : compar (s.es.getD b default) (s.es.getD (b + (nel - 1)) default) arg > 0
      · simp only [c3, if_true]; rfl
      · simp only [c3, if_false]; rfl
    · simp only [c2, if_false]; rfl

theorem qs_partition_sim (hw : 0 < w) (fuel b nel : Nat) (s : Abs.State (List Byte))
    (hu : ∀ x ∈ s.es, x.length = w) (hn : 0 < nel) (hb : b + nel ≤ s.es.length) :
    qs_partition fuel (pre.length + b * w) nel w compar arg (concHeap pre post w arg l0 s) =
      (Abs.qs_partition fuel b nel (fun x y => compar x y arg) s).map
        (fun r => (pre.length + r.1 * w, pre.length + r.2.1 * w,
          concHeap pre post w arg l0 r.2.2)) := by
  have e2 : pre.length + b * w + w * (nel - 1) = pre.length + (b + (nel - 1)) * w := by ring
  unfold qs_partition Abs.qs_partition
  rw [median3_sim pre post w compar arg l0 b nel s hu hn hb]
  simp only [Nat.add_sub_cancel_left, e2]
  have hm := Abs.median3_le b nel (fun x y => compar x y arg) s hn
  have hes := Abs.median3_es b nel (fun x y => compar x y arg) s
  have hsw : swap_loop w
      (pre.length + (Abs.median3 b nel (fun x y => compar x y arg) s).1 * w)
      (pre.length + (b + (nel - 1)) * w)
      (concHeap pre post w arg l0 (Abs.median3 b nel (fun x y => compar x y arg) s).2) =
      concHeap pre post w arg l0 (Abs.pivot_last b nel (fun x y => compar x y arg) s) := by
    unfold concHeap
    rw [swap_loop_conc pre post w _ (by rw [hes]; exact hu) _ _ hm.2 (by rw [hes]; omega)]
    rfl
  rw [hsw]
  have hp := Abs.pivot_last_perm b nel (fun x y => compar x y arg) s hn hb
  exact partition_loop_sim pre post w compar arg l0 hw fuel b (b + (nel - 1)) _
    (uniform_of_perm hp hu) (by omega) (by rw [hp.length_eq]; omega)

theorem ptr_diff_div (B w b p : Nat) (hw : 0 < w) (hbp : b ≤ p) :
    (B + p * w - (B + b * w)) / w = p - b := by
  have : B + p * w - (B + b * w) = (p - b) * w := by
    rw [Nat.sub_mul]
    have : b * w ≤ p * w := Nat.mul_le_mul_right w hbp
    omega
  rw [this, Nat.mul_div_cancel _ hw]

theorem sort_r_simple_sim (hw : 0 < w) :
    ∀ (fuel b nel : Nat) (s : Abs.State (List Byte)), (∀ x ∈ s.es, x.length = w) →
      b + nel ≤ s.es.length →
      sort_r_simple fuel (pre.length + b * w) nel w compar arg (concHeap pre post w arg l0 s) =
        (Abs.sort fuel b nel (fun x y => compar x y arg) s).map
          (concHeap pre post w arg l0) := by
  intro fuel
  induction fuel with
  | zero => intro b nel s _ _; rfl
  | succ fuel ih =>
    intro b nel s hu hb
    have hent : (concHeap pre post w arg l0 s).note (Access.enter (pre.length + b * w) nel) =
        concHeap pre post w arg l0 (s.note (Abs.Event.enter b nel)) := rfl
    have hend : pre.length + b * w + nel * w = pre.length + (b + nel) * w := by ring
    simp only [sort_r_simple, Abs.sort, hent, hend]
    by_cases hn : nel < 7
    · simp only [hn, if_true]
      rw [ptr_succ, ins_outer_sim pre post w compar arg l0 hw b (b + nel) fuel (b + 1)
        (s.note (Abs.Event.enter b nel)) hu hb]
      cases Abs.ins_outer fuel b (b + nel) (fun x y => compar x y arg) (b + 1)
          (s.note (Abs.Event.enter b nel)) with
      | none => rfl
      | some s1 => rfl
    · simp only [hn, if_false]
      rw [qs_partition_sim pre post w compar arg l0 hw fuel b nel
        (s.note (Abs.Event.enter b nel)) hu (by omega) hb]
      cases h1 : Abs.qs_partition fuel b nel (fun x y => compar x y arg)
          (s.note (Abs.Event.enter b nel)) with
      | none => rfl
      | some r1 =>
        obtain ⟨pl, pr, s1⟩ := r1
        obtain ⟨a1, a2, a3, a4⟩ := Abs.qs_partition_basic _ fuel b nel
          (s.note (Abs.Event.enter b nel)) pl pr s1 (by omega) hb h1
        have a1 : s1.es.Perm s.es := a1
        simp only [Option.map_some']
        rw [ptr_diff_div _ _ _ _ hw a2, ih b (pl - b) s1 (uniform_of_perm a1 hu)
          (by rw [a1.length_eq]; omega)]
        cases h2 : Abs.sort fuel b (pl - b) (fun x y => compar x y arg) s1 with
        | none => rfl
        | some s2 =>
          have p2 := Abs.sort_perm _ fuel b (pl - b) s1 s2 (by rw [a1.length_eq]; omega) h2
          simp only [Option.map_some']
          rw [ptr_succ, ptr_diff_div _ _ _ _ hw (by omega),
            ih (pl + 1) (b + nel - (pl + 1)) s2 (uniform_of_perm (p2.trans a1) hu)
              (by rw [p2.length_eq, a1.length_eq]; omega)]
          cases Abs.sort fuel (pl + 1) (b + nel - (pl + 1)) (fun x y => compar x y arg) s2 with
          | none => rfl
          | some s3 => rfl

end Sim

/-! ## An array inside a memory -/

theorem elems_length (mem : List Byte) (base w n : Nat) : (elems mem base w n).length = n := by
  simp [elems]

theorem elems_succ (mem : List Byte) (base w n : Nat) :
    elems mem base w (n + 1) = elems mem base w n ++ [elem mem w (base + n * w)] := by
  simp [elems, List.range_succ]

theorem elem_length (mem : List Byte) (w p : Nat) (h : p + w ≤ mem.length) :
    (elem mem w p).length = w := by
  simp [elem]; omega

theorem elems_uniform (mem : List Byte) (base w n : Nat) (h : base + n * w ≤ mem.length) :
    ∀ e ∈ elems mem base w n, e.length = w := by
  intro e he
  simp only [elems, List.mem_map, List.mem_range] at he
  obtain ⟨i, hi, rfl⟩ := he
  apply elem_length
  have : (i + 1) * w ≤ n * w := Nat.mul_le_mul_right w (by omega)
  rw [Nat.succ_mul] at this
  omega

theorem take_elems (mem : List Byte) (base w : Nat) :
    ∀ n, base + n * w ≤ mem.length →
      mem.take (base + n * w) = mem.take base ++ (elems mem base w n).flatten := by
  intro n
  induction n with
  | zero => intro _; simp [elems]
  | succ n ih =>
    intro h
    have h' : base + n * w ≤ mem.length := by rw [Nat.succ_mul] at h; omega
    rw [elems_succ, List.flatten_append, ← List.append_assoc, ← ih h']
    have : base + (n + 1) * w = (base + n * w) + w := by rw [Nat.succ_mul]; omega
    rw [this, List.take_add]
    simp [elem]

theorem mem_eq_conc (mem : List Byte) (base w n : Nat) (h : base + n * w ≤ mem.length) :
    mem = mem.take base ++ (elems mem base w n).flatten ++ mem.drop (base + n * w) := by
  rw [← take_elems mem base w n h, List.take_append_drop]

theorem elems_conc (pre post : List Byte) (w : Nat) (es : List (List Byte))
    (hu : ∀ e ∈ es, e.length = w) :
    elems (pre ++ es.flatten ++ post) pre.length w es.length = es := by
  apply List.ext_getElem
  · simp [elems]
  · intro i h1 h2
    simp only [elems, List.getElem_map, List.getElem_range]
    rw [elem_concHeap pre post w es hu i h2, List.getD_eq_getElem _ _ h2]

/-- Every run of `sort_r_simple` on an array inside the memory is the run of the
element-level sort on the elements of that array. -/
theorem sort_r_simple_eq {γ : Type} (fuel base nel w : Nat) (compar : Compar γ) (arg : γ)
    (h : Heap γ) (hw : 0 < w) (hb : base + nel * w ≤ h.mem.length) :
    sort_r_simple fuel base nel w compar arg h =
      (Abs.sort fuel 0 nel (fun x y => compar x y arg) ⟨elems h.mem base w nel, []⟩).map
        (concHeap (h.mem.take base) (h.mem.drop (base + nel * w)) w arg h.log) := by
  have hpre : (h.mem.take base).length = base := by
    rw [List.length_take]
    have : 0 ≤ nel * w := Nat.zero_le _
    omega
  have hh : h = concHeap (h.mem.take base) (h.mem.drop (base + nel * w)) w arg h.log
      ⟨elems h.mem base w nel, []⟩ := by
    cases h with
    | mk mem log =>
      simp only [concHeap, concLog]
      congr 1
      exact mem_eq_conc mem base w nel hb
  have := sort_r_simple_sim (h.mem.take base) (h.mem.drop (base + nel * w)) w compar arg h.log hw
    fuel 0 nel ⟨elems h.mem base w nel, []⟩ (elems_uniform h.mem base w nel hb)
    (by simp [elems_length])
  rw [hpre, Nat.zero_mul, Nat.add_zero, ← hh] at this
  exact this

/-! ## Element level: where exchanges happen and what is logged -/

namespace Abs

variable {α : Type} [Inhabited α]

theorem SwapsIn.andThen {lo hi : Nat} {a b c : List α} (h1 : SwapsIn lo hi a b)
    (h2 : SwapsIn lo hi b c) : SwapsIn lo hi a c := by
  induction h1 with
  | refl es => exact h2
  | step es es' i j a1 a2 a3 a4 a5 a6 _ ih => exact SwapsIn.step es c i j a1 a2 a3 a4 a5 a6 (ih h2)

theorem SwapsIn.widen {lo hi lo' hi' : Nat} {a b : List α} (h : SwapsIn lo hi a b)
    (hlo : lo' ≤ lo) (hhi : hi ≤ hi') : SwapsIn lo' hi' a b := by
  induction h with
  | refl es => exact SwapsIn.refl es
  | step es es' i j a1 a2 a3 a4 a5 a6 _ ih =>
    exact SwapsIn.step es es' i j (by omega) (by omega) (by omega) (by omega) a5 a6 ih

theorem SwapsIn.single {lo hi : Nat} (es : List α) (i j : Nat) (a1 : lo ≤ i) (a2 : i < hi)
    (a3 : lo ≤ j) (a4 : j < hi) (a5 : i < es.length) (a6 : j < es.length) :
    SwapsIn lo hi es (swap es i j) :=
  SwapsIn.step es _ i j a1 a2 a3 a4 a5 a6 (SwapsIn.refl _)

theorem SwapsIn.toPerm {lo hi : Nat} {a b : List α} (h : SwapsIn lo hi a b) : b.Perm a := by
  induction h with
  | refl es => exact List.Perm.refl _
  | step es es' i j a1 a2 a3 a4 a5 a6 _ ih => exact ih.trans (swap_perm es i j a5 a6)

theorem SwapsIn.length {lo hi : Nat} {a b : List α} (h : SwapsIn lo hi a b) :
    b.length = a.length := h.toPerm.length_eq

theorem SwapsIn.frame {lo hi : Nat} {a b : List α} (h : SwapsIn lo hi a b) (k : Nat)
    (hk : k < lo ∨ hi ≤ k) : b.getD k default = a.getD k default := by
  induction h with
  | refl es => rfl
  | step es es' i j a1 a2 a3 a4 a5 a6 _ ih =>
    rw [ih, swap_getD es i j k a5 a6, if_neg (by omega), if_neg (by omega)]

theorem SwapsIn.allOn {lo hi : Nat} {a b : List α} (h : SwapsIn lo hi a b) (P : α → Prop)
    (hP : ∀ k, lo ≤ k → k < hi → P (a.getD k default)) :
    ∀ k, lo ≤ k → k < hi → P (b.getD k default) := by
  induction h with
  | refl es => exact hP
  | step es es' i j a1 a2 a3 a4 a5 a6 _ ih =>
    apply ih
    intro k h1 h2
    rw [swap_getD es i j k a5 a6]
    split_ifs
    · exact hP i a1 a2
    · exact hP j a3 a4
    · exact hP k h1 h2

theorem LogExt.refl (lo hi : Nat) (l : List Event) : LogExt lo hi l l :=
  ⟨[], rfl, by simp⟩

theorem LogExt.append {lo hi : Nat} {a b c : List Event} (h1 : LogExt lo hi a b)
    (h2 : LogExt lo hi b c) : LogExt lo hi a c := by
  obtain ⟨n1, e1, p1⟩ := h1
  obtain ⟨n2, e2, p2⟩ := h2
  refine ⟨n2 ++ n1, by rw [e2, e1, List.append_assoc], ?_⟩
  intro e he
  rcases List.mem_append.mp he with h | h
  · exact p2 e h
  · exact p1 e h

theorem EventIn.widenEvent {lo hi lo' hi' : Nat} {e : Event} (h : EventIn lo hi e)
    (hlo : lo' ≤ lo) (hhi : hi ≤ hi') : EventIn lo' hi' e := by
  cases e <;> simp only [EventIn] at h ⊢ <;> omega

theorem LogExt.widenLog {lo hi lo' hi' : Nat} {a b : List Event} (h : LogExt lo hi a b)
    (hlo : lo' ≤ lo) (hhi : hi ≤ hi') : LogExt lo' hi' a b := by
  obtain ⟨n, e, p⟩ := h
  exact ⟨n, e, fun x hx => (p x hx).widenEvent hlo hhi⟩

theorem LogExt.cons {lo hi : Nat} (l : List Event) (e : Event) (h : EventIn lo hi e) :
    LogExt lo hi l (e :: l) :=
  ⟨[e], rfl, by simpa using h⟩

/-- What one `cmpswap` does, for `lo ≤ i < j < hi`. -/
theorem cmpswap_inv (cmp : α → α → Int) (lo hi i j : Nat) (s : State α)
    (h1 : lo ≤ i) (h2 : i < j) (h3 : j < hi) (h4 : j < s.es.length) :
    SwapsIn lo hi s.es (cmpswap cmp i j s).2.es ∧ LogExt lo hi s.log (cmpswap cmp i j s).2.log := by
  rcases cmpswap_cases cmp i j s with ⟨_, h⟩ | ⟨_, h⟩
  · rw [h]
    refine ⟨SwapsIn.single _ i j h1 (by omega) (by omega) h3 (by omega) h4, ?_⟩
    refine ⟨[Event.swap i j, Event.compar i j, Event.cmpswap i j], rfl, ?_⟩
    intro e he
    simp only [List.mem_cons, List.mem_singleton, List.not_mem_nil, or_false] at he
    rcases he with rfl | rfl | rfl <;> simp only [EventIn] <;> omega
  · rw [h]
    refine ⟨SwapsIn.refl _, ?_⟩
    refine ⟨[Event.compar i j, Event.cmpswap i j], rfl, ?_⟩
    intro e he
    simp only [List.mem_cons, List.mem_singleton, List.not_mem_nil, or_false] at he
    rcases he with rfl | rfl <;> simp only [EventIn] <;> omega

end Abs

namespace Abs

variable {α : Type} [Inhabited α]

theorem ins_inner_inv (cmp : α → α → Int) (lo hi b : Nat) (hlo : lo ≤ b) :
    ∀ (fuel j : Nat) (s s' : State α), j < hi → j < s.es.length →
      ins_inner fuel b cmp j s = some s' →
      SwapsIn lo hi s.es s'.es ∧ LogExt lo hi s.log s'.log := by
  intro fuel
  induction fuel with
  | zero => intro j s s' _ _ h; simp [ins_inner] at h
  | succ fuel ih =>
    intro j s s' hj hl h
    simp only [ins_inner] at h
    split at h
    · obtain ⟨c1, c2⟩ := cmpswap_inv cmp lo hi (j - 1) j s (by omega) (by omega) hj hl
      split at h
      · obtain ⟨d1, d2⟩ := ih (j - 1) _ s' (by omega) (by rw [c1.length]; omega) h
        exact ⟨c1.andThen d1, c2.append d2⟩
      · simp only [Option.some.injEq] at h
        rw [← h]; exact ⟨c1, c2⟩
    · simp only [Option.some.injEq] at h
      rw [h]; exact ⟨SwapsIn.refl _, LogExt.refl _ _ _⟩

theorem ins_outer_inv (cmp : α → α → Int) (lo hi b e : Nat) (hlo : lo ≤ b) (hhi : e ≤ hi) :
    ∀ (fuel i : Nat) (s s' : State α), e ≤ s.es.length →
      ins_outer fuel b e cmp i s = some s' →
      SwapsIn lo hi s.es s'.es ∧ LogExt lo hi s.log s'.log := by
  intro fuel
  induction fuel with
  | zero => intro i s s' _ h; simp [ins_outer] at h
  | succ fuel ih =>
    intro i s s' he h
    simp only [ins_outer] at h
    split at h
    · split at h
      · simp at h
      · rename_i s1 h1
        obtain ⟨c1, c2⟩ := ins_inner_inv cmp lo hi b hlo fuel i s s1 (by omega) (by omega) h1
        obtain ⟨d1, d2⟩ := ih (i + 1) s1 s' (by rw [c1.length]; exact he) h
        exact ⟨c1.andThen d1, c2.append d2⟩
    · simp only [Option.some.injEq] at h
      rw [h]; exact ⟨SwapsIn.refl _, LogExt.refl _ _ _⟩

theorem scan_left_inv (cmp : α → α → Int) (lo hi : Nat) :
    ∀ (fuel pl pr : Nat) (s : State α) (pl' pr' : Nat) (s' : State α),
      lo ≤ pl → pr < hi → pr < s.es.length →
      scan_left fuel cmp pl pr s = some (pl', pr', s') →
      SwapsIn lo hi s.es s'.es ∧ LogExt lo hi s.log s'.log := by
  intro fuel
  induction fuel with
  | zero => intro pl pr s pl' pr' s' _ _ _ h; simp [scan_left] at h
  | succ fuel ih =>
    intro pl pr s pl' pr' s' hlo hhi hl h
    simp only [scan_left] at h
    split at h
    · obtain ⟨c1, c2⟩ := cmpswap_inv cmp lo hi pl pr s hlo (by omega) hhi hl
      split at h
      · simp only [Option.some.injEq, Prod.mk.injEq] at h
        obtain ⟨h1, h2, h3⟩ := h
        subst h1 h2 h3
        exact ⟨c1, c2⟩
      · obtain ⟨d1, d2⟩ := ih (pl + 1) pr _ pl' pr' s' (by omega) hhi
          (by rw [c1.length]; exact hl) h
        exact ⟨c1.andThen d1, c2.append d2⟩
    · simp only [Option.some.injEq, Prod.mk.injEq] at h
      obtain ⟨h1, h2, h3⟩ := h
      subst h1 h2 h3
      exact ⟨SwapsIn.refl _, LogExt.refl _ _ _⟩

theorem scan_right_inv (cmp : α → α → Int) (lo hi : Nat) :
    ∀ (fuel pl pr : Nat) (s : State α) (pl' pr' : Nat) (s' : State α),
      lo ≤ pl → pr < hi → pr < s.es.length →
      scan_right fuel cmp pl pr s = some (pl', pr', s') →
      SwapsIn lo hi s.es s'.es ∧ LogExt lo hi s.log s'.log := by
  intro fuel
  induction fuel with
  | zero => intro pl pr s pl' pr' s' _ _ _ h; simp [scan_right] at h
  | succ fuel ih =>
    intro pl pr s pl' pr' s' hlo hhi hl h
    simp only [scan_right] at h
    split at h
    · obtain ⟨c1, c2⟩ := cmpswap_inv cmp lo hi pl pr s hlo (by omega) hhi hl
      split at h
      · simp only [Option.some.injEq, Prod.mk.injEq] at h
        obtain ⟨h1, h2, h3⟩ := h
        subst h1 h2 h3
        exact ⟨c1, c2⟩
      · obtain ⟨d1, d2⟩ := ih pl (pr - 1) _ pl' pr' s' hlo (by omega)
          (by rw [c1.length]; omega) h
        exact ⟨c1.andThen d1, c2.append d2⟩
    · simp only [Option.some.injEq, Prod.mk.injEq] at h
      obtain ⟨h1, h2, h3⟩ := h
      subst h1 h2 h3
      exact ⟨SwapsIn.refl _, LogExt.refl _ _ _⟩

theorem partition_loop_inv (cmp : α → α → Int) (lo hi : Nat) :
    ∀ (fuel pl pr : Nat) (s : State α) (pl' pr' : Nat) (s' : State α),
      lo ≤ pl → pl ≤ pr → pr < hi → pr < s.es.length →
      partition_loop fuel cmp pl pr s = some (pl', pr', s') →
      SwapsIn lo hi s.es s'.es ∧ LogExt lo hi s.log s'.log := by
  intro fuel
  induction fuel with
  | zero => intro pl pr s pl' pr' s' _ _ _ _ h; simp [partition_loop] at h
  | succ fuel ih =>
    intro pl pr s pl' pr' s' hlo hle hhi hl h
    simp only [partition_loop] at h
    split at h
    · split at h
      · simp at h
      · rename_i pl1 pr1 s1 h1
        obtain ⟨a1, a2, a3, a4, _⟩ := scan_left_basic cmp fuel pl pr s pl1 pr1 s1 hle hl h1
        obtain ⟨c1, c2⟩ := scan_left_inv cmp lo hi fuel pl pr s pl1 pr1 s1 hlo hhi hl h1
        split at h
        · simp at h
        · rename_i pl2 pr2 s2 h2
          obtain ⟨b1, b2, b3, b4⟩ := scan_right_basic cmp fuel pl1 pr1 s1 pl2 pr2 s2 a3
            (by rw [a1.length_eq]; omega) h2
          obtain ⟨d1, d2⟩ := scan_right_inv cmp lo hi fuel pl1 pr1 s1 pl2 pr2 s2 (by omega)
            (by omega) (by rw [a1.length_eq]; omega) h2
          obtain ⟨e1, e2⟩ := ih pl2 pr2 s2 pl' pr' s' (by omega) b3 (by omega)
            (by rw [b1.length_eq, a1.length_eq]; omega) h
          exact ⟨c1.andThen (d1.andThen e1), c2.append (d2.append e2)⟩
    · simp only [Option.some.injEq, Prod.mk.injEq] at h
      obtain ⟨h1, h2, h3⟩ := h
      subst h1 h2 h3
      exact ⟨SwapsIn.refl _, LogExt.refl _ _ _⟩

theorem median3_log (b nel : Nat) (cmp : α → α → Int) (s : State α) (hn : 0 < nel) :
    LogExt b (b + nel) s.log (median3 b nel cmp s).2.log := by
  have h0 : EventIn b (b + nel) (Event.compar b (b + nel / 2)) := by
    simp only [EventIn]; omega
  have h1 : EventIn b (b + nel) (Event.compar (b + nel / 2) (b + (nel - 1))) := by
    simp only [EventIn]; omega
  have h2 : EventIn b (b + nel) (Event.compar b (b + (nel - 1))) := by
    simp only [EventIn]; omega
  have h3 : EventIn b (b + nel) (Event.compar (b + nel / 2) b) := by
    simp only [EventIn]; omega
  unfold median3
  simp only [State.note]
  split_ifs
  all_goals first
    | exact ⟨[_, _, _], rfl, by
        intro e he
        simp only [List.mem_cons, List.mem_singleton, List.not_mem_nil, or_false] at he
        rcases he with rfl | rfl | rfl <;> assumption⟩
    | exact ⟨[_, _], rfl, by
        intro e he
        simp only [List.mem_cons, List.mem_singleton, List.not_mem_nil, or_false] at he
        rcases he with rfl | rfl <;> assumption⟩

theorem pivot_last_inv (b nel : Nat) (cmp : α → α → Int) (s : State α) (hn : 0 < nel)
    (hb : b + nel ≤ s.es.length) :
    SwapsIn b (b + nel) s.es (pivot_last b nel cmp s).es ∧
      LogExt b (b + nel) s.log (pivot_last b nel cmp s).log := by
  have h1 := median3_le b nel cmp s hn
  have h2 := median3_es b nel cmp s
  have h3 := median3_log b nel cmp s hn
  unfold pivot_last
  simp only
  rw [h2]
  refine ⟨SwapsIn.single _ _ _ (by omega) (by omega) (by omega) (by omega) (by omega)
    (by omega), h3.append (LogExt.cons _ _ ?_)⟩
  simp only [EventIn]; omega

theorem qs_partition_inv (cmp : α → α → Int) (fuel b nel : Nat) (s : State α)
    (pl pr : Nat) (s' : State α) (hn : 0 < nel) (hb : b + nel ≤ s.es.length)
    (h : qs_partition fuel b nel cmp s = some (pl, pr, s')) :
    SwapsIn b (b + nel) s.es s'.es ∧ LogExt b (b + nel) s.log s'.log := by
  unfold qs_partition at h
  obtain ⟨c1, c2⟩ := pivot_last_inv b nel cmp s hn hb
  obtain ⟨d1, d2⟩ := partition_loop_inv cmp b (b + nel) fuel b (b + (nel - 1)) _ pl pr s'
    (Nat.le_refl _) (by omega) (by omega) (by rw [c1.length]; omega) h
  exact ⟨c1.andThen d1, c2.append d2⟩

theorem sort_inv (cmp : α → α → Int) :
    ∀ (fuel b nel : Nat) (s s' : State α), b + nel ≤ s.es.length →
      sort fuel b nel cmp s = some s' →
      SwapsIn b (b + nel) s.es s'.es ∧ LogExt b (b + nel) s.log s'.log := by
  intro fuel
  induction fuel with
  | zero => intro b nel s s' _ h; simp [sort] at h
  | succ fuel ih =>
    intro b nel s s' hb h
    have hent : LogExt b (b + nel) s.log (s.note (Event.enter b nel)).log :=
      LogExt.cons _ _ (by simp only [EventIn]; omega)
    simp only [sort] at h
    split at h
    · split at h
      · simp at h
      · rename_i s1 h1
        simp only [Option.some.injEq] at h
        rw [← h]
        obtain ⟨c1, c2⟩ := ins_outer_inv cmp b (b + nel) b (b + nel) (Nat.le_refl _)
          (Nat.le_refl _) fuel (b + 1) (s.note (Event.enter b nel)) s1 hb h1
        exact ⟨c1, hent.append (c2.append (LogExt.cons _ _ (by simp only [EventIn])))⟩
    · split at h
      · simp at h
      · rename_i pl pr s1 h1
        obtain ⟨a1, a2, a3, a4⟩ := qs_partition_basic cmp fuel b nel
          (s.note (Event.enter b nel)) pl pr s1 (by omega) hb h1
        obtain ⟨c1, c2⟩ := qs_partition_inv cmp fuel b nel
          (s.note (Event.enter b nel)) pl pr s1 (by omega) hb h1
        have a1 : s1.es.Perm s.es := a1
        have c1 : SwapsIn b (b + nel) s.es s1.es := c1
        split at h
        · simp at h
        · rename_i s2 h2
          obtain ⟨d1, d2⟩ := ih b (pl - b) s1 s2 (by rw [a1.length_eq]; omega) h2
          split at h
          · simp at h
          · rename_i s3 h3
            obtain ⟨e1, e2⟩ := ih (pl + 1) (b + nel - (pl + 1)) s2 s3
              (by rw [d1.length, a1.length_eq]; omega) h3
            simp only [Option.some.injEq] at h
            rw [← h]
            refine ⟨c1.andThen ((d1.widen (Nat.le_refl _) (by omega)).andThen
              (e1.widen (by omega) (by omega))), ?_⟩
            exact hent.append (c2.append ((d2.widenLog (Nat.le_refl _) (by omega)).append
              ((e2.widenLog (by omega) (by omega)).append
                (LogExt.cons _ _ (by simp only [EventIn])))))

end Abs

/-! ## Element level: termination -/

namespace Abs

variable {α : Type} [Inhabited α]

theorem ins_inner_total (cmp : α → α → Int) (b : Nat) :
    ∀ (fuel j : Nat) (s : State α), j - b < fuel → ∃ s', ins_inner fuel b cmp j s = some s' := by
  intro fuel
  induction fuel with
  | zero => intro j s h; omega
  | succ fuel ih =>
    intro j s h
    simp only [ins_inner]
    split
    · split
      · exact ih (j - 1) _ (by omega)
      · exact ⟨_, rfl⟩
    · exact ⟨_, rfl⟩

theorem ins_outer_total (cmp : α → α → Int) (b e : Nat) :
    ∀ (fuel i : Nat) (s : State α), (e - b) + (e - i) < fuel →
      ∃ s', ins_outer fuel b e cmp i s = some s' := by
  intro fuel
  induction fuel with
  | zero => intro i s h; omega
  | succ fuel ih =>
    intro i s h
    simp only [ins_outer]
    split
    · obtain ⟨s1, h1⟩ := ins_inner_total cmp b fuel i s (by omega)
      rw [h1]
      exact ih (i + 1) s1 (by omega)
    · exact ⟨_, rfl⟩

theorem scan_left_total (cmp : α → α → Int) :
    ∀ (fuel pl pr : Nat) (s : State α), pr - pl < fuel →
      ∃ r, scan_left fuel cmp pl pr s = some r := by
  intro fuel
  induction fuel with
  | zero => intro pl pr s h; omega
  | succ fuel ih =>
    intro pl pr s h
    simp only [scan_left]
    split
    · split
      · exact ⟨_, rfl⟩
      · exact ih (pl + 1) pr _ (by omega)
    · exact ⟨_, rfl⟩

theorem scan_right_total (cmp : α → α → Int) :
    ∀ (fuel pl pr : Nat) (s : State α), pr - pl < fuel →
      ∃ r, scan_right fuel cmp pl pr s = some r := by
  intro fuel
  induction fuel with
  | zero => intro pl pr s h; omega
  | succ fuel ih =>
    intro pl pr s h
    simp only [scan_right]
    split
    · split
      · exact ⟨_, rfl⟩
      · exact ih pl (pr - 1) _ (by omega)
    · exact ⟨_, rfl⟩

theorem partition_loop_total (cmp : α → α → Int) :
    ∀ (fuel pl pr : Nat) (s : State α), pl ≤ pr → pr < s.es.length → pr - pl + 1 < fuel →
      ∃ r, partition_loop fuel cmp pl pr s = some r := by
  intro fuel
  induction fuel with
  | zero => intro pl pr s _ _ h; omega
  | succ fuel ih =>
    intro pl pr s hle hl h
    simp only [partition_loop]
    split
    · obtain ⟨⟨pl1, pr1, s1⟩, h1⟩ := scan_left_total cmp fuel pl pr s (by omega)
      obtain ⟨a1, a2, a3, a4, a5⟩ := scan_left_basic cmp fuel pl pr s pl1 pr1 s1 hle hl h1
      have a5 := a5 (by assumption)
      simp only [h1]
      obtain ⟨⟨pl2, pr2, s2⟩, h2⟩ := scan_right_total cmp fuel pl1 pr1 s1 (by omega)
      obtain ⟨b1, b2, b3, b4⟩ := scan_right_basic cmp fuel pl1 pr1 s1 pl2 pr2 s2 a3
        (by rw [a1.length_eq]; omega) h2
      simp only [h2]
      exact ih pl2 pr2 s2 b3 (by rw [b1.length_eq, a1.length_eq]; omega) (by omega)
    · exact ⟨_, rfl⟩

theorem qs_partition_total (cmp : α → α → Int) (fuel b nel : Nat) (s : State α)
    (hn : 0 < nel) (hb : b + nel ≤ s.es.length) (hf : nel < fuel) :
    ∃ r, qs_partition fuel b nel cmp s = some r := by
  unfold qs_partition
  have hp := pivot_last_perm b nel cmp s hn hb
  exact partition_loop_total cmp fuel b (b + (nel - 1)) _ (by omega)
    (by rw [hp.length_eq]; omega) (by omega)

theorem sort_total (cmp : α → α → Int) :
    ∀ (fuel b nel : Nat) (s : State α), b + nel ≤ s.es.length → 2 * nel + 4 ≤ fuel →
      ∃ s', sort fuel b nel cmp s = some s' := by
  intro fuel
  induction fuel with
  | zero => intro b nel s _ h; omega
  | succ fuel ih =>
    intro b nel s hb hf
    simp only [sort]
    split
    · obtain ⟨s1, h1⟩ := ins_outer_total cmp b (b + nel) fuel (b + 1)
        (s.note (Event.enter b nel)) (by omega)
      simp only [h1]
      exact ⟨_, rfl⟩
    · obtain ⟨⟨pl, pr, s1⟩, h1⟩ := qs_partition_total cmp fuel b nel
        (s.note (Event.enter b nel)) (by omega) hb (by omega)
      obtain ⟨a1, a2, a3, a4⟩ := qs_partition_basic cmp fuel b nel
        (s.note (Event.enter b nel)) pl pr s1 (by omega) hb h1
      have a1 : s1.es.Perm s.es := a1
      simp only [h1]
      obtain ⟨s2, h2⟩ := ih b (pl - b) s1 (by rw [a1.length_eq]; omega) (by omega)
      have p2 := sort_perm cmp fuel b (pl - b) s1 s2 (by rw [a1.length_eq]; omega) h2
      simp only [h2]
      obtain ⟨s3, h3⟩ := ih (pl + 1) (b + nel - (pl + 1)) s2
        (by rw [p2.length_eq, a1.length_eq]; omega) (by omega)
      simp only [h3]
      exact ⟨_, rfl⟩

end Abs

/-! ## Element level: sortedness -/

namespace Abs

variable {α : Type} [Inhabited α]

theorem getD_mem (es : List α) (k : Nat) (hk : k < es.length) : es.getD k default ∈ es := by
  rw [List.getD_eq_getElem _ _ hk]
  exact List.getElem_mem _

omit [Inhabited α] in
theorem Anti.ofPerm {cmp : α → α → Int} {es es' : List α} (h : Anti cmp es)
    (hp : es'.Perm es) : Anti cmp es' :=
  fun x hx y hy hc => h x (hp.mem_iff.mp hx) y (hp.mem_iff.mp hy) hc

theorem Anti.at {cmp : α → α → Int} {es : List α} (h : Anti cmp es) (i j : Nat)
    (hi : i < es.length) (hj : j < es.length)
    (hc : cmp (es.getD i default) (es.getD j default) > 0) :
    cmp (es.getD j default) (es.getD i default) ≤ 0 :=
  h _ (getD_mem es i hi) _ (getD_mem es j hj) hc

theorem ins_inner_sorted (cmp : α → α → Int) (b i : Nat) :
    ∀ (fuel j : Nat) (s s' : State α), b ≤ j → j ≤ i → i < s.es.length → Anti cmp s.es →
      (∀ k, b ≤ k → k + 1 < j → cmp (s.es.getD k default) (s.es.getD (k + 1) default) ≤ 0) →
      (∀ k, j ≤ k → k + 1 ≤ i → cmp (s.es.getD k default) (s.es.getD (k + 1) default) ≤ 0) →
      (b < j → j < i → cmp (s.es.getD (j - 1) default) (s.es.getD (j + 1) default) ≤ 0) →
      ins_inner fuel b cmp j s = some s' → SortedOn cmp b (i + 1) s'.es := by
  intro fuel
  induction fuel with
  | zero => intro j s s' _ _ _ _ _ _ _ h; simp [ins_inner] at h
  | succ fuel ih =>
    intro j s s' hbj hji hil hanti hL hR hB h
    simp only [ins_inner] at h
    split at h
    · rename_i hjb
      rcases cmpswap_cases cmp (j - 1) j s with ⟨hc, h2⟩ | ⟨hc, h2⟩
      · rw [h2] at h
        simp only [ne_eq, one_ne_zero, not_false_eq_true, if_true] at h
        have hget : ∀ k, (swap s.es (j - 1) j).getD k default =
            if k = j then s.es.getD (j - 1) default else
              if k = j - 1 then s.es.getD j default else s.es.getD k default :=
          fun k => swap_getD s.es (j - 1) j k (by omega) (by omega)
        refine ih (j - 1) _ s' (by omega) (by omega) (by simp only [swap_length]; exact hil)
          (hanti.ofPerm (swap_perm _ _ _ (by omega) (by omega))) ?_ ?_ ?_ h
        · intro k hk1 hk2
          simp only [hget]
          rw [if_neg (by omega), if_neg (by omega), if_neg (by omega), if_neg (by omega)]
          exact hL k hk1 (by omega)
        · intro k hk1 hk2
          simp only [hget]
          by_cases e1 : k = j - 1
          · have e2 : k + 1 = j := by omega
            rw [if_neg (by omega), if_pos e1, if_pos e2]
            exact hanti.at (j - 1) j (by omega) (by omega) hc
          · by_cases e3 : k = j
            · subst e3
              rw [if_pos rfl, if_neg (by omega), if_neg (by omega)]
              exact hB (by omega) (by omega)
            · rw [if_neg e3, if_neg e1, if_neg (by omega), if_neg (by omega)]
              exact hR k (by omega) hk2
        · intro hk1 hk2
          simp only [hget]
          have e2 : j - 1 + 1 = j := by omega
          rw [if_neg (by omega), if_neg (by omega), e2, if_pos rfl]
          have := hL (j - 1 - 1) (by omega) (by omega)
          have e3 : j - 1 - 1 + 1 = j - 1 := by omega
          rw [e3] at this
          exact this
      · rw [h2] at h
        simp only [ne_eq, not_true_eq_false, if_false, Option.some.injEq] at h
        rw [← h]
        intro k hk1 hk2
        simp only
        by_cases e1 : k + 1 < j
        · exact hL k hk1 e1
        · by_cases e2 : k + 1 = j
          · have e3 : k = j - 1 := by omega
            have := not_lt.mp hc
            rw [e3]
            have e4 : j - 1 + 1 = j := by omega
            rw [e4]
            exact this
          · exact hR k (by omega) (by omega)
    · simp only [Option.some.injEq] at h
      rw [← h]
      intro k hk1 hk2
      exact hR k (by omega) (by omega)

theorem SortedOn.shorten {cmp : α → α → Int} {lo hi hi' : Nat} {es : List α}
    (h : SortedOn cmp lo hi es) (hh : hi' ≤ hi) : SortedOn cmp lo hi' es :=
  fun k h1 h2 => h k h1 (by omega)

theorem ins_outer_sorted (cmp : α → α → Int) (b e : Nat) :
    ∀ (fuel i : Nat) (s s' : State α), b ≤ i → e ≤ s.es.length → Anti cmp s.es →
      SortedOn cmp b i s.es →
      ins_outer fuel b e cmp i s = some s' → SortedOn cmp b e s'.es := by
  intro fuel
  induction fuel with
  | zero => intro i s s' _ _ _ _ h; simp [ins_outer] at h
  | succ fuel ih =>
    intro i s s' hbi he hanti hs h
    simp only [ins_outer] at h
    split at h
    · split at h
      · simp at h
      · rename_i s1 h1
        have hp := ins_inner_perm cmp b fuel i s s1 (by omega) h1
        have hs1 := ins_inner_sorted cmp b i fuel i s s1 hbi (Nat.le_refl _) (by omega) hanti
          (fun k a1 a2 => hs k a1 a2) (fun k a1 a2 => by omega) (fun a1 a2 => by omega) h1
        exact ih (i + 1) s1 s' (by omega) (by rw [hp.length_eq]; exact he) (hanti.ofPerm hp) hs1 h
    · simp only [Option.some.injEq] at h
      rw [← h]
      exact hs.shorten (by omega)

end Abs

namespace Abs

variable {α : Type} [Inhabited α]

theorem swap_getD_fst (es : List α) (i j : Nat) (hi : i < es.length) (hj : j < es.length)
    (hij : i ≠ j) : (swap es i j).getD i default = es.getD j default := by
  rw [swap_getD es i j i hi hj, if_neg hij, if_pos rfl]

theorem swap_getD_snd (es : List α) (i j : Nat) (hi : i < es.length) (hj : j < es.length) :
    (swap es i j).getD j default = es.getD i default := by
  rw [swap_getD es i j j hi hj, if_pos rfl]

theorem swap_getD_other (es : List α) (i j k : Nat) (hi : i < es.length) (hj : j < es.length)
    (hki : k ≠ i) (hkj : k ≠ j) : (swap es i j).getD k default = es.getD k default := by
  rw [swap_getD es i j k hi hj, if_neg hkj, if_neg hki]

theorem scan_left_part (cmp : α → α → Int) (b last : Nat) (piv : α) :
    ∀ (fuel pl pr : Nat) (s : State α) (pl' pr' : Nat) (s' : State α),
      b ≤ pl → pl ≤ pr → pr ≤ last → last < s.es.length → Anti cmp s.es →
      s.es.getD pr default = piv →
      (∀ k, b ≤ k → k < pl → cmp (s.es.getD k default) piv ≤ 0) →
      (∀ k, pr < k → k ≤ last → cmp piv (s.es.getD k default) ≤ 0) →
      scan_left fuel cmp pl pr s = some (pl', pr', s') →
      s'.es.getD pl' default = piv ∧
        (∀ k, b ≤ k → k < pl' → cmp (s'.es.getD k default) piv ≤ 0) ∧
        (∀ k, pr' < k → k ≤ last → cmp piv (s'.es.getD k default) ≤ 0) := by
  intro fuel
  induction fuel with
  | zero => intro pl pr s pl' pr' s' _ _ _ _ _ _ _ _ h; simp [scan_left] at h
  | succ fuel ih =>
    intro pl pr s pl' pr' s' hb hle hlast hlen hanti hpiv hL hR h
    simp only [scan_left] at h
    split at h
    · rename_i hlt
      rcases cmpswap_cases cmp pl pr s with ⟨hc, h2⟩ | ⟨hc, h2⟩
      · rw [h2] at h
        simp only [ne_eq, one_ne_zero, not_false_eq_true, if_true, Option.some.injEq,
          Prod.mk.injEq] at h
        obtain ⟨h3, h4, h5⟩ := h
        subst h3 h4 h5
        simp only
        refine ⟨?_, ?_, ?_⟩
        · rw [swap_getD_fst _ _ _ (by omega) (by omega) (by omega)]; exact hpiv
        · intro k hk1 hk2
          rw [swap_getD_other _ _ _ _ (by omega) (by omega) (by omega) (by omega)]
          exact hL k hk1 hk2
        · intro k hk1 hk2
          by_cases e1 : k = pr
          · rw [e1, swap_getD_snd _ _ _ (by omega) (by omega), ← hpiv]
            exact hanti.at pl pr (by omega) (by omega) hc
          · rw [swap_getD_other _ _ _ _ (by omega) (by omega) (by omega) e1]
            exact hR k (by omega) hk2
      · rw [h2] at h
        simp only [ne_eq, not_true_eq_false, if_false] at h
        refine ih (pl + 1) pr ⟨s.es, Event.compar pl pr :: Event.cmpswap pl pr :: s.log⟩ pl' pr' s'
          (by omega) (by omega) hlast hlen hanti hpiv ?_ hR h
        intro k hk1 hk2
        by_cases e1 : k = pl
        · subst e1
          rw [← hpiv]
          exact not_lt.mp hc
        · exact hL k hk1 (by omega)
    · simp only [Option.some.injEq, Prod.mk.injEq] at h
      obtain ⟨h3, h4, h5⟩ := h
      subst h3 h4 h5
      have : pl = pr := by omega
      subst this
      exact ⟨hpiv, hL, hR⟩

theorem scan_right_part (cmp : α → α → Int) (b last : Nat) (piv : α) :
    ∀ (fuel pl pr : Nat) (s : State α) (pl' pr' : Nat) (s' : State α),
      b ≤ pl → pl ≤ pr → pr ≤ last → last < s.es.length → Anti cmp s.es →
      s.es.getD pl default = piv →
      (∀ k, b ≤ k → k < pl → cmp (s.es.getD k default) piv ≤ 0) →
      (∀ k, pr < k → k ≤ last → cmp piv (s.es.getD k default) ≤ 0) →
      scan_right fuel cmp pl pr s = some (pl', pr', s') →
      s'.es.getD pr' default = piv ∧
        (∀ k, b ≤ k → k < pl' → cmp (s'.es.getD k default) piv ≤ 0) ∧
        (∀ k, pr' < k → k ≤ last → cmp piv (s'.es.getD k default) ≤ 0) := by
  intro fuel
  induction fuel with
  | zero => intro pl pr s pl' pr' s' _ _ _ _ _ _ _ _ h; simp [scan_right] at h
  | succ fuel ih =>
    intro pl pr s pl' pr' s' hb hle hlast hlen hanti hpiv hL hR h
    simp only [scan_right] at h
    split at h
    · rename_i hlt
      rcases cmpswap_cases cmp pl pr s with ⟨hc, h2⟩ | ⟨hc, h2⟩
      · rw [h2] at h
        simp only [ne_eq, one_ne_zero, not_false_eq_true, if_true, Option.some.injEq,
          Prod.mk.injEq] at h
        obtain ⟨h3, h4, h5⟩ := h
        subst h3 h4 h5
        simp only
        refine ⟨?_, ?_, ?_⟩
        · rw [swap_getD_snd _ _ _ (by omega) (by omega)]; exact hpiv
        · intro k hk1 hk2
          by_cases e1 : k = pl
          · rw [e1, swap_getD_fst _ _ _ (by omega) (by omega) (by omega), ← hpiv]
            exact hanti.at pl pr (by omega) (by omega) hc
          · rw [swap_getD_other _ _ _ _ (by omega) (by omega) e1 (by omega)]
            exact hL k hk1 (by omega)
        · intro k hk1 hk2
          rw [swap_getD_other _ _ _ _ (by omega) (by omega) (by omega) (by omega)]
          exact hR k hk1 hk2
      · rw [h2] at h
        simp only [ne_eq, not_true_eq_false, if_false] at h
        refine ih pl (pr - 1) ⟨s.es, Event.compar pl pr :: Event.cmpswap pl pr :: s.log⟩ pl' pr' s'
          hb (by omega) (by omega) hlen hanti hpiv hL ?_ h
        intro k hk1 hk2
        by_cases e1 : k = pr
        · subst e1
          rw [← hpiv]
          exact not_lt.mp hc
        · exact hR k (by omega) hk2
    · simp only [Option.some.injEq, Prod.mk.injEq] at h
      obtain ⟨h3, h4, h5⟩ := h
      subst h3 h4 h5
      have : pl = pr := by omega
      subst this
      exact ⟨hpiv, hL, hR⟩

theorem partition_loop_part (cmp : α → α → Int) (b last : Nat) (piv : α) :
    ∀ (fuel pl pr : Nat) (s : State α) (pl' pr' : Nat) (s' : State α),
      b ≤ pl → pl ≤ pr → pr ≤ last → last < s.es.length → Anti cmp s.es →
      s.es.getD pr default = piv →
      (∀ k, b ≤ k → k < pl → cmp (s.es.getD k default) piv ≤ 0) →
      (∀ k, pr < k → k ≤ last → cmp piv (s.es.getD k default) ≤ 0) →
      partition_loop fuel cmp pl pr s = some (pl', pr', s') →
      s'.es.getD pl' default = piv ∧
        (∀ k, b ≤ k → k < pl' → cmp (s'.es.getD k default) piv ≤ 0) ∧
        (∀ k, pl' < k → k ≤ last → cmp piv (s'.es.getD k default) ≤ 0) := by
  intro fuel
  induction fuel with
  | zero => intro pl pr s pl' pr' s' _ _ _ _ _ _ _ _ h; simp [partition_loop] at h
  | succ fuel ih =>
    intro pl pr s pl' pr' s' hb hle hlast hlen hanti hpiv hL hR h
    simp only [partition_loop] at h
    split at h
    · split at h
      · simp at h
      · rename_i pl1 pr1 s1 h1
        obtain ⟨a1, a2, a3, a4, _⟩ := scan_left_basic cmp fuel pl pr s pl1 pr1 s1 hle
          (by omega) h1
        obtain ⟨c1, c2, c3⟩ := scan_left_part cmp b last piv fuel pl pr s pl1 pr1 s1 hb hle
          hlast hlen hanti hpiv hL hR h1
        split at h
        · simp at h
        · rename_i pl2 pr2 s2 h2
          obtain ⟨b1, b2, b3, b4⟩ := scan_right_basic cmp fuel pl1 pr1 s1 pl2 pr2 s2 a3
            (by rw [a1.length_eq]; omega) h2
          obtain ⟨d1, d2, d3⟩ := scan_right_part cmp b last piv fuel pl1 pr1 s1 pl2 pr2 s2
            (by omega) a3 (by omega) (by rw [a1.length_eq]; omega) (hanti.ofPerm a1) c1 c2 c3 h2
          exact ih pl2 pr2 s2 pl' pr' s' (by omega) b3 (by omega)
            (by rw [b1.length_eq, a1.length_eq]; omega) (hanti.ofPerm (b1.trans a1)) d1 d2 d3 h
    · simp only [Option.some.injEq, Prod.mk.injEq] at h
      obtain ⟨h3, h4, h5⟩ := h
      subst h3 h4 h5
      have : pl = pr := by omega
      subst this
      exact ⟨hpiv, hL, hR⟩

theorem qs_partition_part (cmp : α → α → Int) (fuel b nel : Nat) (s : State α)
    (pl pr : Nat) (s' : State α) (hn : 0 < nel) (hb : b + nel ≤ s.es.length)
    (hanti : Anti cmp s.es) (h : qs_partition fuel b nel cmp s = some (pl, pr, s')) :
    s'.es.getD pl default = (pivot_last b nel cmp s).es.getD (b + (nel - 1)) default ∧
      (∀ k, b ≤ k → k < pl → cmp (s'.es.getD k default) (s'.es.getD pl default) ≤ 0) ∧
      (∀ k, pl < k → k < b + nel → cmp (s'.es.getD pl default) (s'.es.getD k default) ≤ 0) := by
  unfold qs_partition at h
  have hp := pivot_last_perm b nel cmp s hn hb
  obtain ⟨c1, c2, c3⟩ := partition_loop_part cmp b (b + (nel - 1))
    ((pivot_last b nel cmp s).es.getD (b + (nel - 1)) default) fuel b (b + (nel - 1)) _
    pl pr s' (Nat.le_refl _) (by omega) (Nat.le_refl _) (by rw [hp.length_eq]; omega)
    (hanti.ofPerm hp) rfl (fun k a1 a2 => by omega) (fun k a1 a2 => by omega) h
  refine ⟨c1, ?_, ?_⟩
  · rw [c1]; exact c2
  · rw [c1]; intro k a1 a2; exact c3 k a1 (by omega)

theorem sort_sorted (cmp : α → α → Int) :
    ∀ (fuel b nel : Nat) (s s' : State α), b + nel ≤ s.es.length → Anti cmp s.es →
      sort fuel b nel cmp s = some s' → SortedOn cmp b (b + nel) s'.es := by
  intro fuel
  induction fuel with
  | zero => intro b nel s s' _ _ h; simp [sort] at h
  | succ fuel ih =>
    intro b nel s s' hb hanti h
    simp only [sort] at h
    split at h
    · split at h
      · simp at h
      · rename_i s1 h1
        simp only [Option.some.injEq] at h
        rw [← h]
        exact ins_outer_sorted cmp b (b + nel) fuel (b + 1) (s.note (Event.enter b nel)) s1
          (by omega) hb hanti (fun k a1 a2 => by omega) h1
    · split at h
      · simp at h
      · rename_i pl pr s1 h1
        obtain ⟨a1, a2, a3, a4⟩ := qs_partition_basic cmp fuel b nel
          (s.note (Event.enter b nel)) pl pr s1 (by omega) hb h1
        obtain ⟨_, c2, c3⟩ := qs_partition_part cmp fuel b nel
          (s.note (Event.enter b nel)) pl pr s1 (by omega) hb hanti h1
        have a1 : s1.es.Perm s.es := a1
        split at h
        · simp at h
        · rename_i s2 h2
          have hl1 : b + (pl - b) ≤ s1.es.length := by rw [a1.length_eq]; omega
          obtain ⟨d1, _⟩ := sort_inv cmp fuel b (pl - b) s1 s2 hl1 h2
          have hs2 := ih b (pl - b) s1 s2 hl1 (hanti.ofPerm a1) h2
          have hbp : b + (pl - b) = pl := by omega
          rw [hbp] at d1 hs2
          split at h
          · simp at h
          · rename_i s3 h3
            have hl2 : pl + 1 + (b + nel - (pl + 1)) ≤ s2.es.length := by
              rw [d1.length, a1.length_eq]; omega
            obtain ⟨e1, _⟩ := sort_inv cmp fuel (pl + 1) (b + nel - (pl + 1)) s2 s3 hl2 h3
            have hs3 := ih (pl + 1) (b + nel - (pl + 1)) s2 s3 hl2
              (hanti.ofPerm (d1.toPerm.trans a1)) h3
            have hpe : pl + 1 + (b + nel - (pl + 1)) = b + nel := by omega
            rw [hpe] at e1 hs3
            simp only [Option.some.injEq] at h
            rw [← h]
            -- the pivot and both sides after the two recursive calls
            have hpiv2 : s2.es.getD pl default = s1.es.getD pl default :=
              d1.frame pl (Or.inr (Nat.le_refl _))
            have hpiv3 : s3.es.getD pl default = s1.es.getD pl default := by
              rw [e1.frame pl (Or.inl (by omega))]; exact hpiv2
            have hL2 : ∀ k, b ≤ k → k < pl →
                cmp (s2.es.getD k default) (s1.es.getD pl default) ≤ 0 :=
              d1.allOn (fun x => cmp x (s1.es.getD pl default) ≤ 0) c2
            have hR3 : ∀ k, pl + 1 ≤ k → k < b + nel →
                cmp (s1.es.getD pl default) (s3.es.getD k default) ≤ 0 := by
              apply e1.allOn (fun x => cmp (s1.es.getD pl default) x ≤ 0)
              intro k a5 a6
              rw [d1.frame k (Or.inr (by omega))]
              exact c3 k (by omega) a6
            intro k hk1 hk2
            simp only [State.note]
            by_cases g1 : k + 1 < pl
            · rw [e1.frame k (Or.inl (by omega)), e1.frame (k + 1) (Or.inl (by omega))]
              exact hs2 k hk1 g1
            · by_cases g2 : k + 1 = pl
              · rw [g2, hpiv3, e1.frame k (Or.inl (by omega))]
                exact hL2 k hk1 (by omega)
              · by_cases g3 : k = pl
                · rw [g3, hpiv3]
                  exact hR3 (pl + 1) (Nat.le_refl _) (by omega)
                · exact hs3 k (by omega) hk2

end Abs

/-! ## From the element-level run back to bytes -/

theorem xchgs_append {γ : Type} (n a b : Nat) (l l0 : List (Access γ)) :
    xchgs n a b (l ++ l0) = xchgs n a b l ++ l0 := by
  induction n generalizing a b l with
  | zero => rfl
  | succ n ih =>
    simp only [xchgs]
    rw [← List.cons_append, ih]

theorem xchgs_mem {γ : Type} (n a b : Nat) (l : List (Access γ)) (e : Access γ)
    (he : e ∈ xchgs n a b l) : e ∈ l ∨ ∃ k, k < n ∧ e = Access.xchg (a + k) (b + k) := by
  induction n generalizing a b l with
  | zero => left; exact he
  | succ n ih =>
    simp only [xchgs] at he
    rcases ih _ _ _ he with h | ⟨k, hk, rfl⟩
    · rcases List.mem_cons.mp h with h | h
      · right; exact ⟨0, by omega, by rw [h]; rfl⟩
      · left; exact h
    · right; exact ⟨k + 1, by omega, by congr 1 <;> omega⟩

theorem concLog_append {γ : Type} (B w : Nat) (arg : γ) (l0 : List (Access γ))
    (al : List Abs.Event) : concLog B w arg l0 al = concLog B w arg [] al ++ l0 := by
  induction al with
  | nil => rfl
  | cons e al ih =>
    simp only [concLog]
    rw [ih]
    cases e <;> simp only [concEvent, List.cons_append, xchgs_append]

theorem concEvent_in {γ : Type} (B w n : Nat) (arg : γ) (ev : Abs.Event)
    (hev : Abs.EventIn 0 n ev) (l : List (Access γ)) (e : Access γ)
    (he : e ∈ concEvent B w arg ev l) (hw : 0 < w) : e ∈ l ∨ AccessIn B n w arg e := by
  have key : ∀ i, i < n → (i + 1) * w ≤ n * w := fun i hi => Nat.mul_le_mul_right w (by omega)
  cases ev with
  | compar i j =>
    simp only [concEvent, List.mem_cons] at he
    simp only [Abs.EventIn] at hev
    rcases he with rfl | he
    · right; exact ⟨⟨i, by omega, rfl⟩, ⟨j, by omega, rfl⟩, rfl⟩
    · left; exact he
  | swap i j =>
    simp only [concEvent] at he
    simp only [Abs.EventIn] at hev
    rcases xchgs_mem _ _ _ _ _ he with h | ⟨k, hk, rfl⟩
    · left; exact h
    · right
      have h1 := key i (by omega)
      have h2 := key j (by omega)
      rw [Nat.succ_mul] at h1 h2
      simp only [AccessIn]
      omega
  | cmpswap i j =>
    simp only [concEvent, List.mem_cons] at he
    simp only [Abs.EventIn] at hev
    rcases he with rfl | he
    · right
      refine ⟨⟨i, by omega, rfl⟩, ⟨j, by omega, rfl⟩, ?_⟩
      have := (ptr_lt_iff B w i j hw).mpr (by omega)
      omega
    · left; exact he
  | enter b m =>
    simp only [concEvent, List.mem_cons] at he
    simp only [Abs.EventIn] at hev
    rcases he with rfl | he
    · right; exact ⟨b, rfl, by omega⟩
    · left; exact he
  | leave =>
    simp only [concEvent, List.mem_cons] at he
    rcases he with rfl | he
    · right; trivial
    · left; exact he

theorem concLog_in {γ : Type} (B w n : Nat) (arg : γ) (hw : 0 < w) (al : List Abs.Event)
    (hal : ∀ ev ∈ al, Abs.EventIn 0 n ev) :
    ∀ e ∈ concLog B w arg ([] : List (Access γ)) al, AccessIn B n w arg e := by
  induction al with
  | nil => intro e he; simp [concLog] at he
  | cons ev al ih =>
    intro e he
    simp only [concLog] at he
    rcases concEvent_in B w n arg ev (hal ev (List.mem_cons_self _ _)) _ e he hw with h | h
    · exact ih (fun x hx => hal x (List.mem_cons_of_mem _ hx)) e h
    · exact h

/-- The run of `sort_r_simple` with enough fuel, in terms of the element-level run. -/
theorem sort_r_simple_run {γ : Type} (fuel base nel w : Nat) (compar : Compar γ) (arg : γ)
    (h : Heap γ) (hw : 0 < w) (hb : base + nel * w ≤ h.mem.length)
    (hf : sortFuel nel ≤ fuel) :
    ∃ s' : Abs.State (List Byte),
      Abs.sort fuel 0 nel (fun x y => compar x y arg) ⟨elems h.mem base w nel, []⟩ = some s' ∧
      sort_r_simple fuel base nel w compar arg h =
        some (concHeap (h.mem.take base) (h.mem.drop (base + nel * w)) w arg h.log s') ∧
      (h.mem.take base).length = base ∧ s'.es.length = nel ∧ (∀ e ∈ s'.es, e.length = w) ∧
      elems (h.mem.take base ++ s'.es.flatten ++ h.mem.drop (base + nel * w)) base w nel =
        s'.es := by
  have hlen : (elems h.mem base w nel).length = nel := elems_length _ _ _ _
  obtain ⟨s', hs'⟩ := Abs.sort_total (fun x y => compar x y arg) fuel 0 nel
    ⟨elems h.mem base w nel, []⟩ (by simp [hlen]) (by unfold sortFuel at hf; omega)
  have hp := Abs.sort_perm (fun x y => compar x y arg) fuel 0 nel
    ⟨elems h.mem base w nel, []⟩ s' (by simp [hlen]) hs'
  have hp : s'.es.Perm (elems h.mem base w nel) := hp
  have hu := uniform_of_perm hp (elems_uniform h.mem base w nel hb)
  have hl : s'.es.length = nel := by rw [hp.length_eq, hlen]
  have hpre : (h.mem.take base).length = base := by
    rw [List.length_take]
    have : 0 ≤ nel * w := Nat.zero_le _
    omega
  refine ⟨s', hs', ?_, hpre, hl, hu, ?_⟩
  · rw [sort_r_simple_eq fuel base nel w compar arg h hw hb, hs']
    rfl
  · have := elems_conc (h.mem.take base) (h.mem.drop (base + nel * w)) w s'.es hu
    rw [hpre, hl] at this
    exact this

/-! ## Order lemmas -/

theorem chain_of_sortedOn {α : Type} [Inhabited α] (cmp : α → α → Int) (l l0 : List α)
    (hm : ∀ a ∈ l, a ∈ l0) (hs : Abs.SortedOn cmp 0 l.length l) :
    List.Chain' (fun a b => a ∈ l0 ∧ b ∈ l0 ∧ cmp a b ≤ 0) l := by
  rw [List.chain'_iff_get]
  intro i hi
  have h1 : i < l.length := by omega
  have h2 : i + 1 < l.length := by omega
  refine ⟨hm _ (List.get_mem _ _ _), hm _ (List.get_mem _ _ _), ?_⟩
  have := hs i (Nat.zero_le _) h2
  rw [List.getD_eq_getElem _ _ h1, List.getD_eq_getElem _ _ h2] at this
  exact this

/-- Two arrangements of the same elements that are both in order coincide, when the
comparator is valid and reports equality only for an element and itself. -/
theorem sorted_perm_unique {α : Type} [Inhabited α] (cmp : α → α → Int) (l l' : List α)
    (hp : l'.Perm l)
    (hiff : ∀ a ∈ l, ∀ b ∈ l, (cmp a b > 0 ↔ cmp b a < 0))
    (htr : ∀ a ∈ l, ∀ b ∈ l, ∀ c ∈ l, cmp a b ≤ 0 → cmp b c ≤ 0 → cmp a c ≤ 0)
    (hd : ∀ i j, i < l.length → j < l.length →
      cmp (l.getD i default) (l.getD j default) = 0 → i = j)
    (hs : Abs.SortedOn cmp 0 l.length l) (hs' : Abs.SortedOn cmp 0 l'.length l') : l' = l := by
  have hanti : ∀ a b : α, (a ∈ l ∧ b ∈ l ∧ cmp a b ≤ 0) → (b ∈ l ∧ a ∈ l ∧ cmp b a ≤ 0) →
      a = b := by
    rintro a b ⟨ha, hb, hab⟩ ⟨_, _, hba⟩
    obtain ⟨i, hi, rfl⟩ := List.getElem_of_mem ha
    obtain ⟨j, hj, rfl⟩ := List.getElem_of_mem hb
    have h0 : cmp l[i] l[j] = 0 := by
      by_contra hne
      have hlt : cmp l[i] l[j] < 0 := lt_of_le_of_ne hab hne
      have := (hiff _ hb _ ha).mpr hlt
      omega
    have := hd i j hi hj (by
      rw [List.getD_eq_getElem _ _ hi, List.getD_eq_getElem _ _ hj]; exact h0)
    subst this
    rfl
  haveI : IsAntisymm α (fun a b => a ∈ l ∧ b ∈ l ∧ cmp a b ≤ 0) := ⟨hanti⟩
  haveI : IsTrans α (fun a b => a ∈ l ∧ b ∈ l ∧ cmp a b ≤ 0) :=
    ⟨fun a b c ⟨ha, hb, hab⟩ ⟨_, hc, hbc⟩ => ⟨ha, hc, htr a ha b hb c hc hab hbc⟩⟩
  have c1 := chain_of_sortedOn cmp l l (fun a ha => ha) hs
  have c2 := chain_of_sortedOn cmp l' l (fun a ha => hp.mem_iff.mp ha) hs'
  rw [List.chain'_iff_pairwise] at c1 c2
  exact List.eq_of_perm_of_sorted hp c2 c1

theorem byteCmp_validOn (es : List (List Byte)) : ValidOn byteCmp () es := by
  constructor
  · intro a _ b _
    simp only [byteCmp]
    omega
  · intro a _ b _ c _
    simp only [byteCmp]
    omega

theorem anti_of_validOn {γ : Type} (compar : Compar γ) (arg : γ) (es : List (List Byte))
    (hv : ValidOn compar arg es) : Abs.Anti (fun x y => compar x y arg) es := by
  intro x hx y hy hc
  have := (hv.1 x hx y hy).mp hc
  exact le_of_lt this

theorem sortedOn_of_sortedArr {γ : Type} (compar : Compar γ) (arg : γ) (mem : List Byte)
    (base w nel : Nat) (hs : SortedArr compar arg mem base w nel) :
    Abs.SortedOn (fun x y => compar x y arg) 0 (elems mem base w nel).length
      (elems mem base w nel) := by
  intro k _ hk
  rw [elems_length] at hk
  have h1 : k < (elems mem base w nel).length := by rw [elems_length]; omega
  have h2 : k + 1 < (elems mem base w nel).length := by rw [elems_length]; omega
  rw [List.getD_eq_getElem _ _ h1, List.getD_eq_getElem _ _ h2]
  simp only [elems, List.getElem_map, List.getElem_range]
  exact hs k hk

theorem elems_getD (mem : List Byte) (base w nel i : Nat) (hi : i < nel) :
    (elems mem base w nel).getD i default = elem mem w (base + i * w) := by
  have h1 : i < (elems mem base w nel).length := by rw [elems_length]; exact hi
  rw [List.getD_eq_getElem _ _ h1]
  simp only [elems, List.getElem_map, List.getElem_range]

theorem sortedArr_of_sortedOn {γ : Type} (compar : Compar γ) (arg : γ) (mem : List Byte)
    (base w nel : Nat)
    (hs : Abs.SortedOn (fun x y => compar x y arg) 0 nel (elems mem base w nel)) :
    SortedArr compar arg mem base w nel := by
  intro i hi
  have := hs i (Nat.zero_le _) hi
  rw [elems_getD _ _ _ _ _ (by omega), elems_getD _ _ _ _ _ hi] at this
  exact this

/-! ## The sort: sortedness and permutation -/

/-- C1 (sortedness): for an array of `nel` elements of width `w > 0` inside the memory
and a comparator that is valid on its elements, `sort_r_simple` (which is what
`hb_sort_r` runs on the fallback path) returns, and afterwards every adjacent pair
satisfies `compar(elem[i], elem[i+1], arg) ≤ 0`. -/
theorem sort_r_simple_sorted {γ : Type} (fuel base nel w : Nat) (compar : Compar γ) (arg : γ)
    (h : Heap γ) (hw : 0 < w) (hb : base + nel * w ≤ h.mem.length)
    (hf : sortFuel nel ≤ fuel) (hv : ValidOn compar arg (elems h.mem base w nel)) :
    ∃ h', sort_r_simple fuel base nel w compar arg h = some h' ∧
      hb_sort_r fuel base nel w compar arg h = some h' ∧
      SortedArr compar arg h'.mem base w nel := by
  obtain ⟨s', hs', hrun, hpre, hl, hu, hel⟩ :=
    sort_r_simple_run fuel base nel w compar arg h hw hb hf
  refine ⟨_, hrun, hrun, ?_⟩
  have hsorted := Abs.sort_sorted (fun x y => compar x y arg) fuel 0 nel
    ⟨elems h.mem base w nel, []⟩ s' (by simp [elems_length])
    (anti_of_validOn compar arg _ hv) hs'
  rw [Nat.zero_add] at hsorted
  apply sortedArr_of_sortedOn
  simp only [concHeap]
  rw [hel]
  exact hsorted

/-- Witness of C1: arrays of 0, 1, 2, 6, 7 and 8 one-byte elements, among them
`[5,3,8,1,9,2]`, under the numeric order of the bytes. -/
theorem sort_r_simple_sorted_witness :
    (∃ h', sort_r_simple 4 0 0 1 byteCmp () ⟨[], []⟩ = some h' ∧
      hb_sort_r 4 0 0 1 byteCmp () ⟨[], []⟩ = some h' ∧
      SortedArr byteCmp () h'.mem 0 1 0) ∧
    (∃ h', sort_r_simple 6 0 1 1 byteCmp () ⟨[4], []⟩ = some h' ∧
      hb_sort_r 6 0 1 1 byteCmp () ⟨[4], []⟩ = some h' ∧
      SortedArr byteCmp () h'.mem 0 1 1) ∧
    (∃ h', sort_r_simple 8 0 2 1 byteCmp () ⟨[7, 4], []⟩ = some h' ∧
      hb_sort_r 8 0 2 1 byteCmp () ⟨[7, 4], []⟩ = some h' ∧
      SortedArr byteCmp () h'.mem 0 1 2) ∧
    (∃ h', sort_r_simple 16 0 6 1 byteCmp () ⟨[5, 3, 8, 1, 9, 2], []⟩ = some h' ∧
      hb_sort_r 16 0 6 1 byteCmp () ⟨[5, 3, 8, 1, 9, 2], []⟩ = some h' ∧
      SortedArr byteCmp () h'.mem 0 1 6) ∧
    (∃ h', sort_r_simple 18 0 7 1 byteCmp () ⟨[5, 3, 8, 1, 9, 2, 7], []⟩ = some h' ∧
      hb_sort_r 18 0 7 1 byteCmp () ⟨[5, 3, 8, 1, 9, 2, 7], []⟩ = some h' ∧
      SortedArr byteCmp () h'.mem 0 1 7) ∧
    (∃ h', sort_r_simple 20 0 8 1 byteCmp () ⟨[5, 3, 8, 1, 9, 2, 7, 0], []⟩ = some h' ∧
      hb_sort_r 20 0 8 1 byteCmp () ⟨[5, 3, 8, 1, 9, 2, 7, 0], []⟩ = some h' ∧
      SortedArr byteCmp () h'.mem 0 1 8) :=
  ⟨sort_r_simple_sorted 4 0 0 1 byteCmp () ⟨[], []⟩ (by decide) (by decide) (by decide)
      (byteCmp_validOn _),
    sort_r_simple_sorted 6 0 1 1 byteCmp () ⟨[4], []⟩ (by decide) (by decide) (by decide)
      (byteCmp_validOn _),
    sort_r_simple_sorted 8 0 2 1 byteCmp () ⟨[7, 4], []⟩ (by decide) (by decide) (by decide)
      (byteCmp_validOn _),
    sort_r_simple_sorted 16 0 6 1 byteCmp () ⟨[5, 3, 8, 1, 9, 2], []⟩ (by decide) (by decide)
      (by decide) (byteCmp_validOn _),
    sort_r_simple_sorted 18 0 7 1 byteCmp () ⟨[5, 3, 8, 1, 9, 2, 7], []⟩ (by decide)
      (by decide) (by decide) (byteCmp_validOn _),
    sort_r_simple_sorted 20 0 8 1 byteCmp () ⟨[5, 3, 8, 1, 9, 2, 7, 0], []⟩ (by decide)
      (by decide) (by decide) (byteCmp_validOn _)⟩

/-- C2 (permutation preservation): for an array of `nel` elements of width `w > 0`
inside the memory and any comparator at all, `sort_r_simple` returns and the elements
of the array afterwards are a permutation of the elements before; the bytes before and
after the array are untouched. -/
theorem sort_r_simple_perm {γ : Type} (fuel base nel w : Nat) (compar : Compar γ) (arg : γ)
    (h : Heap γ) (hw : 0 < w) (hb : base + nel * w ≤ h.mem.length)
    (hf : sortFuel nel ≤ fuel) :
    ∃ h', sort_r_simple fuel base nel w compar arg h = some h' ∧
      (elems h'.mem base w nel).Perm (elems h.mem base w nel) ∧
      h'.mem.length = h.mem.length ∧
      h'.mem.take base = h.mem.take base ∧
      h'.mem.drop (base + nel * w) = h.mem.drop (base + nel * w) := by
  obtain ⟨s', hs', hrun, hpre, hl, hu, hel⟩ :=
    sort_r_simple_run fuel base nel w compar arg h hw hb hf
  have hp : s'.es.Perm (elems h.mem base w nel) :=
    Abs.sort_perm (fun x y => compar x y arg) fuel 0 nel ⟨elems h.mem base w nel, []⟩ s'
      (by simp [elems_length]) hs'
  have hfl : s'.es.flatten.length = nel * w := by
    rw [flatten_length_uniform w s'.es hu, hl]
  refine ⟨_, hrun, ?_, ?_, ?_, ?_⟩
  · simp only [concHeap]
    rw [hel]
    exact hp
  · simp only [concHeap, List.length_append, hfl, hpre, List.length_drop]
    omega
  · simp only [concHeap, List.append_assoc]
    rw [List.take_append_of_le_length (by omega)]
    rw [List.take_of_length_le (by omega)]
  · simp only [concHeap]
    rw [List.drop_append_of_le_length (by simp [hfl, hpre])]
    have : (h.mem.take base ++ s'.es.flatten).length = base + nel * w := by
      simp [hfl, hpre]
    rw [← this, List.drop_length]
    simp

/-- Witness of C2: the comparator that always answers "greater" is not a valid
order; the sizes are 0, 1 and 8. -/
theorem sort_r_simple_perm_witness :
    (∃ h', sort_r_simple 4 0 0 1 (fun _ _ _ => 1) () ⟨[], []⟩ = some h' ∧
      (elems h'.mem 0 1 0).Perm (elems [] 0 1 0) ∧
      h'.mem.length = ([] : List Byte).length ∧
      h'.mem.take 0 = ([] : List Byte).take 0 ∧
      h'.mem.drop (0 + 0 * 1) = ([] : List Byte).drop (0 + 0 * 1)) ∧
    (∃ h', sort_r_simple 6 0 1 1 (fun _ _ _ => 1) () ⟨[4], []⟩ = some h' ∧
      (elems h'.mem 0 1 1).Perm (elems [4] 0 1 1) ∧
      h'.mem.length = [4].length ∧
      h'.mem.take 0 = [4].take 0 ∧
      h'.mem.drop (0 + 1 * 1) = [4].drop (0 + 1 * 1)) ∧
    (∃ h', sort_r_simple 20 1 8 2 (fun _ _ _ => 1) ()
        ⟨[9, 5, 0, 3, 0, 8, 0, 1, 0, 9, 0, 2, 0, 7, 0, 0, 0, 9], []⟩ = some h' ∧
      (elems h'.mem 1 2 8).Perm
        (elems [9, 5, 0, 3, 0, 8, 0, 1, 0, 9, 0, 2, 0, 7, 0, 0, 0, 9] 1 2 8) ∧
      h'.mem.length = [9, 5, 0, 3, 0, 8, 0, 1, 0, 9, 0, 2, 0, 7, 0, 0, 0, 9].length ∧
      h'.mem.take 1 = [9, 5, 0, 3, 0, 8, 0, 1, 0, 9, 0, 2, 0, 7, 0, 0, 0, 9].take 1 ∧
      h'.mem.drop (1 + 8 * 2) =
        [9, 5, 0, 3, 0, 8, 0, 1, 0, 9, 0, 2, 0, 7, 0, 0, 0, 9].drop (1 + 8 * 2)) :=
  ⟨sort_r_simple_perm 4 0 0 1 (fun _ _ _ => 1) () ⟨[], []⟩ (by decide) (by decide)
      (by decide),
    sort_r_simple_perm 6 0 1 1 (fun _ _ _ => 1) () ⟨[4], []⟩ (by decide) (by decide)
      (by decide),
    sort_r_simple_perm 20 1 8 2 (fun _ _ _ => 1) ()
      ⟨[9, 5, 0, 3, 0, 8, 0, 1, 0, 9, 0, 2, 0, 7, 0, 0, 0, 9], []⟩ (by decide) (by decide)
      (by decide)⟩

/-! ## The sort: bounds and termination -/

theorem heap_eq_conc {γ : Type} (h : Heap γ) (base nel w : Nat) (arg : γ)
    (hb : base + nel * w ≤ h.mem.length) :
    h = concHeap (h.mem.take base) (h.mem.drop (base + nel * w)) w arg h.log
      ⟨elems h.mem base w nel, []⟩ := by
  cases h with
  | mk mem log =>
    simp only [concHeap, concLog]
    congr 1
    exact mem_eq_conc mem base w nel hb

theorem take_length_base (mem : List Byte) (base nel w : Nat)
    (hb : base + nel * w ≤ mem.length) : (mem.take base).length = base := by
  rw [List.length_take]
  have : 0 ≤ nel * w := Nat.zero_le _
  omega

/-- The partition step of the quicksort branch with enough fuel: both pointers end at
the address of one element `p` of the array. -/
theorem qs_partition_run {γ : Type} (fuel base nel w : Nat) (compar : Compar γ) (arg : γ)
    (h : Heap γ) (hw : 0 < w) (hb : base + nel * w ≤ h.mem.length) (hn : 0 < nel)
    (hf : nel < fuel) :
    ∃ (p : Nat) (s1 : Abs.State (List Byte)),
      Abs.qs_partition fuel 0 nel (fun x y => compar x y arg) ⟨elems h.mem base w nel, []⟩ =
        some (p, p, s1) ∧
      qs_partition fuel base nel w compar arg h =
        some (base + p * w, base + p * w,
          concHeap (h.mem.take base) (h.mem.drop (base + nel * w)) w arg h.log s1) ∧
      p < nel := by
  have hlen : (elems h.mem base w nel).length = nel := elems_length _ _ _ _
  have hpre := take_length_base h.mem base nel w hb
  obtain ⟨⟨pl, pr, s1⟩, hq⟩ := Abs.qs_partition_total (fun x y => compar x y arg) fuel 0 nel
    ⟨elems h.mem base w nel, []⟩ hn (by simp [hlen]) hf
  obtain ⟨a1, a2, a3, a4⟩ := Abs.qs_partition_basic (fun x y => compar x y arg) fuel 0 nel
    ⟨elems h.mem base w nel, []⟩ pl pr s1 hn (by simp [hlen]) hq
  subst a3
  refine ⟨pl, s1, hq, ?_, by omega⟩
  have hsim := qs_partition_sim (h.mem.take base) (h.mem.drop (base + nel * w)) w compar arg
    h.log hw fuel 0 nel ⟨elems h.mem base w nel, []⟩ (elems_uniform h.mem base w nel hb) hn
    (by simp [hlen])
  rw [hpre, Nat.zero_mul, Nat.add_zero, ← heap_eq_conc h base nel w arg hb, hq] at hsim
  exact hsim

/-- C5 (the sort stays inside the array): with `w > 0` and any comparator,
`sort_r_simple` on `nel` elements at `base` returns, and every entry it adds to the
log (comparator calls, byte exchanges, calls of `sort_r_cmpswap`, nested calls)
concerns only elements `0 .. nel-1` of that array; `sort_r_cmpswap` is never called on
one element twice. -/
theorem sort_r_simple_in_bounds {γ : Type} (fuel base nel w : Nat) (compar : Compar γ)
    (arg : γ) (h : Heap γ) (hw : 0 < w) (hb : base + nel * w ≤ h.mem.length)
    (hf : sortFuel nel ≤ fuel) :
    ∃ h' new, sort_r_simple fuel base nel w compar arg h = some h' ∧
      h'.log = new ++ h.log ∧ ∀ e ∈ new, AccessIn base nel w arg e := by
  obtain ⟨s', hs', hrun, hpre, hl, hu, hel⟩ :=
    sort_r_simple_run fuel base nel w compar arg h hw hb hf
  obtain ⟨_, ⟨new, hnew, hin⟩⟩ := Abs.sort_inv (fun x y => compar x y arg) fuel 0 nel
    ⟨elems h.mem base w nel, []⟩ s' (by simp [elems_length]) hs'
  simp only [List.append_nil, Nat.zero_add] at hnew hin
  refine ⟨_, concLog base w arg [] s'.log, hrun, ?_, ?_⟩
  · simp only [concHeap, hpre]
    exact concLog_append base w arg h.log s'.log
  · rw [hnew]
    exact concLog_in base w nel arg hw new hin

/-- Witness of C5: eight two-byte elements after one leading byte, under a
comparator that always answers "greater". -/
theorem sort_r_simple_in_bounds_witness :
    ∃ h' new, sort_r_simple 20 1 8 2 (fun _ _ _ => 1) ()
        ⟨[9, 5, 0, 3, 0, 8, 0, 1, 0, 9, 0, 2, 0, 7, 0, 0, 0, 9], []⟩ = some h' ∧
      h'.log = new ++ [] ∧ ∀ e ∈ new, AccessIn 1 8 2 () e :=
  sort_r_simple_in_bounds 20 1 8 2 (fun _ _ _ => 1) ()
    ⟨[9, 5, 0, 3, 0, 8, 0, 1, 0, 9, 0, 2, 0, 7, 0, 0, 0, 9], []⟩ (by decide) (by decide)
    (by decide)

/-- C7 (the sort is total): with `w > 0` and any comparator, `sort_r_simple` returns.
For `nel ≥ 7` the partition ends with both pointers at element `p < nel`; the two
recursive calls are on `(pl - b) / w = p` and `(end - (pl + w)) / w = nel - 1 - p`
elements, both divisions are exact, both counts are below `nel` and add up to
`nel - 1`, and both calls return. -/
theorem sort_r_simple_total {γ : Type} (fuel base nel w : Nat) (compar : Compar γ)
    (arg : γ) (h : Heap γ) (hw : 0 < w) (hb : base + nel * w ≤ h.mem.length)
    (hf : sortFuel nel ≤ fuel) :
    ∃ h', sort_r_simple fuel base nel w compar arg h = some h' ∧
      (7 ≤ nel → ∃ p h1 h2 h3,
        qs_partition (fuel - 1) base nel w compar arg (h.note (Access.enter base nel)) =
          some (base + p * w, base + p * w, h1) ∧
        p < nel ∧
        w ∣ (base + p * w - base) ∧ (base + p * w - base) / w = p ∧
        w ∣ (base + nel * w - (base + p * w + w)) ∧
        (base + nel * w - (base + p * w + w)) / w = nel - 1 - p ∧
        nel - 1 - p < nel ∧ p + (nel - 1 - p) = nel - 1 ∧
        sort_r_simple (fuel - 1) base p w compar arg h1 = some h2 ∧
        sort_r_simple (fuel - 1) (base + p * w + w) (nel - 1 - p) w compar arg h2 = some h3 ∧
        h' = h3.note Access.leave) := by
  obtain ⟨s', _, hrun, _⟩ := sort_r_simple_run fuel base nel w compar arg h hw hb hf
  refine ⟨_, hrun, ?_⟩
  intro hn
  obtain ⟨f, rfl⟩ : ∃ f, fuel = f + 1 := ⟨fuel - 1, by unfold sortFuel at hf; omega⟩
  obtain ⟨p, s1, _, hq, hp⟩ := qs_partition_run f base nel w compar arg
    (h.note (Access.enter base nel)) hw hb (by omega) (by unfold sortFuel at hf; omega)
  have e1 : base + p * w - base = p * w := by omega
  have e2 : base + nel * w - (base + p * w + w) = (nel - 1 - p) * w := by
    have : nel * w = (nel - 1 - p) * w + (p + 1) * w := by
      rw [← Nat.add_mul]; congr 1; omega
    rw [Nat.succ_mul] at this
    omega
  have e3 : base + p * w - base = p * w := by omega
  simp only [sort_r_simple, show ¬ nel < 7 by omega, if_false, hq] at hrun
  rw [e1, e2, Nat.mul_div_cancel _ hw, Nat.mul_div_cancel _ hw] at hrun
  split at hrun
  · simp at hrun
  · rename_i h2 hh2
    split at hrun
    · simp at hrun
    · rename_i h3 hh3
      simp only [Option.some.injEq] at hrun
      refine ⟨p, _, h2, h3, hq, hp, ?_, ?_, ?_, ?_, by omega, by omega, hh2, hh3, hrun.symm⟩
      · rw [e1]; exact Dvd.intro_left _ rfl
      · rw [e1, Nat.mul_div_cancel _ hw]
      · rw [e2]; exact Dvd.intro_left _ rfl
      · rw [e2, Nat.mul_div_cancel _ hw]

/-- Witness of C7: eight two-byte elements after one leading byte, under a
comparator that always answers "greater". -/
theorem sort_r_simple_total_witness :
    ∃ h', sort_r_simple 20 1 8 2 (fun _ _ _ => 1) ()
        ⟨[9, 5, 0, 3, 0, 8, 0, 1, 0, 9, 0, 2, 0, 7, 0, 0, 0, 9], []⟩ = some h' ∧
      (7 ≤ 8 → ∃ p h1 h2 h3,
        qs_partition (20 - 1) 1 8 2 (fun _ _ _ => 1) ()
            (Heap.note ⟨[9, 5, 0, 3, 0, 8, 0, 1, 0, 9, 0, 2, 0, 7, 0, 0, 0, 9], []⟩
              (Access.enter 1 8)) =
          some (1 + p * 2, 1 + p * 2, h1) ∧
        p < 8 ∧
        2 ∣ (1 + p * 2 - 1) ∧ (1 + p * 2 - 1) / 2 = p ∧
        2 ∣ (1 + 8 * 2 - (1 + p * 2 + 2)) ∧
        (1 + 8 * 2 - (1 + p * 2 + 2)) / 2 = 8 - 1 - p ∧
        8 - 1 - p < 8 ∧ p + (8 - 1 - p) = 8 - 1 ∧
        sort_r_simple (20 - 1) 1 p 2 (fun _ _ _ => 1) () h1 = some h2 ∧
        sort_r_simple (20 - 1) (1 + p * 2 + 2) (8 - 1 - p) 2 (fun _ _ _ => 1) () h2 =
          some h3 ∧
        h' = h3.note Access.leave) :=
  sort_r_simple_total 20 1 8 2 (fun _ _ _ => 1) ()
    ⟨[9, 5, 0, 3, 0, 8, 0, 1, 0, 9, 0, 2, 0, 7, 0, 0, 0, 9], []⟩ (by decide) (by decide)
    (by decide)

/-! ## The sort: small arrays and sorted arrays -/

/-- C8 (no-op on at most one element): for `nel = 0` and `nel = 1`, every width and
every comparator, `sort_r_simple` returns with the memory unchanged byte for byte
and without a single comparator call: the log gains only the entry and the exit
of the call. -/
theorem sort_r_simple_small {γ : Type} (fuel base nel w : Nat) (compar : Compar γ)
    (arg : γ) (h : Heap γ) (hn : nel ≤ 1) (hf : 2 ≤ fuel) :
    ∃ h', sort_r_simple fuel base nel w compar arg h = some h' ∧
      h'.mem = h.mem ∧
      h'.log = Access.leave :: Access.enter base nel :: h.log ∧
      comparCount h'.log = comparCount h.log := by
  obtain ⟨f, rfl⟩ : ∃ f, fuel = f + 2 := ⟨fuel - 2, by omega⟩
  have hlt : ¬ base + w < base + nel * w := by
    have : nel * w ≤ 1 * w := Nat.mul_le_mul_right w hn
    omega
  refine ⟨⟨h.mem, Access.leave :: Access.enter base nel :: h.log⟩, ?_, rfl, rfl, ?_⟩
  · simp only [sort_r_simple, show nel < 7 by omega, if_true, ins_outer, hlt, if_false,
      Heap.note]
  · simp only [comparCount]

/-- Witness of C8: one element of width 3 and no element at all, with a comparator
that always answers "greater". -/
theorem sort_r_simple_small_witness :
    (∃ h', sort_r_simple 2 1 1 3 (fun _ _ _ => 1) () ⟨[7, 1, 2, 3, 7], []⟩ = some h' ∧
      h'.mem = [7, 1, 2, 3, 7] ∧
      h'.log = Access.leave :: Access.enter 1 1 :: [] ∧
      comparCount h'.log = comparCount ([] : List (Access Unit))) ∧
    (∃ h', sort_r_simple 2 0 0 3 (fun _ _ _ => 1) () ⟨[], []⟩ = some h' ∧
      h'.mem = [] ∧
      h'.log = Access.leave :: Access.enter 0 0 :: [] ∧
      comparCount h'.log = comparCount ([] : List (Access Unit))) :=
  ⟨sort_r_simple_small 2 1 1 3 (fun _ _ _ => 1) () ⟨[7, 1, 2, 3, 7], []⟩ (by decide)
      (by decide),
    sort_r_simple_small 2 0 0 3 (fun _ _ _ => 1) () ⟨[], []⟩ (by decide) (by decide)⟩

/-- Sorting an array that is in order, with no two elements comparing equal, gives
back the same memory. -/
theorem sort_fixed {γ : Type} (fuel base nel w : Nat) (compar : Compar γ) (arg : γ)
    (h : Heap γ) (hw : 0 < w) (hb : base + nel * w ≤ h.mem.length)
    (hf : sortFuel nel ≤ fuel) (hv : ValidOn compar arg (elems h.mem base w nel))
    (hd : ∀ i, i < nel → ∀ j, j < nel →
      compar (elem h.mem w (base + i * w)) (elem h.mem w (base + j * w)) arg = 0 → i = j)
    (hs : SortedArr compar arg h.mem base w nel) :
    ∃ h', sort_r_simple fuel base nel w compar arg h = some h' ∧ h'.mem = h.mem := by
  obtain ⟨s', hs', hrun, hpre, hl, hu, hel⟩ :=
    sort_r_simple_run fuel base nel w compar arg h hw hb hf
  have hlen : (elems h.mem base w nel).length = nel := elems_length _ _ _ _
  have hp : s'.es.Perm (elems h.mem base w nel) :=
    Abs.sort_perm (fun x y => compar x y arg) fuel 0 nel ⟨elems h.mem base w nel, []⟩ s'
      (by simp [hlen]) hs'
  have hsorted := Abs.sort_sorted (fun x y => compar x y arg) fuel 0 nel
    ⟨elems h.mem base w nel, []⟩ s' (by simp [hlen]) (anti_of_validOn compar arg _ hv) hs'
  rw [Nat.zero_add, ← hl] at hsorted
  have heq : s'.es = elems h.mem base w nel := by
    apply sorted_perm_unique (fun x y => compar x y arg) _ _ hp hv.1 hv.2
    · intro i j hi hj hc
      rw [hlen] at hi hj
      rw [elems_getD _ _ _ _ _ hi, elems_getD _ _ _ _ _ hj] at hc
      exact hd i hi j hj hc
    · exact sortedOn_of_sortedArr compar arg h.mem base w nel hs
    · exact hsorted
  refine ⟨_, hrun, ?_⟩
  simp only [concHeap]
  rw [heq]
  exact (mem_eq_conc h.mem base w nel hb).symm

/-- C10 (idempotence on distinct values): when the comparator is valid on the
elements, reports equality only for an element and itself, and the array is already
in ascending order, `sort_r_simple` returns the memory unchanged, every element at
its original position (also for `nel ≥ 7`, where the median-of-three step moves an
element first); sorting the result once more changes nothing either. -/
theorem sort_r_simple_idempotent {γ : Type} (fuel base nel w : Nat) (compar : Compar γ)
    (arg : γ) (h : Heap γ) (hw : 0 < w) (hb : base + nel * w ≤ h.mem.length)
    (hf : sortFuel nel ≤ fuel) (hv : ValidOn compar arg (elems h.mem base w nel))
    (hd : ∀ i, i < nel → ∀ j, j < nel →
      compar (elem h.mem w (base + i * w)) (elem h.mem w (base + j * w)) arg = 0 → i = j)
    (hs : SortedArr compar arg h.mem base w nel) :
    ∃ h', sort_r_simple fuel base nel w compar arg h = some h' ∧ h'.mem = h.mem ∧
      ∃ h'', sort_r_simple fuel base nel w compar arg h' = some h'' ∧ h''.mem = h'.mem := by
  obtain ⟨h', h1, h2⟩ := sort_fixed fuel base nel w compar arg h hw hb hf hv hd hs
  refine ⟨h', h1, h2, ?_⟩
  apply sort_fixed fuel base nel w compar arg h' hw
  · rw [h2]; exact hb
  · exact hf
  · rw [h2]; exact hv
  · rw [h2]; exact hd
  · rw [h2]; exact hs

/-- Witness of C10: eight distinct one-byte elements in ascending order. -/
theorem sort_r_simple_idempotent_witness :
    ∃ h', sort_r_simple 20 0 8 1 byteCmp () ⟨[1, 2, 3, 4, 5, 6, 7, 8], []⟩ = some h' ∧
      h'.mem = [1, 2, 3, 4, 5, 6, 7, 8] ∧
      ∃ h'', sort_r_simple 20 0 8 1 byteCmp () h' = some h'' ∧ h''.mem = h'.mem :=
  sort_r_simple_idempotent 20 0 8 1 byteCmp () ⟨[1, 2, 3, 4, 5, 6, 7, 8], []⟩ (by decide)
    (by decide) (by decide) (byteCmp_validOn _) (by decide)
    (by
      intro i hi
      have hi7 : i < 7 := by omega
      interval_cases i <;> decide)

/-! ## The search on at most `2^30` elements -/

theorem wrap_int_id (x : Int) (h1 : -2147483648 ≤ x) (h2 : x < 2147483648) : wrap_int x = x := by
  unfold wrap_int
  omega

theorem load_nonneg (mem : List Byte) (w : Nat) (i : Nat) (base : Nat) :
    load mem w ((base : Int) + (i : Int) * (w : Int)) = elem mem w (base + i * w) := by
  unfold load
  have h : (0 : Int) ≤ (base : Int) + (i : Int) * (w : Int) := by positivity
  rw [if_pos h]
  congr 1

theorem tdiv_two_bounds (x : Int) (hx : 0 ≤ x) : 2 * Int.tdiv x 2 ≤ x ∧ x < 2 * Int.tdiv x 2 + 2 := by
  rw [Int.tdiv_eq_ediv hx (by decide)]
  omega

/-- The midpoint computed by the search while `min + max` fits an `int`. -/
theorem mid_bounds (min max : Int) (h0 : 0 ≤ min) (hle : min ≤ max) (hmax : max < 1073741824) :
    min ≤ Int.tdiv (wrap_int (min + max)) 2 ∧ Int.tdiv (wrap_int (min + max)) 2 ≤ max := by
  rw [wrap_int_id _ (by omega) (by omega)]
  have := tdiv_two_bounds (min + max) (by omega)
  omega

/-- The search on at most `2^30` elements: every probe is inside the current range and
inside the array; a pointer returned is the address of an element of the range on which
the comparator answers 0; with enough fuel the loop ends; and when it ends with `NULL` on
an array sorted for the key, no element of the range gives 0. -/
theorem bsearch_loop_spec {κ γ : Type} (key : κ) (base size n : Nat)
    (compar : KeyCompar κ γ) (arg : γ) (mem : List Byte) (hn : n ≤ 1073741824) :
    ∀ (fuel : Nat) (min max : Int) (log : List (Probe γ)), 0 ≤ min → max < (n : Int) →
      (∃ new, (bsearch_loop fuel key base size compar arg mem min max log).2 = new ++ log ∧
        new.length ≤ fuel ∧
        ∀ p ∈ new, ProbeOk base size n arg p ∧ min ≤ p.min ∧ p.max ≤ max) ∧
      (∀ q, (bsearch_loop fuel key base size compar arg mem min max log).1 = Outcome.found q →
        ∃ i : Nat, min ≤ (i : Int) ∧ (i : Int) ≤ max ∧ q = (base : Int) + (i : Int) * (size : Int) ∧
          keyCmpAt compar key arg mem base size i = 0) ∧
      ((max + 1 - min).toNat < fuel →
        (bsearch_loop fuel key base size compar arg mem min max log).1 ≠ Outcome.running) ∧
      (SortedForKey compar key arg mem base size n →
        (bsearch_loop fuel key base size compar arg mem min max log).1 = Outcome.null →
        ∀ i : Nat, min ≤ (i : Int) → (i : Int) ≤ max →
          keyCmpAt compar key arg mem base size i ≠ 0) := by
  intro fuel
  induction fuel with
  | zero =>
    intro min max log _ _
    simp only [bsearch_loop]
    refine ⟨⟨[], rfl, Nat.le_refl _, by simp⟩, by simp, by omega, by simp⟩
  | succ fuel ih =>
    intro min max log h0 hmax
    simp only [bsearch_loop]
    by_cases hle : min ≤ max
    · simp only [hle, if_true]
      obtain ⟨m1, m2⟩ := mid_bounds min max h0 hle (by omega)
      generalize hmid : Int.tdiv (wrap_int (min + max)) 2 = mid at m1 m2
      obtain ⟨i, rfl⟩ : ∃ i : Nat, mid = (i : Int) := ⟨mid.toNat, by omega⟩
      rw [load_nonneg]
      have hw1 : wrap_int ((i : Int) - 1) = (i : Int) - 1 := wrap_int_id _ (by omega) (by omega)
      have hw2 : wrap_int ((i : Int) + 1) = (i : Int) + 1 := wrap_int_id _ (by omega) (by omega)
      rw [hw1, hw2]
      have hprobe : ProbeOk base size n arg
          (⟨min, max, (i : Int), (base : Int) + (i : Int) * (size : Int), arg⟩ : Probe γ) ∧
          min ≤ (⟨min, max, (i : Int), (base : Int) + (i : Int) * (size : Int), arg⟩ :
            Probe γ).min ∧
          (⟨min, max, (i : Int), (base : Int) + (i : Int) * (size : Int), arg⟩ :
            Probe γ).max ≤ max := by
        exact ⟨⟨m1, m2, (by show (0 : Int) ≤ (i : Int); omega),
          (by show (i : Int) ≤ (n : Int) - 1; omega), rfl, rfl⟩, le_refl _, le_refl _⟩
      by_cases hc1 : compar key (elem mem size (base + i * size)) arg < 0
      · simp only [hc1, if_true]
        obtain ⟨⟨new, e1, e1l, e2⟩, f1, g1, k1⟩ := ih min ((i : Int) - 1)
          (⟨min, max, (i : Int), (base : Int) + (i : Int) * (size : Int), arg⟩ :: log) h0
          (by omega)
        refine ⟨⟨new ++ [⟨min, max, (i : Int), (base : Int) + (i : Int) * (size : Int), arg⟩],
          by rw [e1]; simp, by simp; omega, ?_⟩, ?_, ?_, ?_⟩
        · intro p hp
          rcases List.mem_append.mp hp with hp | hp
          · obtain ⟨a1, a2, a3⟩ := e2 p hp
            exact ⟨a1, a2, by omega⟩
          · rw [List.mem_singleton.mp hp]; exact hprobe
        · intro q hq
          obtain ⟨j, j1, j2, j3, j4⟩ := f1 q hq
          exact ⟨j, j1, by omega, j3, j4⟩
        · intro hf
          exact g1 (by omega)
        · intro hs hnull j j1 j2
          by_cases hj : (j : Int) ≤ (i : Int) - 1
          · exact k1 hs hnull j j1 hj
          · have hij : i ≤ j := by omega
            have := (hs i j hij (by omega)).1 hc1
            exact ne_of_lt this
      · simp only [hc1, if_false]
        by_cases hc2 : compar key (elem mem size (base + i * size)) arg > 0
        · simp only [hc2, if_true]
          obtain ⟨⟨new, e1, e1l, e2⟩, f1, g1, k1⟩ := ih ((i : Int) + 1) max
            (⟨min, max, (i : Int), (base : Int) + (i : Int) * (size : Int), arg⟩ :: log)
            (by omega) hmax
          refine ⟨⟨new ++ [⟨min, max, (i : Int), (base : Int) + (i : Int) * (size : Int),
            arg⟩], by rw [e1]; simp, by simp; omega, ?_⟩, ?_, ?_, ?_⟩
          · intro p hp
            rcases List.mem_append.mp hp with hp | hp
            · obtain ⟨a1, a2, a3⟩ := e2 p hp
              exact ⟨a1, by omega, a3⟩
            · rw [List.mem_singleton.mp hp]; exact hprobe
          · intro q hq
            obtain ⟨j, j1, j2, j3, j4⟩ := f1 q hq
            exact ⟨j, by omega, j2, j3, j4⟩
          · intro hf
            exact g1 (by omega)
          · intro hs hnull j j1 j2
            by_cases hj : (i : Int) + 1 ≤ (j : Int)
            · exact k1 hs hnull j hj j2
            · have hij : j ≤ i := by omega
              have := (hs j i hij (by omega)).2 hc2
              exact ne_of_gt this
        · simp only [hc2, if_false]
          refine ⟨⟨[⟨min, max, (i : Int), (base : Int) + (i : Int) * (size : Int), arg⟩],
            rfl, by simp, ?_⟩, ?_, ?_, ?_⟩
          · intro p hp
            rw [List.mem_singleton.mp hp]; exact hprobe
          · intro q hq
            simp only [Outcome.found.injEq] at hq
            refine ⟨i, m1, m2, hq.symm, ?_⟩
            unfold keyCmpAt
            omega
          · intro _; simp
          · intro _ hnull; simp at hnull
    · simp only [hle, if_false]
      refine ⟨⟨[], rfl, Nat.zero_le _, by simp⟩, by simp, by simp, ?_⟩
      intro _ _ j j1 j2
      omega

/-! ## The search when `min + max` overflows -/

theorem tdiv_two_range (y : Int) (h1 : -2147483648 ≤ y) (h2 : y < 2147483648) :
    -1073741824 ≤ Int.tdiv y 2 ∧ Int.tdiv y 2 ≤ 1073741823 := by
  by_cases hy : 0 ≤ y
  · rw [Int.tdiv_eq_ediv hy (by decide)]
    omega
  · obtain ⟨z, rfl⟩ : ∃ z, y = -z := ⟨-y, by omega⟩
    rw [Int.neg_tdiv, Int.tdiv_eq_ediv (by omega) (by decide)]
    omega

theorem wrap_int_range (x : Int) : -2147483648 ≤ wrap_int x ∧ wrap_int x < 2147483648 := by
  unfold wrap_int
  omega

theorem headD_load_zeros (n w : Nat) (p : Int) :
    (load (List.replicate n 0) w p).headD 0 = 0 := by
  unfold load elem
  split
  · rw [List.drop_replicate, List.take_replicate]
    cases h : min w (n - p.toNat) with
    | zero => rfl
    | succ k => rfl
  · rfl

/-- With every byte of the memory 0 and the key 1, the comparator answers 1 at every
address, inside the array or not. -/
theorem byteKeyCmp_zeros (n w : Nat) (p : Int) :
    byteKeyCmp 1 (load (List.replicate n 0) w p) () = 1 := by
  unfold byteKeyCmp
  rw [headD_load_zeros]
  rfl

/-- The loop of the search with `max = 2147483646` and a key above every byte of the
memory never ends: `min` stays at most `2^30`, so `min ≤ max` holds in every round. -/
theorem bsearch_loop_never (n base : Nat) :
    ∀ (fuel : Nat) (min : Int) (log : List (Probe Unit)), -2147483648 ≤ min →
      min ≤ 1073741824 →
      (bsearch_loop fuel (1 : Nat) base 1 byteKeyCmp () (List.replicate n 0) min 2147483646
        log).1 = Outcome.running := by
  intro fuel
  induction fuel with
  | zero => intro min log _ _; rfl
  | succ fuel ih =>
    intro min log h1 h2
    have hle : min ≤ 2147483646 := by omega
    obtain ⟨r1, r2⟩ := wrap_int_range (min + 2147483646)
    obtain ⟨d1, d2⟩ := tdiv_two_range _ r1 r2
    simp only [bsearch_loop, hle, if_true, byteKeyCmp_zeros]
    rw [if_neg (by decide), if_pos (by decide)]
    rw [wrap_int_id _ (by omega) (by omega)]
    exact ih _ _ (by omega) (by omega)

theorem elem_one_of_getElem (mem : List Byte) (k : Nat) (x : Byte) (h : mem[k]? = some x) :
    elem mem 1 k = [x] := by
  unfold elem
  obtain ⟨hk, hx⟩ := List.getElem?_eq_some_iff.mp h
  rw [List.take_one_drop_eq_of_lt_length hk]
  simp [hx]

theorem elem_replicate_append_left (a n : Nat) (x y : Byte) (k : Nat) (hk : k < a) :
    elem (List.replicate a x ++ List.replicate n y) 1 k = [x] := by
  apply elem_one_of_getElem
  rw [List.getElem?_append_left (by simp; exact hk)]
  simp [hk]

theorem elem_replicate_append_right (a n : Nat) (x y : Byte) (k : Nat) (hk1 : a ≤ k)
    (hk2 : k < a + n) : elem (List.replicate a x ++ List.replicate n y) 1 k = [y] := by
  apply elem_one_of_getElem
  rw [List.getElem?_append_right (by simp; exact hk1)]
  rw [List.getElem?_replicate, if_pos (by simp; omega)]

/-- Two rounds of the search on `2^31 - 1` one-byte elements at address `536870913`
when the key is above the middle element: the second `mid` is negative and the second
element is read at address 0, before the array. -/
theorem overflow_two_probes {κ γ : Type} (key : κ) (compar : KeyCompar κ γ) (arg : γ)
    (mem : List Byte) (h1 : compar key (load mem 1 1610612736) arg > 0)
    (h2 : compar key (load mem 1 0) arg = 0) :
    hb_bsearch_r 2 key 536870913 2147483647 1 compar arg mem =
      (Outcome.found 0,
        [⟨1073741824, 2147483646, -536870913, 0, arg⟩,
         ⟨0, 2147483646, 1073741823, 1610612736, arg⟩]) := by
  have e0 : wrap_int (wrap_int ((2147483647 : ℕ) : ℤ) - 1) = 2147483646 := by decide
  have e1 : Int.tdiv (wrap_int (0 + 2147483646)) 2 = 1073741823 := by decide
  have a1 : ((536870913 : ℕ) : ℤ) + 1073741823 * ((1 : ℕ) : ℤ) = 1610612736 := by decide
  have e2 : wrap_int (1073741823 + 1) = 1073741824 := by decide
  have e3 : Int.tdiv (wrap_int (1073741824 + 2147483646)) 2 = -536870913 := by decide
  have a2 : ((536870913 : ℕ) : ℤ) + (-536870913) * ((1 : ℕ) : ℤ) = 0 := by decide
  have l1 : (0 : Int) ≤ 2147483646 := by decide
  have l2 : (1073741824 : Int) ≤ 2147483646 := by decide
  have n1 : ¬ compar key (load mem 1 1610612736) arg < 0 := by omega
  have n2 : ¬ compar key (load mem 1 0) arg < 0 := by omega
  have n3 : ¬ compar key (load mem 1 0) arg > 0 := by omega
  unfold hb_bsearch_r
  rw [e0]
  simp only [bsearch_loop, e1, a1, e2, e3, a2, l1, l2, if_true, h1, n1, n2, n3, if_false]

/-! ## The search: statements -/

theorem keyCmpAt_zeros (n base w i : Nat) :
    keyCmpAt byteKeyCmp 1 () (List.replicate n 0) base w i = 1 := by
  unfold keyCmpAt
  rw [← load_nonneg]
  exact byteKeyCmp_zeros n w _

/-- The search on at most `2^30` elements (where `min + max` cannot overflow): with more
fuel than elements the call returns; every probe is inside the array; a pointer returned
is the address of an element on which the comparator answers 0; and on an array sorted
for the key a pointer is returned exactly when some element gives 0. -/
theorem hb_bsearch_r_bounded {κ γ : Type} (fuel : Nat) (key : κ) (base nmemb size : Nat)
    (compar : KeyCompar κ γ) (arg : γ) (mem : List Byte) (hn : nmemb ≤ 1073741824)
    (hf : nmemb < fuel) :
    (hb_bsearch_r fuel key base nmemb size compar arg mem).1 ≠ Outcome.running ∧
    (∀ p ∈ (hb_bsearch_r fuel key base nmemb size compar arg mem).2,
      ProbeOk base size nmemb arg p) ∧
    (∀ q, (hb_bsearch_r fuel key base nmemb size compar arg mem).1 = Outcome.found q →
      ∃ i, i < nmemb ∧ q = (base : Int) + (i : Int) * (size : Int) ∧
        keyCmpAt compar key arg mem base size i = 0) ∧
    (SortedForKey compar key arg mem base size nmemb →
      ((∃ q, (hb_bsearch_r fuel key base nmemb size compar arg mem).1 = Outcome.found q) ↔
        ∃ i, i < nmemb ∧ keyCmpAt compar key arg mem base size i = 0)) := by
  have hmax : wrap_int (wrap_int (nmemb : Int) - 1) = (nmemb : Int) - 1 := by
    rw [wrap_int_id (nmemb : Int) (by omega) (by omega), wrap_int_id _ (by omega) (by omega)]
  unfold hb_bsearch_r
  rw [hmax]
  obtain ⟨⟨new, e1, _, e2⟩, f1, g1, k1⟩ := bsearch_loop_spec key base size nmemb compar arg mem
    hn fuel 0 ((nmemb : Int) - 1) [] (le_refl _) (by omega)
  have hrun := g1 (by omega)
  have hsound : ∀ q, (bsearch_loop fuel key base size compar arg mem 0 ((nmemb : Int) - 1)
      []).1 = Outcome.found q →
      ∃ i, i < nmemb ∧ q = (base : Int) + (i : Int) * (size : Int) ∧
        keyCmpAt compar key arg mem base size i = 0 := by
    intro q hq
    obtain ⟨i, _, i2, i3, i4⟩ := f1 q hq
    exact ⟨i, by omega, i3, i4⟩
  refine ⟨hrun, ?_, hsound, ?_⟩
  · intro p hp
    rw [e1, List.append_nil] at hp
    exact (e2 p hp).1
  · intro hs
    constructor
    · rintro ⟨q, hq⟩
      obtain ⟨i, i1, _, i3⟩ := hsound q hq
      exact ⟨i, i1, i3⟩
    · rintro ⟨i, i1, i2⟩
      cases hout : (bsearch_loop fuel key base size compar arg mem 0 ((nmemb : Int) - 1)
          []).1 with
      | found q => exact ⟨q, rfl⟩
      | null => exact absurd i2 (k1 hs hout i (by omega) (by omega))
      | running => exact absurd hout hrun

/-- C3, the code at a failing input: the call never returns `NULL` for an absent key.
The array is `2^31 - 1` zero bytes (sorted for the key 1, which no element equals);
after one probe `min + max` overflows `int`, and from then on `min ≤ max` holds in
every round, so no amount of fuel ends the loop. -/
theorem hb_bsearch_r_absent_key_no_return :
    SortedForKey byteKeyCmp 1 () (List.replicate 2147483647 0) 0 1 2147483647 ∧
    (∀ i, i < 2147483647 →
      keyCmpAt byteKeyCmp 1 () (List.replicate 2147483647 0) 0 1 i ≠ 0) ∧
    ∀ fuel, (hb_bsearch_r fuel 1 0 2147483647 1 byteKeyCmp ()
      (List.replicate 2147483647 0)).1 = Outcome.running := by
  refine ⟨?_, ?_, ?_⟩
  · intro i j _ _
    rw [keyCmpAt_zeros, keyCmpAt_zeros]
    exact ⟨fun h => h, fun h => h⟩
  · intro i _
    rw [keyCmpAt_zeros]
    decide
  · intro fuel
    have e0 : wrap_int (wrap_int ((2147483647 : ℕ) : ℤ) - 1) = 2147483646 := by decide
    unfold hb_bsearch_r
    rw [e0]
    exact bsearch_loop_never 2147483647 0 fuel 0 [] (by decide) (by decide)

/-- C4, the code at a failing input: the pointer returned is not the address of an
element. The array is `2^31 - 1` bytes of value 1 at address `536870913`, the key is 5,
and the memory before the array holds bytes of value 5: the second probe reads
address 0, finds the key there and returns that address. -/
theorem hb_bsearch_r_returns_outside :
    (hb_bsearch_r 2 5 536870913 2147483647 1 byteKeyCmp ()
      (List.replicate 536870913 5 ++ List.replicate 2147483647 1)).1 = Outcome.found 0 ∧
    ¬ ∃ i : Nat, i < 2147483647 ∧
      (0 : Int) = ((536870913 : Nat) : Int) + (i : Int) * ((1 : Nat) : Int) := by
  constructor
  · have hA : load (List.replicate 536870913 5 ++ List.replicate 2147483647 1) 1 1610612736
        = [1] := by
      unfold load
      rw [if_pos (by decide)]
      exact elem_replicate_append_right 536870913 2147483647 5 1 1610612736 (by decide)
        (by decide)
    have hB : load (List.replicate 536870913 5 ++ List.replicate 2147483647 1) 1 0
        = [5] := by
      unfold load
      rw [if_pos (by decide)]
      exact elem_replicate_append_left 536870913 2147483647 5 1 0 (by decide)
    rw [overflow_two_probes 5 byteKeyCmp () _ (by rw [hA]; decide) (by rw [hB]; decide)]
  · rintro ⟨i, _, hi⟩
    omega

/-- C6, the code at a failing input: on `2^31 - 1` elements, when the first comparison
answers "greater", the second probe has `min = 1073741824`, `max = 2147483646` and
`mid = -536870913`, below `min` and below 0. -/
theorem hb_bsearch_r_probe_outside :
    (hb_bsearch_r 2 () 0 2147483647 1 (fun _ _ _ => 1) ()
      (List.replicate 2147483647 0)).2 =
      [⟨1073741824, 2147483646, -536870913, -536870913, ()⟩,
       ⟨0, 2147483646, 1073741823, 1073741823, ()⟩] := by
  decide

/-- C9 (empty array): for `nmemb = 0`, every key, width and comparator,
`hb_bsearch_r` returns `NULL` in its first step, with no comparator call and no
element read: the list of probes is empty. -/
theorem hb_bsearch_r_empty {κ γ : Type} (fuel : Nat) (key : κ) (base size : Nat)
    (compar : KeyCompar κ γ) (arg : γ) (mem : List Byte) :
    hb_bsearch_r (fuel + 1) key base 0 size compar arg mem = (Outcome.null, []) := by
  have e0 : wrap_int (wrap_int ((0 : ℕ) : ℤ) - 1) = -1 := by decide
  unfold hb_bsearch_r
  rw [e0]
  simp only [bsearch_loop]
  rw [if_neg (by decide)]

/-! ## The sort against a reference insertion sort -/

theorem ref_insert_perm {α : Type} (cmp : α → α → Int) (x : α) (l : List α) :
    (ref_insert cmp x l).Perm (x :: l) := by
  induction l with
  | nil => exact List.Perm.refl _
  | cons y l ih =>
    simp only [ref_insert]
    split
    · exact List.Perm.refl _
    · exact (List.Perm.cons y ih).trans (List.Perm.swap x y l)

theorem ref_sort_perm {α : Type} (cmp : α → α → Int) (l : List α) :
    (ref_sort cmp l).Perm l := by
  induction l with
  | nil => exact List.Perm.refl _
  | cons x l ih =>
    simp only [ref_sort]
    exact (ref_insert_perm cmp x _).trans (List.Perm.cons x ih)

theorem ref_insert_chain {α : Type} (cmp : α → α → Int) (x : α) (l : List α)
    (hanti : Abs.Anti cmp (x :: l)) (hc : List.Chain' (fun a b => cmp a b ≤ 0) l) :
    List.Chain' (fun a b => cmp a b ≤ 0) (ref_insert cmp x l) := by
  induction l with
  | nil => simp [ref_insert]
  | cons y l ih =>
    simp only [ref_insert]
    split
    · rename_i hxy
      exact List.Chain'.cons hxy hc
    · rename_i hxy
      have hyx : cmp y x ≤ 0 :=
        hanti x (List.mem_cons_self _ _) y (List.mem_cons_of_mem _ (List.mem_cons_self _ _))
          (not_le.mp hxy)
      have hanti' : Abs.Anti cmp (x :: l) := by
        intro a ha b hb
        apply hanti
        · rcases List.mem_cons.mp ha with h | h
          · rw [h]; exact List.mem_cons_self _ _
          · exact List.mem_cons_of_mem _ (List.mem_cons_of_mem _ h)
        · rcases List.mem_cons.mp hb with h | h
          · rw [h]; exact List.mem_cons_self _ _
          · exact List.mem_cons_of_mem _ (List.mem_cons_of_mem _ h)
      have ih' := ih hanti' hc.tail
      cases l with
      | nil =>
        simp only [ref_insert]
        exact List.Chain'.cons hyx (List.chain'_singleton _)
      | cons z l =>
        simp only [ref_insert] at ih' ⊢
        split
        · exact List.Chain'.cons hyx (by simpa [*] using ih')
        · have hyz : cmp y z ≤ 0 := (List.chain'_cons.mp hc).1
          exact List.Chain'.cons hyz (by simpa [*] using ih')

theorem ref_sort_chain {α : Type} (cmp : α → α → Int) (l : List α) (hanti : Abs.Anti cmp l) :
    List.Chain' (fun a b => cmp a b ≤ 0) (ref_sort cmp l) := by
  induction l with
  | nil => simp [ref_sort]
  | cons x l ih =>
    simp only [ref_sort]
    apply ref_insert_chain
    · intro a ha b hb
      apply hanti
      · rcases List.mem_cons.mp ha with h | h
        · rw [h]; exact List.mem_cons_self _ _
        · exact List.mem_cons_of_mem _ ((ref_sort_perm cmp l).mem_iff.mp h)
      · rcases List.mem_cons.mp hb with h | h
        · rw [h]; exact List.mem_cons_self _ _
        · exact List.mem_cons_of_mem _ ((ref_sort_perm cmp l).mem_iff.mp h)
    · exact ih (fun a ha b hb => hanti a (List.mem_cons_of_mem _ ha) b (List.mem_cons_of_mem _ hb))

theorem chain_members {α : Type} (R : α → α → Prop) (l l0 : List α)
    (hm : ∀ a ∈ l, a ∈ l0) (hc : List.Chain' R l) :
    List.Chain' (fun a b => a ∈ l0 ∧ b ∈ l0 ∧ R a b) l := by
  rw [List.chain'_iff_get] at hc ⊢
  intro i hi
  exact ⟨hm _ (List.get_mem _ _ _), hm _ (List.get_mem _ _ _), hc i hi⟩

/-- Two arrangements of the elements `es` that are both in order coincide, when the
comparator is valid on `es` and answers 0 only for equal values. -/
theorem unique_sorted {α : Type} (cmp : α → α → Int) (es l1 l2 : List α)
    (h1 : l1.Perm es) (h2 : l2.Perm es)
    (hiff : ∀ a ∈ es, ∀ b ∈ es, (cmp a b > 0 ↔ cmp b a < 0))
    (htr : ∀ a ∈ es, ∀ b ∈ es, ∀ c ∈ es, cmp a b ≤ 0 → cmp b c ≤ 0 → cmp a c ≤ 0)
    (hd : ∀ a ∈ es, ∀ b ∈ es, cmp a b = 0 → a = b)
    (c1 : List.Chain' (fun a b => cmp a b ≤ 0) l1)
    (c2 : List.Chain' (fun a b => cmp a b ≤ 0) l2) : l1 = l2 := by
  have hanti : ∀ a b : α, (a ∈ es ∧ b ∈ es ∧ cmp a b ≤ 0) → (b ∈ es ∧ a ∈ es ∧ cmp b a ≤ 0) →
      a = b := by
    rintro a b ⟨ha, hb, hab⟩ ⟨_, _, hba⟩
    apply hd a ha b hb
    by_contra hne
    have hlt : cmp a b < 0 := lt_of_le_of_ne hab hne
    have := (hiff _ hb _ ha).mpr hlt
    omega
  haveI : IsAntisymm α (fun a b => a ∈ es ∧ b ∈ es ∧ cmp a b ≤ 0) := ⟨hanti⟩
  haveI : IsTrans α (fun a b => a ∈ es ∧ b ∈ es ∧ cmp a b ≤ 0) :=
    ⟨fun a b c ⟨ha, hb, hab⟩ ⟨_, hc, hbc⟩ => ⟨ha, hc, htr a ha b hb c hc hab hbc⟩⟩
  have d1 := chain_members _ l1 es (fun a ha => h1.mem_iff.mp ha) c1
  have d2 := chain_members _ l2 es (fun a ha => h2.mem_iff.mp ha) c2
  rw [List.chain'_iff_pairwise] at d1 d2
  exact List.eq_of_perm_of_sorted (h1.trans h2.symm) d1 d2

theorem chain_of_sortedOn_plain {α : Type} [Inhabited α] (cmp : α → α → Int) (l : List α)
    (hs : Abs.SortedOn cmp 0 l.length l) : List.Chain' (fun a b => cmp a b ≤ 0) l := by
  rw [List.chain'_iff_get]
  intro i hi
  have h1 : i < l.length := by omega
  have h2 : i + 1 < l.length := by omega
  have := hs i (Nat.zero_le _) h2
  rw [List.getD_eq_getElem _ _ h1, List.getD_eq_getElem _ _ h2] at this
  exact this

/-- C11 (strategy independence): when the comparator is valid on the elements and
answers 0 only for equal values (a strict total order on the values), `sort_r_simple`
returns, its result is the result of the reference insertion sort `ref_sort` on the
same elements, and it is the result of every other strategy too: any arrangement of the
elements in which adjacent pairs are in order is the array that `sort_r_simple`
leaves. -/
theorem sort_r_simple_eq_ref_sort {γ : Type} (fuel base nel w : Nat) (compar : Compar γ)
    (arg : γ) (h : Heap γ) (hw : 0 < w) (hb : base + nel * w ≤ h.mem.length)
    (hf : sortFuel nel ≤ fuel) (hv : ValidOn compar arg (elems h.mem base w nel))
    (hd : ∀ a ∈ elems h.mem base w nel, ∀ b ∈ elems h.mem base w nel,
      compar a b arg = 0 → a = b) :
    ∃ h', sort_r_simple fuel base nel w compar arg h = some h' ∧
      elems h'.mem base w nel =
        ref_sort (fun x y => compar x y arg) (elems h.mem base w nel) ∧
      ∀ l : List (List Byte), l.Perm (elems h.mem base w nel) →
        List.Chain' (fun a b => compar a b arg ≤ 0) l → l = elems h'.mem base w nel := by
  obtain ⟨s', hs', hrun, hpre, hl, hu, hel⟩ :=
    sort_r_simple_run fuel base nel w compar arg h hw hb hf
  have hlen : (elems h.mem base w nel).length = nel := elems_length _ _ _ _
  have hp : s'.es.Perm (elems h.mem base w nel) :=
    Abs.sort_perm (fun x y => compar x y arg) fuel 0 nel ⟨elems h.mem base w nel, []⟩ s'
      (by simp [hlen]) hs'
  have hanti := anti_of_validOn compar arg _ hv
  have hsorted := Abs.sort_sorted (fun x y => compar x y arg) fuel 0 nel
    ⟨elems h.mem base w nel, []⟩ s' (by simp [hlen]) hanti hs'
  rw [Nat.zero_add, ← hl] at hsorted
  have hchain := chain_of_sortedOn_plain (fun x y => compar x y arg) s'.es hsorted
  refine ⟨_, hrun, ?_, ?_⟩
  · simp only [concHeap]
    rw [hel]
    exact unique_sorted (fun x y => compar x y arg) (elems h.mem base w nel) _ _ hp
      (ref_sort_perm _ _) hv.1 hv.2 hd hchain (ref_sort_chain _ _ hanti)
  · intro l hlp hlc
    simp only [concHeap]
    rw [hel]
    exact unique_sorted (fun x y => compar x y arg) (elems h.mem base w nel) _ _ hlp hp
      hv.1 hv.2 hd hlc hchain

theorem byteCmp_strict (mem : List Byte) (base nel : Nat) (hb : base + nel * 1 ≤ mem.length) :
    ∀ a ∈ elems mem base 1 nel, ∀ b ∈ elems mem base 1 nel, byteCmp a b () = 0 → a = b := by
  intro a ha b hb' hab
  have hua := elems_uniform mem base 1 nel hb a ha
  have hub := elems_uniform mem base 1 nel hb b hb'
  obtain ⟨x, rfl⟩ := List.length_eq_one.mp hua
  obtain ⟨y, rfl⟩ := List.length_eq_one.mp hub
  have h2 : ((x : Nat) : Int) - ((y : Nat) : Int) = 0 := hab
  have h3 : (x : Int) = (y : Int) := by linarith
  have : x = y := by exact_mod_cast h3
  rw [this]

/-- Witness of C11: `[5,3,8,1,9,2]` under the numeric order gives `[1,2,3,5,8,9]`. -/
theorem sort_r_simple_eq_ref_sort_witness :
    (∃ h', sort_r_simple 16 0 6 1 byteCmp () ⟨[5, 3, 8, 1, 9, 2], []⟩ = some h' ∧
      elems h'.mem 0 1 6 =
        ref_sort (fun x y => byteCmp x y ()) (elems [5, 3, 8, 1, 9, 2] 0 1 6) ∧
      ∀ l : List (List Byte), l.Perm (elems [5, 3, 8, 1, 9, 2] 0 1 6) →
        List.Chain' (fun a b => byteCmp a b () ≤ 0) l → l = elems h'.mem 0 1 6) ∧
    ref_sort (fun x y => byteCmp x y ()) (elems [5, 3, 8, 1, 9, 2] 0 1 6) =
      [[1], [2], [3], [5], [8], [9]] ∧
    (sort_r_simple 16 0 6 1 byteCmp () ⟨[5, 3, 8, 1, 9, 2], []⟩).map (fun h' => h'.mem) =
      some [1, 2, 3, 5, 8, 9] :=
  ⟨sort_r_simple_eq_ref_sort 16 0 6 1 byteCmp () ⟨[5, 3, 8, 1, 9, 2], []⟩ (by decide)
    (by decide) (by decide) (byteCmp_validOn _) (byteCmp_strict _ 0 6 (by decide)),
    by decide, by decide⟩

/-! ## The context reaches the comparator -/

theorem bsearch_loop_args {κ γ : Type} (key : κ) (base size : Nat) (compar : KeyCompar κ γ)
    (arg : γ) (mem : List Byte) :
    ∀ (fuel : Nat) (min max : Int) (log : List (Probe γ)), (∀ p ∈ log, p.arg = arg) →
      ∀ p ∈ (bsearch_loop fuel key base size compar arg mem min max log).2, p.arg = arg := by
  intro fuel
  induction fuel with
  | zero => intro min max log hlog; exact hlog
  | succ fuel ih =>
    intro min max log hlog
    have hlog1 : ∀ p ∈ (⟨min, max, Int.tdiv (wrap_int (min + max)) 2,
        (base : Int) + Int.tdiv (wrap_int (min + max)) 2 * (size : Int), arg⟩ : Probe γ) :: log,
        p.arg = arg := by
      intro p hp
      rcases List.mem_cons.mp hp with h | h
      · rw [h]
      · exact hlog p h
    simp only [bsearch_loop]
    split
    · split
      · exact ih _ _ _ hlog1
      · split
        · exact ih _ _ _ hlog1
        · exact hlog1
    · exact hlog

/-- The memory that a run leaves does not depend on whether the context is passed
along or captured by the comparator. -/
theorem sort_r_simple_closeOver {γ : Type} (fuel base nel w : Nat) (compar : Compar γ)
    (arg : γ) (h : Heap γ) (hw : 0 < w) (hb : base + nel * w ≤ h.mem.length) :
    (sort_r_simple fuel base nel w (closeOver compar arg) () ⟨h.mem, []⟩).map
        (fun h' => h'.mem) =
      (sort_r_simple fuel base nel w compar arg h).map (fun h' => h'.mem) := by
  rw [sort_r_simple_eq fuel base nel w compar arg h hw hb,
    sort_r_simple_eq fuel base nel w (closeOver compar arg) () ⟨h.mem, []⟩ hw hb]
  have hc : (fun x y => closeOver compar arg x y ()) = (fun x y => compar x y arg) := rfl
  rw [hc, Option.map_map, Option.map_map]
  rfl

/-- C12 (context threading): every comparator call that `sort_r_simple` records
(its own, those of `sort_r_cmpswap`, those of the recursive calls) has exactly `arg`
as third argument, and so the memory it leaves is the memory left when sorting with
the two-argument comparator `(a, b) ↦ compar(a, b, arg)`; every probe of
`hb_bsearch_r` passes exactly `arg` too. -/
theorem context_threading {κ γ : Type} (fuel base nel w : Nat) (compar : Compar γ) (arg : γ)
    (h : Heap γ) (fuelB : Nat) (key : κ) (baseB nmemb size : Nat) (kcompar : KeyCompar κ γ)
    (memB : List Byte) (hw : 0 < w) (hb : base + nel * w ≤ h.mem.length)
    (hf : sortFuel nel ≤ fuel) :
    (∃ h' new, sort_r_simple fuel base nel w compar arg h = some h' ∧
      h'.log = new ++ h.log ∧
      (∀ a b arg', Access.compar a b arg' ∈ new → arg' = arg) ∧
      (sort_r_simple fuel base nel w (closeOver compar arg) () ⟨h.mem, []⟩).map
        (fun h'' => h''.mem) = some h'.mem) ∧
    (∀ p ∈ (hb_bsearch_r fuelB key baseB nmemb size kcompar arg memB).2, p.arg = arg) := by
  constructor
  · obtain ⟨s', hs', hrun, hpre, hl, hu, hel⟩ :=
      sort_r_simple_run fuel base nel w compar arg h hw hb hf
    obtain ⟨_, ⟨new, hnew, hin⟩⟩ := Abs.sort_inv (fun x y => compar x y arg) fuel 0 nel
      ⟨elems h.mem base w nel, []⟩ s' (by simp [elems_length]) hs'
    simp only [List.append_nil, Nat.zero_add] at hnew hin
    refine ⟨_, concLog base w arg [] s'.log, hrun, ?_, ?_, ?_⟩
    · simp only [concHeap, hpre]
      exact concLog_append base w arg h.log s'.log
    · intro a b arg' hmem
      rw [hnew] at hmem
      exact (concLog_in base w nel arg hw new hin _ hmem).2.2
    · rw [sort_r_simple_closeOver fuel base nel w compar arg h hw hb, hrun]
      rfl
  · unfold hb_bsearch_r
    exact bsearch_loop_args key baseB size kcompar arg memB fuelB _ _ [] (by simp)

/-- Witness of C12: the indices `[0,1,2]` sorted by the weights `[30,10,20]` passed as
context give `[1,2,0]`; the search looks for the index of weight 20 in that result. -/
theorem context_threading_witness :
    ((∃ h' new, sort_r_simple 10 0 3 1 weightCmp [30, 10, 20] ⟨[0, 1, 2], []⟩ = some h' ∧
      h'.log = new ++ [] ∧
      (∀ a b arg', Access.compar a b arg' ∈ new → arg' = [30, 10, 20]) ∧
      (sort_r_simple 10 0 3 1 (closeOver weightCmp [30, 10, 20]) ()
        ⟨[0, 1, 2], []⟩).map (fun h'' => h''.mem) = some h'.mem) ∧
    (∀ p ∈ (hb_bsearch_r 4 20 0 3 1 weightKeyCmp [30, 10, 20] [1, 2, 0]).2, p.arg = [30, 10, 20])) ∧
    (sort_r_simple 10 0 3 1 weightCmp [30, 10, 20] ⟨[0, 1, 2], []⟩).map
      (fun h' => h'.mem) = some [1, 2, 0] :=
  ⟨context_threading 10 0 3 1 weightCmp [30, 10, 20] ⟨[0, 1, 2], []⟩ 4 20 0 3 1
    weightKeyCmp [1, 2, 0] (by decide)
    (by decide) (by decide), by decide⟩

/-! ## The sort is not stable -/

/-- C13 (no stability): seven two-byte elements whose first byte is the key (all keys 0,
so all compare equal under the valid comparator `byteCmp`) and whose second byte is a
distinct payload. The element that starts at index 3 ends at index 6 and the one that
starts at index 6 ends at index 3: two equal elements leave `sort_r_simple` in the
opposite order. -/
theorem sort_r_simple_not_stable :
    ∃ mem out : List Byte,
      ValidOn byteCmp () (elems mem 0 2 7) ∧
      (sort_r_simple 18 0 7 2 byteCmp () ⟨mem, []⟩).map (fun h' => h'.mem) = some out ∧
      byteCmp (elem mem 2 (0 + 3 * 2)) (elem mem 2 (0 + 6 * 2)) () = 0 ∧
      elem mem 2 (0 + 3 * 2) = [0, 3] ∧ elem mem 2 (0 + 6 * 2) = [0, 6] ∧
      elem out 2 (0 + 3 * 2) = [0, 6] ∧ elem out 2 (0 + 6 * 2) = [0, 3] :=
  ⟨[0, 0, 0, 1, 0, 2, 0, 3, 0, 4, 0, 5, 0, 6], [0, 0, 0, 1, 0, 2, 0, 6, 0, 4, 0, 5, 0, 3],
    byteCmp_validOn _, by decide, by decide, by decide, by decide, by decide, by decide⟩

/-! ## The pivot step -/

theorem qs_partition_eq_pivot_step {γ : Type} (fuel b nel w : Nat) (compar : Compar γ)
    (arg : γ) (h : Heap γ) :
    qs_partition fuel b nel w compar arg h =
      partition_loop fuel w compar arg b (b + w * (nel - 1))
        (pivot_step b nel w compar arg h).2 := rfl

/-- The pivot step on bytes is the pivot step on elements. -/
theorem pivot_step_sim {γ : Type} (pre post : List Byte) (w : Nat) (compar : Compar γ)
    (arg : γ) (l0 : List (Access γ)) (b nel : Nat) (s : Abs.State (List Byte))
    (hu : ∀ x ∈ s.es, x.length = w) (hn : 0 < nel) (hb : b + nel ≤ s.es.length) :
    pivot_step (pre.length + b * w) nel w compar arg (concHeap pre post w arg l0 s) =
      (pre.length + (Abs.median3 b nel (fun x y => compar x y arg) s).1 * w,
        concHeap pre post w arg l0 (Abs.pivot_last b nel (fun x y => compar x y arg) s)) := by
  have e2 : pre.length + b * w + w * (nel - 1) = pre.length + (b + (nel - 1)) * w := by ring
  unfold pivot_step
  rw [median3_sim pre post w compar arg l0 b nel s hu hn hb]
  simp only [Nat.add_sub_cancel_left, e2]
  have hm := Abs.median3_le b nel (fun x y => compar x y arg) s hn
  have hes := Abs.median3_es b nel (fun x y => compar x y arg) s
  congr 1
  unfold concHeap
  rw [swap_loop_conc pre post w _ (by rw [hes]; exact hu) _ _ hm.2 (by rw [hes]; omega)]
  rfl

/-- The pivot step on an array inside a memory, in terms of the elements. -/
theorem pivot_step_run {γ : Type} (base nel w : Nat) (compar : Compar γ) (arg : γ)
    (h : Heap γ) (hb : base + nel * w ≤ h.mem.length) (hn : 0 < nel) :
    pivot_step base nel w compar arg h =
      (base + (Abs.median3 0 nel (fun x y => compar x y arg)
          ⟨elems h.mem base w nel, []⟩).1 * w,
        concHeap (h.mem.take base) (h.mem.drop (base + nel * w)) w arg h.log
          (Abs.pivot_last 0 nel (fun x y => compar x y arg) ⟨elems h.mem base w nel, []⟩)) := by
  have hpre := take_length_base h.mem base nel w hb
  have hsim := pivot_step_sim (h.mem.take base) (h.mem.drop (base + nel * w)) w compar arg
    h.log 0 nel ⟨elems h.mem base w nel, []⟩ (elems_uniform h.mem base w nel hb) hn
    (by simp [elems_length])
  rw [hpre, Nat.zero_mul, Nat.add_zero, ← heap_eq_conc h base nel w arg hb] at hsim
  exact hsim

namespace Abs

variable {α : Type} [Inhabited α]

/-- The index that `median3` returns holds a median of the three candidates. -/
theorem median3_median (b nel : Nat) (cmp : α → α → Int) (s : State α)
    (hanti : ∀ i j, (i = b ∨ i = b + nel / 2 ∨ i = b + (nel - 1)) →
      (j = b ∨ j = b + nel / 2 ∨ j = b + (nel - 1)) →
      cmp (s.es.getD i default) (s.es.getD j default) > 0 →
      cmp (s.es.getD j default) (s.es.getD i default) ≤ 0) :
    ∃ a c, [a, (median3 b nel cmp s).1, c].Perm [b, b + nel / 2, b + (nel - 1)] ∧
      cmp (s.es.getD a default) (s.es.getD (median3 b nel cmp s).1 default) ≤ 0 ∧
      cmp (s.es.getD (median3 b nel cmp s).1 default) (s.es.getD c default) ≤ 0 := by
  have h0 : b = b ∨ b = b + nel / 2 ∨ b = b + (nel - 1) := Or.inl rfl
  have h1 : b + nel / 2 = b ∨ b + nel / 2 = b + nel / 2 ∨ b + nel / 2 = b + (nel - 1) :=
    Or.inr (Or.inl rfl)
  have h2 : b + (nel - 1) = b ∨ b + (nel - 1) = b + nel / 2 ∨ b + (nel - 1) = b + (nel - 1) :=
    Or.inr (Or.inr rfl)
  unfold median3
  simp only [State.note]
  by_cases c1 : cmp (s.es.getD b default) (s.es.getD (b + nel / 2) default) > 0
  · simp only [c1, if_true]
    by_cases c2 : cmp (s.es.getD b default) (s.es.getD (b + (nel - 1)) default) > 0
    · simp only [c2, if_true]
      by_cases c3 : cmp (s.es.getD (b + nel / 2) default)
          (s.es.getD (b + (nel - 1)) default) > 0
      · simp only [c3, if_true]
        -- order: last < middle < first
        refine ⟨b + (nel - 1), b, ?_, hanti _ _ h1 h2 c3, hanti _ _ h0 h1 c1⟩
        exact (List.Perm.swap _ _ _).trans
          ((List.Perm.cons _ (List.Perm.swap _ _ _)).trans (List.Perm.swap _ _ _))
      · simp only [c3, if_false]
        -- middle ≤ last < first
        refine ⟨b + nel / 2, b, ?_, not_lt.mp c3, hanti _ _ h0 h2 c2⟩
        exact (List.Perm.cons _ (List.Perm.swap _ _ _)).trans (List.Perm.swap _ _ _)
    · simp only [c2, if_false]
      -- middle < first ≤ last
      exact ⟨b + nel / 2, b + (nel - 1), List.Perm.swap _ _ _, hanti _ _ h0 h1 c1,
        not_lt.mp c2⟩
  · simp only [c1, if_false]
    by_cases c2 : cmp (s.es.getD (b + nel / 2) default)
        (s.es.getD (b + (nel - 1)) default) > 0
    · simp only [c2, if_true]
      by_cases c3 : cmp (s.es.getD b default) (s.es.getD (b + (nel - 1)) default) > 0
      · simp only [c3, if_true]
        -- last < first ≤ middle
        refine ⟨b + (nel - 1), b + nel / 2, ?_, hanti _ _ h0 h2 c3, not_lt.mp c1⟩
        exact (List.Perm.swap _ _ _).trans (List.Perm.cons _ (List.Perm.swap _ _ _))
      · simp only [c3, if_false]
        -- first ≤ last < middle
        exact ⟨b, b + nel / 2, List.Perm.cons _ (List.Perm.swap _ _ _), not_lt.mp c3,
          hanti _ _ h1 h2 c2⟩
    · simp only [c2, if_false]
      -- first ≤ middle ≤ last
      exact ⟨b, b + (nel - 1), List.Perm.refl _, not_lt.mp c1, not_lt.mp c2⟩

end Abs

/-! ## The partition: statement -/

/-- Reading element `k` of the bytes of an element-level state. -/
theorem elem_conc_getD (mem : List Byte) (base nel w : Nat) (es : List (List Byte))
    (hb : base + nel * w ≤ mem.length) (hu : ∀ e ∈ es, e.length = w) (hl : es.length = nel)
    (k : Nat) (hk : k < nel) :
    elem (mem.take base ++ es.flatten ++ mem.drop (base + nel * w)) w (base + k * w) =
      es.getD k default := by
  have hpre := take_length_base mem base nel w hb
  have := elem_concHeap (mem.take base) (mem.drop (base + nel * w)) w es hu k (by omega)
  rw [hpre] at this
  exact this

theorem ge_of_validOn {γ : Type} (compar : Compar γ) (arg : γ) (es : List (List Byte))
    (hv : ValidOn compar arg es) (x y : List Byte) (hx : x ∈ es) (hy : y ∈ es)
    (h : compar x y arg ≤ 0) : compar y x arg ≥ 0 := by
  by_contra hc
  have := (hv.1 x hx y hy).mpr (not_le.mp hc)
  omega

/-- C14 (partition postcondition): for `nel ≥ 7` and a comparator valid on the elements,
the partition of `sort_r_simple` ends with both pointers at one element `p`; that
element is the pivot, the element that the pivot step put in the last slot (the median
candidate at `l[1]`); every element before `p` compares `≤` the pivot and every element
after `p` compares `≥` the pivot. -/
theorem qs_partition_post {γ : Type} (fuel base nel w : Nat) (compar : Compar γ) (arg : γ)
    (h : Heap γ) (hw : 0 < w) (hb : base + nel * w ≤ h.mem.length) (hn : 7 ≤ nel)
    (hf : nel < fuel) (hv : ValidOn compar arg (elems h.mem base w nel)) :
    ∃ p h1, qs_partition fuel base nel w compar arg h =
        some (base + p * w, base + p * w, h1) ∧
      p < nel ∧
      elem h1.mem w (base + p * w) =
        elem (pivot_step base nel w compar arg h).2.mem w (base + (nel - 1) * w) ∧
      elem (pivot_step base nel w compar arg h).2.mem w (base + (nel - 1) * w) =
        elem h.mem w (pivot_step base nel w compar arg h).1 ∧
      (∀ k, k < p →
        compar (elem h1.mem w (base + k * w)) (elem h1.mem w (base + p * w)) arg ≤ 0) ∧
      (∀ k, p < k → k < nel →
        compar (elem h1.mem w (base + k * w)) (elem h1.mem w (base + p * w)) arg ≥ 0) := by
  have hlen : (elems h.mem base w nel).length = nel := elems_length _ _ _ _
  have hu0 := elems_uniform h.mem base w nel hb
  obtain ⟨p, s1, hq, hrun, hp⟩ := qs_partition_run fuel base nel w compar arg h hw hb
    (by omega) hf
  obtain ⟨a1, _, _, _⟩ := Abs.qs_partition_basic (fun x y => compar x y arg) fuel 0 nel
    ⟨elems h.mem base w nel, []⟩ p p s1 (by omega) (by simp [hlen]) hq
  have a1 : s1.es.Perm (elems h.mem base w nel) := a1
  have hu1 := uniform_of_perm a1 hu0
  have hl1 : s1.es.length = nel := by rw [a1.length_eq, hlen]
  obtain ⟨c1, c2, c3⟩ := Abs.qs_partition_part (fun x y => compar x y arg) fuel 0 nel
    ⟨elems h.mem base w nel, []⟩ p p s1 (by omega) (by simp [hlen])
    (anti_of_validOn compar arg _ hv) hq
  have hpl := Abs.pivot_last_perm 0 nel (fun x y => compar x y arg)
    ⟨elems h.mem base w nel, []⟩ (by omega) (by simp [hlen])
  have hpl : (Abs.pivot_last 0 nel (fun x y => compar x y arg)
      ⟨elems h.mem base w nel, []⟩).es.Perm (elems h.mem base w nel) := hpl
  have hget : ∀ k, k < nel → elem (concHeap (h.mem.take base) (h.mem.drop (base + nel * w)) w
      arg h.log s1).mem w (base + k * w) = s1.es.getD k default :=
    fun k hk => elem_conc_getD h.mem base nel w s1.es hb hu1 hl1 k hk
  have hmem : ∀ k, k < nel → s1.es.getD k default ∈ elems h.mem base w nel :=
    fun k hk => a1.mem_iff.mp (Abs.getD_mem s1.es k (by omega))
  have hm := Abs.median3_le 0 nel (fun x y => compar x y arg) ⟨elems h.mem base w nel, []⟩
    (by omega)
  have hmes := Abs.median3_es 0 nel (fun x y => compar x y arg) ⟨elems h.mem base w nel, []⟩
  refine ⟨p, _, hrun, hp, ?_, ?_, ?_, ?_⟩
  · rw [hget p hp, c1, pivot_step_run base nel w compar arg h hb (by omega)]
    simp only [concHeap]
    rw [elem_conc_getD h.mem base nel w _ hb (uniform_of_perm hpl hu0)
      (by rw [hpl.length_eq, hlen]) (nel - 1) (by omega), Nat.zero_add]
  · rw [pivot_step_run base nel w compar arg h hb (by omega)]
    simp only [concHeap]
    rw [elem_conc_getD h.mem base nel w _ hb (uniform_of_perm hpl hu0)
      (by rw [hpl.length_eq, hlen]) (nel - 1) (by omega)]
    unfold Abs.pivot_last
    simp only
    simp only [Nat.zero_add] at hm ⊢
    rw [hmes, Abs.swap_getD_snd _ _ _ (by rw [hlen]; omega) (by rw [hlen]; omega)]
    exact elems_getD h.mem base w nel _ (by omega)
  · intro k hk
    rw [hget k (by omega), hget p hp]
    exact c2 k (Nat.zero_le _) hk
  · intro k hk1 hk2
    rw [hget k hk2, hget p hp]
    exact ge_of_validOn compar arg _ hv _ _ (hmem p hp) (hmem k hk2)
      (c3 k hk1 (by omega))

/-- Witness of C14: eight two-byte elements after one leading byte, ordered by their
first byte. -/
theorem qs_partition_post_witness :
    ∃ p h1, qs_partition 9 1 8 2 byteCmp ()
          ⟨[9, 5, 0, 3, 0, 8, 0, 1, 0, 9, 0, 2, 0, 7, 0, 0, 0, 9], []⟩ =
        some (1 + p * 2, 1 + p * 2, h1) ∧
      p < 8 ∧
      elem h1.mem 2 (1 + p * 2) =
        elem (pivot_step 1 8 2 byteCmp ()
          ⟨[9, 5, 0, 3, 0, 8, 0, 1, 0, 9, 0, 2, 0, 7, 0, 0, 0, 9], []⟩).2.mem 2
          (1 + (8 - 1) * 2) ∧
      elem (pivot_step 1 8 2 byteCmp ()
          ⟨[9, 5, 0, 3, 0, 8, 0, 1, 0, 9, 0, 2, 0, 7, 0, 0, 0, 9], []⟩).2.mem 2
          (1 + (8 - 1) * 2) =
        elem [9, 5, 0, 3, 0, 8, 0, 1, 0, 9, 0, 2, 0, 7, 0, 0, 0, 9] 2
          (pivot_step 1 8 2 byteCmp ()
            ⟨[9, 5, 0, 3, 0, 8, 0, 1, 0, 9, 0, 2, 0, 7, 0, 0, 0, 9], []⟩).1 ∧
      (∀ k, k < p →
        byteCmp (elem h1.mem 2 (1 + k * 2)) (elem h1.mem 2 (1 + p * 2)) () ≤ 0) ∧
      (∀ k, p < k → k < 8 →
        byteCmp (elem h1.mem 2 (1 + k * 2)) (elem h1.mem 2 (1 + p * 2)) () ≥ 0) :=
  qs_partition_post 9 1 8 2 byteCmp ()
    ⟨[9, 5, 0, 3, 0, 8, 0, 1, 0, 9, 0, 2, 0, 7, 0, 0, 0, 9], []⟩ (by decide) (by decide)
    (by decide) (by decide) (byteCmp_validOn _)

/-! ## The pivot step: statement -/

/-- The bytes around the array are those of the memory the elements were taken from. -/
theorem conc_frame (mem : List Byte) (base nel w : Nat) (es : List (List Byte))
    (hb : base + nel * w ≤ mem.length) (hu : ∀ e ∈ es, e.length = w) (hl : es.length = nel) :
    (mem.take base ++ es.flatten ++ mem.drop (base + nel * w)).take base = mem.take base ∧
    (mem.take base ++ es.flatten ++ mem.drop (base + nel * w)).drop (base + nel * w) =
      mem.drop (base + nel * w) ∧
    (mem.take base ++ es.flatten ++ mem.drop (base + nel * w)).length = mem.length := by
  have hpre := take_length_base mem base nel w hb
  have hfl : es.flatten.length = nel * w := by rw [flatten_length_uniform w es hu, hl]
  refine ⟨?_, ?_, ?_⟩
  · rw [List.append_assoc, List.take_append_of_le_length (by omega),
      List.take_of_length_le (by omega)]
  · rw [List.drop_append_of_le_length (by simp [hfl, hpre])]
    have : (mem.take base ++ es.flatten).length = base + nel * w := by simp [hfl, hpre]
    rw [← this, List.drop_length]
    simp
  · simp only [List.length_append, hfl, hpre, List.length_drop]
    omega

/-- C15 (median-of-three pivot): for `nel ≥ 7` and a comparator valid on the elements,
the pointer `l[1]` that the pivot step ends with is the address of one of the three
candidates `elem[0]`, `elem[nel/2]`, `elem[nel-1]`; of the other two candidates one
compares `≤` it and the other `≥` it. The step exchanges that element with
`elem[nel-1]` and moves nothing else: it changes nothing at all when the median is the
last element, and never a byte outside the array. -/
theorem pivot_step_median {γ : Type} (base nel w : Nat) (compar : Compar γ) (arg : γ)
    (h : Heap γ) (hb : base + nel * w ≤ h.mem.length) (hn : 7 ≤ nel)
    (hv : ValidOn compar arg (elems h.mem base w nel)) :
    ∃ i a c, (pivot_step base nel w compar arg h).1 = base + i * w ∧
      [a, i, c].Perm [0, nel / 2, nel - 1] ∧
      compar (elem h.mem w (base + a * w)) (elem h.mem w (base + i * w)) arg ≤ 0 ∧
      compar (elem h.mem w (base + c * w)) (elem h.mem w (base + i * w)) arg ≥ 0 ∧
      (∀ k, k < nel → elem (pivot_step base nel w compar arg h).2.mem w (base + k * w) =
        if k = nel - 1 then elem h.mem w (base + i * w)
        else if k = i then elem h.mem w (base + (nel - 1) * w)
        else elem h.mem w (base + k * w)) ∧
      (i = nel - 1 → (pivot_step base nel w compar arg h).2.mem = h.mem) ∧
      (pivot_step base nel w compar arg h).2.mem.take base = h.mem.take base ∧
      (pivot_step base nel w compar arg h).2.mem.drop (base + nel * w) =
        h.mem.drop (base + nel * w) := by
  have hlen : (elems h.mem base w nel).length = nel := elems_length _ _ _ _
  have hu0 := elems_uniform h.mem base w nel hb
  have hanti := anti_of_validOn compar arg _ hv
  have hin : ∀ i, (i = 0 ∨ i = 0 + nel / 2 ∨ i = 0 + (nel - 1)) → i < nel := by
    intro i hi
    rcases hi with h | h | h <;> omega
  obtain ⟨a, c, hperm, hle1, hle2⟩ := Abs.median3_median 0 nel (fun x y => compar x y arg)
    ⟨elems h.mem base w nel, []⟩ (by
      intro i j hi hj hc
      exact hanti.at i j (by rw [hlen]; exact hin i hi) (by rw [hlen]; exact hin j hj) hc)
  have hm := Abs.median3_le 0 nel (fun x y => compar x y arg) ⟨elems h.mem base w nel, []⟩
    (by omega)
  have hmes := Abs.median3_es 0 nel (fun x y => compar x y arg) ⟨elems h.mem base w nel, []⟩
  generalize hi : (Abs.median3 0 nel (fun x y => compar x y arg)
    ⟨elems h.mem base w nel, []⟩).1 = i at hperm hle1 hle2 hm
  simp only [Nat.zero_add] at hperm hm
  have hi' : i < nel := by omega
  have ha : a < nel := by
    have : a ∈ [0, nel / 2, nel - 1] := hperm.mem_iff.mp (by simp)
    simp only [List.mem_cons, List.mem_singleton, List.not_mem_nil, or_false] at this
    rcases this with h | h | h <;> omega
  have hc : c < nel := by
    have : c ∈ [0, nel / 2, nel - 1] := hperm.mem_iff.mp (by simp)
    simp only [List.mem_cons, List.mem_singleton, List.not_mem_nil, or_false] at this
    rcases this with h | h | h <;> omega
  have hpl := Abs.pivot_last_perm 0 nel (fun x y => compar x y arg)
    ⟨elems h.mem base w nel, []⟩ (by omega) (by simp [hlen])
  have hpl : (Abs.pivot_last 0 nel (fun x y => compar x y arg)
      ⟨elems h.mem base w nel, []⟩).es.Perm (elems h.mem base w nel) := hpl
  have hples : (Abs.pivot_last 0 nel (fun x y => compar x y arg)
      ⟨elems h.mem base w nel, []⟩).es = Abs.swap (elems h.mem base w nel) i (nel - 1) := by
    unfold Abs.pivot_last
    simp only [Nat.zero_add]
    rw [hmes, hi]
  have hfr := conc_frame h.mem base nel w _ hb (uniform_of_perm hpl hu0)
    (by rw [hpl.length_eq, hlen])
  rw [pivot_step_run base nel w compar arg h hb (by omega), hi]
  simp only [concHeap]
  refine ⟨i, a, c, rfl, hperm, ?_, ?_, ?_, ?_, hfr.1, hfr.2.1⟩
  · simp only at hle1
    rw [elems_getD _ _ _ _ _ ha, elems_getD _ _ _ _ _ hi'] at hle1
    exact hle1
  · simp only at hle2
    rw [elems_getD _ _ _ _ _ hc, elems_getD _ _ _ _ _ hi'] at hle2
    have hmi : elem h.mem w (base + i * w) ∈ elems h.mem base w nel := by
      rw [← elems_getD _ _ _ _ _ hi']; exact Abs.getD_mem _ _ (by rw [hlen]; exact hi')
    have hmc : elem h.mem w (base + c * w) ∈ elems h.mem base w nel := by
      rw [← elems_getD _ _ _ _ _ hc]; exact Abs.getD_mem _ _ (by rw [hlen]; exact hc)
    exact ge_of_validOn compar arg _ hv _ _ hmi hmc hle2
  · intro k hk
    rw [elem_conc_getD h.mem base nel w _ hb (uniform_of_perm hpl hu0)
      (by rw [hpl.length_eq, hlen]) k hk, hples,
      swap_getD _ _ _ _ (by rw [hlen]; exact hi') (by rw [hlen]; omega),
      elems_getD _ _ _ _ _ hi', elems_getD _ _ _ _ _ (show nel - 1 < nel by omega),
      elems_getD _ _ _ _ _ hk]
  · intro hlast
    rw [hples, hlast, swap_same]
    exact (mem_eq_conc h.mem base w nel hb).symm

/-- Witness of C15: eight two-byte elements after one leading byte, ordered by their
first byte. -/
theorem pivot_step_median_witness :
    ∃ i a c, (pivot_step 1 8 2 byteCmp ()
        ⟨[9, 5, 0, 3, 0, 8, 0, 1, 0, 9, 0, 2, 0, 7, 0, 0, 0, 9], []⟩).1 = 1 + i * 2 ∧
      [a, i, c].Perm [0, 8 / 2, 8 - 1] ∧
      byteCmp (elem [9, 5, 0, 3, 0, 8, 0, 1, 0, 9, 0, 2, 0, 7, 0, 0, 0, 9] 2 (1 + a * 2))
        (elem [9, 5, 0, 3, 0, 8, 0, 1, 0, 9, 0, 2, 0, 7, 0, 0, 0, 9] 2 (1 + i * 2)) () ≤ 0 ∧
      byteCmp (elem [9, 5, 0, 3, 0, 8, 0, 1, 0, 9, 0, 2, 0, 7, 0, 0, 0, 9] 2 (1 + c * 2))
        (elem [9, 5, 0, 3, 0, 8, 0, 1, 0, 9, 0, 2, 0, 7, 0, 0, 0, 9] 2 (1 + i * 2)) () ≥ 0 ∧
      (∀ k, k < 8 → elem (pivot_step 1 8 2 byteCmp ()
          ⟨[9, 5, 0, 3, 0, 8, 0, 1, 0, 9, 0, 2, 0, 7, 0, 0, 0, 9], []⟩).2.mem 2 (1 + k * 2) =
        if k = 8 - 1 then
          elem [9, 5, 0, 3, 0, 8, 0, 1, 0, 9, 0, 2, 0, 7, 0, 0, 0, 9] 2 (1 + i * 2)
        else if k = i then
          elem [9, 5, 0, 3, 0, 8, 0, 1, 0, 9, 0, 2, 0, 7, 0, 0, 0, 9] 2 (1 + (8 - 1) * 2)
        else elem [9, 5, 0, 3, 0, 8, 0, 1, 0, 9, 0, 2, 0, 7, 0, 0, 0, 9] 2 (1 + k * 2)) ∧
      (i = 8 - 1 → (pivot_step 1 8 2 byteCmp ()
          ⟨[9, 5, 0, 3, 0, 8, 0, 1, 0, 9, 0, 2, 0, 7, 0, 0, 0, 9], []⟩).2.mem =
        [9, 5, 0, 3, 0, 8, 0, 1, 0, 9, 0, 2, 0, 7, 0, 0, 0, 9]) ∧
      (pivot_step 1 8 2 byteCmp ()
          ⟨[9, 5, 0, 3, 0, 8, 0, 1, 0, 9, 0, 2, 0, 7, 0, 0, 0, 9], []⟩).2.mem.take 1 =
        [9, 5, 0, 3, 0, 8, 0, 1, 0, 9, 0, 2, 0, 7, 0, 0, 0, 9].take 1 ∧
      (pivot_step 1 8 2 byteCmp ()
          ⟨[9, 5, 0, 3, 0, 8, 0, 1, 0, 9, 0, 2, 0, 7, 0, 0, 0, 9], []⟩).2.mem.drop
          (1 + 8 * 2) =
        [9, 5, 0, 3, 0, 8, 0, 1, 0, 9, 0, 2, 0, 7, 0, 0, 0, 9].drop (1 + 8 * 2) :=
  pivot_step_median 1 8 2 byteCmp ()
    ⟨[9, 5, 0, 3, 0, 8, 0, 1, 0, 9, 0, 2, 0, 7, 0, 0, 0, 9], []⟩ (by decide) (by decide)
    (byteCmp_validOn _)

/-! ## `sort_r_cmpswap` on bytes -/

theorem swap_loop_length {γ : Type} (n a b : Nat) (h : Heap γ) :
    (swap_loop n a b h).mem.length = h.mem.length := by
  induction n generalizing a b h with
  | zero => rfl
  | succ n ih => simp only [swap_loop]; rw [ih]; simp

/-- The exchange loop writes only the bytes of the two elements. -/
theorem swap_loop_frame {γ : Type} (n a b : Nat) (h : Heap γ) (k : Nat)
    (hka : k < a ∨ a + n ≤ k) (hkb : k < b ∨ b + n ≤ k) :
    (swap_loop n a b h).mem[k]? = h.mem[k]? := by
  induction n generalizing a b h with
  | zero => rfl
  | succ n ih =>
    simp only [swap_loop]
    rw [ih _ _ _ (by omega) (by omega)]
    simp only
    rw [List.getElem?_set, if_neg (by omega), List.getElem?_set, if_neg (by omega)]

/-- The memory after the exchange loop does not depend on which element is named first. -/
theorem swap_loop_symm {γ : Type} (n a b : Nat) (h h' : Heap γ) (hm : h.mem = h'.mem) :
    (swap_loop n a b h).mem = (swap_loop n b a h').mem := by
  induction n generalizing a b h h' with
  | zero => exact hm
  | succ n ih =>
    simp only [swap_loop]
    apply ih
    simp only
    rw [hm]
    by_cases hab : a = b
    · subst hab; rfl
    · exact List.set_comm _ _ _ hab

theorem comparCount_xchgs {γ : Type} (n a b : Nat) (l : List (Access γ)) :
    comparCount (xchgs n a b l) = comparCount l := by
  induction n generalizing a b l with
  | zero => rfl
  | succ n ih => simp only [xchgs]; rw [ih]; rfl

/-- A memory cut at two elements that do not overlap. -/
theorem mem_split_blocks (mem : List Byte) (a b w : Nat) (h1 : a + w ≤ b) :
    mem = mem.take a ++ elem mem w a ++ (mem.drop (a + w)).take (b - (a + w)) ++
      elem mem w b ++ mem.drop (b + w) := by
  unfold elem
  have e1 : mem.drop (a + w) = (mem.drop a).drop w := by
    rw [List.drop_drop, Nat.add_comm]
  have e2 : mem.drop b = (mem.drop (a + w)).drop (b - (a + w)) := by
    rw [List.drop_drop, Nat.add_sub_cancel' h1]
  have e3 : mem.drop (b + w) = (mem.drop b).drop w := by
    rw [List.drop_drop, Nat.add_comm]
  rw [e3, List.append_assoc, List.take_append_drop, e2, List.append_assoc,
    List.take_append_drop, e1, List.append_assoc, List.take_append_drop,
    List.take_append_drop]

/-- The exchange loop on two elements that do not overlap, the first one to the left:
each of the two holds afterwards what the other held. -/
theorem swap_loop_blocks {γ : Type} (mem : List Byte) (a b w : Nat) (l : List (Access γ))
    (h1 : a + w ≤ b) (h2 : b + w ≤ mem.length) :
    elem (swap_loop w a b ⟨mem, l⟩).mem w a = elem mem w b ∧
    elem (swap_loop w a b ⟨mem, l⟩).mem w b = elem mem w a := by
  have hxa : (elem mem w a).length = w := by simp [elem]; omega
  have hxb : (elem mem w b).length = w := by simp [elem]; omega
  have hP : (mem.take a).length = a := by rw [List.length_take]; omega
  have hM : ((mem.drop (a + w)).take (b - (a + w))).length = b - (a + w) := by
    rw [List.length_take, List.length_drop]; omega
  have hres : (swap_loop w a b ⟨mem, l⟩).mem =
      mem.take a ++ elem mem w b ++ (mem.drop (a + w)).take (b - (a + w)) ++
        elem mem w a ++ mem.drop (b + w) := by
    have := swap_loop_mem (elem mem w a) (elem mem w b) (mem.take a)
      ((mem.drop (a + w)).take (b - (a + w))) (mem.drop (b + w)) l (by rw [hxa, hxb]) a b
      hP.symm (by rw [hP, hxa, hM]; omega)
    rw [hxa, ← mem_split_blocks mem a b w h1] at this
    exact this
  rw [hres]
  constructor
  · rw [List.append_assoc, List.append_assoc]
    exact elem_at _ _ _ _ _ hP.symm hxb.symm
  · exact elem_at _ _ _ _ _ (by simp only [List.length_append, hP, hxb, hM]; omega) hxa.symm

/-- The same for two elements in either position. -/
theorem swap_loop_exchange {γ : Type} (mem : List Byte) (a b w : Nat) (l : List (Access γ))
    (hab : a + w ≤ b ∨ b + w ≤ a) (ha : a + w ≤ mem.length) (hb : b + w ≤ mem.length) :
    elem (swap_loop w a b ⟨mem, l⟩).mem w a = elem mem w b ∧
    elem (swap_loop w a b ⟨mem, l⟩).mem w b = elem mem w a := by
  rcases hab with h | h
  · exact swap_loop_blocks mem a b w l h hb
  · rw [swap_loop_symm w a b ⟨mem, l⟩ ⟨mem, l⟩ rfl]
    exact (swap_loop_blocks mem b a w l h ha).symm

/-- What `sort_r_cmpswap` returns and leaves in memory, by the answer of the comparator. -/
theorem sort_r_cmpswap_exchange {γ : Type} (a b w : Nat) (compar : Compar γ) (arg : γ)
    (h : Heap γ) (hab : a + w ≤ b ∨ b + w ≤ a) (ha : a + w ≤ h.mem.length)
    (hb : b + w ≤ h.mem.length) :
    (compar (elem h.mem w a) (elem h.mem w b) arg > 0 →
      (sort_r_cmpswap a b w compar arg h).1 = 1 ∧
      elem (sort_r_cmpswap a b w compar arg h).2.mem w a = elem h.mem w b ∧
      elem (sort_r_cmpswap a b w compar arg h).2.mem w b = elem h.mem w a) ∧
    (¬ compar (elem h.mem w a) (elem h.mem w b) arg > 0 →
      (sort_r_cmpswap a b w compar arg h).1 = 0 ∧
      (sort_r_cmpswap a b w compar arg h).2.mem = h.mem) := by
  unfold sort_r_cmpswap
  simp only [Heap.note, Nat.add_sub_cancel_left]
  by_cases hc : compar (elem h.mem w a) (elem h.mem w b) arg > 0
  · simp only [hc, if_true, not_true_eq_false, false_implies, and_true, true_implies,
      true_and]
    exact swap_loop_exchange h.mem a b w _ hab ha hb
  · simp only [hc, if_false, not_false_eq_true, false_implies, true_implies, and_true,
      true_and]

/-- C20 (the compare-and-swap helper): for two elements of width `w` inside the memory
that do not overlap and any comparator, `sort_r_cmpswap` calls the comparator exactly
once; when the answer is `> 0` it returns 1, each element holds afterwards the `w` bytes
the other held, and every byte outside the two elements is unchanged; otherwise it
returns 0 and the memory is unchanged. -/
theorem sort_r_cmpswap_spec {γ : Type} (a b w : Nat) (compar : Compar γ) (arg : γ)
    (h : Heap γ) (hab : a + w ≤ b ∨ b + w ≤ a) (ha : a + w ≤ h.mem.length)
    (hb : b + w ≤ h.mem.length) :
    comparCount (sort_r_cmpswap a b w compar arg h).2.log = comparCount h.log + 1 ∧
    (sort_r_cmpswap a b w compar arg h).2.mem.length = h.mem.length ∧
    (compar (elem h.mem w a) (elem h.mem w b) arg > 0 →
      (sort_r_cmpswap a b w compar arg h).1 = 1 ∧
      elem (sort_r_cmpswap a b w compar arg h).2.mem w a = elem h.mem w b ∧
      elem (sort_r_cmpswap a b w compar arg h).2.mem w b = elem h.mem w a ∧
      ∀ k, (k < a ∨ a + w ≤ k) → (k < b ∨ b + w ≤ k) →
        (sort_r_cmpswap a b w compar arg h).2.mem[k]? = h.mem[k]?) ∧
    (¬ compar (elem h.mem w a) (elem h.mem w b) arg > 0 →
      (sort_r_cmpswap a b w compar arg h).1 = 0 ∧
      (sort_r_cmpswap a b w compar arg h).2.mem = h.mem) := by
  unfold sort_r_cmpswap
  simp only [Heap.note, Nat.add_sub_cancel_left]
  by_cases hc : compar (elem h.mem w a) (elem h.mem w b) arg > 0
  · simp only [hc, if_true, not_true_eq_false, false_implies, and_true, true_implies,
      true_and]
    refine ⟨?_, ?_, ?_, ?_, ?_⟩
    · rw [swap_loop_log, comparCount_xchgs]
      rfl
    · rw [swap_loop_length]
    · exact (swap_loop_exchange h.mem a b w _ hab ha hb).1
    · exact (swap_loop_exchange h.mem a b w _ hab ha hb).2
    · intro k hka hkb
      rw [swap_loop_frame w a b _ k hka hkb]
  · simp only [hc, if_false, not_false_eq_true, false_implies, true_implies, and_true,
      true_and]
    rfl

/-- Witness of C20: two three-byte elements, the second one first in memory, under a
comparator that always answers "greater". -/
theorem sort_r_cmpswap_spec_witness :
    comparCount (sort_r_cmpswap 5 1 3 (fun _ _ _ => 1) ()
        ⟨[9, 1, 2, 3, 9, 4, 5, 6, 9], []⟩).2.log =
      comparCount ([] : List (Access Unit)) + 1 ∧
    (sort_r_cmpswap 5 1 3 (fun _ _ _ => 1) () ⟨[9, 1, 2, 3, 9, 4, 5, 6, 9], []⟩).2.mem.length =
      [9, 1, 2, 3, 9, 4, 5, 6, 9].length ∧
    ((fun _ _ _ => 1 : Compar Unit) (elem [9, 1, 2, 3, 9, 4, 5, 6, 9] 3 5)
        (elem [9, 1, 2, 3, 9, 4, 5, 6, 9] 3 1) () > 0 →
      (sort_r_cmpswap 5 1 3 (fun _ _ _ => 1) () ⟨[9, 1, 2, 3, 9, 4, 5, 6, 9], []⟩).1 = 1 ∧
      elem (sort_r_cmpswap 5 1 3 (fun _ _ _ => 1) ()
          ⟨[9, 1, 2, 3, 9, 4, 5, 6, 9], []⟩).2.mem 3 5 =
        elem [9, 1, 2, 3, 9, 4, 5, 6, 9] 3 1 ∧
      elem (sort_r_cmpswap 5 1 3 (fun _ _ _ => 1) ()
          ⟨[9, 1, 2, 3, 9, 4, 5, 6, 9], []⟩).2.mem 3 1 =
        elem [9, 1, 2, 3, 9, 4, 5, 6, 9] 3 5 ∧
      ∀ k, (k < 5 ∨ 5 + 3 ≤ k) → (k < 1 ∨ 1 + 3 ≤ k) →
        (sort_r_cmpswap 5 1 3 (fun _ _ _ => 1) ()
          ⟨[9, 1, 2, 3, 9, 4, 5, 6, 9], []⟩).2.mem[k]? =
        [9, 1, 2, 3, 9, 4, 5, 6, 9][k]?) ∧
    (¬ (fun _ _ _ => 1 : Compar Unit) (elem [9, 1, 2, 3, 9, 4, 5, 6, 9] 3 5)
        (elem [9, 1, 2, 3, 9, 4, 5, 6, 9] 3 1) () > 0 →
      (sort_r_cmpswap 5 1 3 (fun _ _ _ => 1) () ⟨[9, 1, 2, 3, 9, 4, 5, 6, 9], []⟩).1 = 0 ∧
      (sort_r_cmpswap 5 1 3 (fun _ _ _ => 1) () ⟨[9, 1, 2, 3, 9, 4, 5, 6, 9], []⟩).2.mem =
        [9, 1, 2, 3, 9, 4, 5, 6, 9]) :=
  sort_r_cmpswap_spec 5 1 3 (fun _ _ _ => 1) () ⟨[9, 1, 2, 3, 9, 4, 5, 6, 9], []⟩
    (by decide) (by decide) (by decide)

/-! ## The left scan of the partition -/

/-- C16 as stated fails. Seven two-byte elements whose first byte is the key, all keys
0: after the pivot step the pivot `[0,3]` is in the last slot, at the right pointer 12.
The element at the left pointer 0 compares equal to the pivot (`compar ≥ 0`), and
the left scan does not exchange them: it ends with the memory unchanged, the right
pointer still at 12 and the left pointer moved up to it. -/
theorem scan_left_tie_not_swapped :
    (pivot_step 0 7 2 byteCmp () ⟨[0, 0, 0, 1, 0, 2, 0, 3, 0, 4, 0, 5, 0, 6], []⟩).2.mem =
      [0, 0, 0, 1, 0, 2, 0, 6, 0, 4, 0, 5, 0, 3] ∧
    byteCmp (elem [0, 0, 0, 1, 0, 2, 0, 6, 0, 4, 0, 5, 0, 3] 2 0)
      (elem [0, 0, 0, 1, 0, 2, 0, 6, 0, 4, 0, 5, 0, 3] 2 12) () ≥ 0 ∧
    (scan_left 17 2 byteCmp () 0 12
      (pivot_step 0 7 2 byteCmp () ⟨[0, 0, 0, 1, 0, 2, 0, 3, 0, 4, 0, 5, 0, 6], []⟩).2).map
        (fun r => (r.1, r.2.1, r.2.2.mem)) =
      some (12, 12, [0, 0, 0, 1, 0, 2, 0, 6, 0, 4, 0, 5, 0, 3]) := by
  decide

/-- C16, amended: in the left scan of the partition, with the pivot at the right
pointer, an element that compares strictly greater than the pivot (`compar > 0`) is
exchanged with the pivot, the left scan ends with the right pointer lowered by `w`,
and the partition loop goes on with the right scan from there (the direction
reverses); an element that compares `≤ 0`
(equal included) stays where it is and the left scan goes on at `pl + w`. -/
theorem scan_left_step {γ : Type} (fuel w : Nat) (compar : Compar γ) (arg : γ)
    (pl pr : Nat) (h : Heap γ) (hw : 0 < w) (h1 : pl + w ≤ pr)
    (h2 : pr + w ≤ h.mem.length) :
    (compar (elem h.mem w pl) (elem h.mem w pr) arg > 0 →
      ∃ h', scan_left (fuel + 1) w compar arg pl pr h = some (pl, pr - w, h') ∧
        elem h'.mem w pl = elem h.mem w pr ∧ elem h'.mem w pr = elem h.mem w pl ∧
        partition_loop (fuel + 2) w compar arg pl pr h =
          (scan_right (fuel + 1) w compar arg pl (pr - w) h').bind
            (fun r => partition_loop (fuel + 1) w compar arg r.1 r.2.1 r.2.2)) ∧
    (compar (elem h.mem w pl) (elem h.mem w pr) arg ≤ 0 →
      ∃ h1, h1.mem = h.mem ∧
        scan_left (fuel + 1) w compar arg pl pr h =
          scan_left fuel w compar arg (pl + w) pr h1) := by
  have hlt : pl < pr := by omega
  have hspec := sort_r_cmpswap_exchange pl pr w compar arg h (Or.inl h1) (by omega) h2
  constructor
  · intro hc
    obtain ⟨e1, e2, e3⟩ := hspec.1 hc
    have hscan : scan_left (fuel + 1) w compar arg pl pr h =
        some (pl, pr - w, (sort_r_cmpswap pl pr w compar arg h).2) := by
      simp only [scan_left, hlt, if_true, e1]
      rfl
    refine ⟨_, hscan, e2, e3, ?_⟩
    show partition_loop ((fuel + 1) + 1) w compar arg pl pr h = _
    rw [partition_loop, if_pos hlt, hscan]
    dsimp only
    cases scan_right (fuel + 1) w compar arg pl (pr - w)
        (sort_r_cmpswap pl pr w compar arg h).2 with
    | none => rfl
    | some r =>
      obtain ⟨pl2, pr2, h2⟩ := r
      rfl
  · intro hc
    obtain ⟨e1, e2⟩ := hspec.2 (not_lt.mpr hc)
    refine ⟨(sort_r_cmpswap pl pr w compar arg h).2, e2, ?_⟩
    simp only [scan_left, hlt, if_true, e1]
    rfl

/-- Witness of C16, amended: `[6,_]` at the left pointer against the pivot `[5,_]`. -/
theorem scan_left_step_witness :
    (byteCmp (elem [6, 0, 5, 1] 2 0) (elem [6, 0, 5, 1] 2 2) () > 0 →
      ∃ h', scan_left (1 + 1) 2 byteCmp () 0 2 ⟨[6, 0, 5, 1], []⟩ = some (0, 2 - 2, h') ∧
        elem h'.mem 2 0 = elem [6, 0, 5, 1] 2 2 ∧ elem h'.mem 2 2 = elem [6, 0, 5, 1] 2 0 ∧
        partition_loop (1 + 2) 2 byteCmp () 0 2 ⟨[6, 0, 5, 1], []⟩ =
          (scan_right (1 + 1) 2 byteCmp () 0 (2 - 2) h').bind
            (fun r => partition_loop (1 + 1) 2 byteCmp () r.1 r.2.1 r.2.2)) ∧
    (byteCmp (elem [6, 0, 5, 1] 2 0) (elem [6, 0, 5, 1] 2 2) () ≤ 0 →
      ∃ h1, h1.mem = [6, 0, 5, 1] ∧
        scan_left (1 + 1) 2 byteCmp () 0 2 ⟨[6, 0, 5, 1], []⟩ =
          scan_left 1 2 byteCmp () (0 + 2) 2 h1) :=
  scan_left_step 1 2 byteCmp () 0 2 ⟨[6, 0, 5, 1], []⟩ (by decide) (by decide) (by decide)

/-! ## The search: number of probes -/

/-- Halving a non-empty range lowers its bit length. -/
theorem size_half (s t : Nat) (hs : 0 < s) (ht : 2 * t ≤ s) : Nat.size t + 1 ≤ Nat.size s := by
  have h1 : s < 2 ^ Nat.size s := Nat.lt_size_self s
  have hk : 0 < Nat.size s := Nat.size_pos.mpr hs
  have h2 : t < 2 ^ (Nat.size s - 1) := by
    have e : 2 ^ Nat.size s = 2 * 2 ^ (Nat.size s - 1) := by
      rw [← pow_succ', Nat.sub_add_cancel hk]
    omega
  have h3 : Nat.size t ≤ Nat.size s - 1 := Nat.size_le.mpr h2
  omega

/-- The bit length of `n ≥ 1` is `floor(log2 n) + 1`. -/
theorem size_le_log (n : Nat) : Nat.size n ≤ Nat.log 2 n + 1 :=
  Nat.size_le.mpr (Nat.lt_pow_succ_log_self (by decide) n)

/-- The search on at most `2^30` elements: the number of probes is at most the bit
length of the size of the range `[min, max]`, and that much fuel lets the loop end. -/
theorem bsearch_loop_log {κ γ : Type} (key : κ) (base size n : Nat)
    (compar : KeyCompar κ γ) (arg : γ) (mem : List Byte) (hn : n ≤ 1073741824) :
    ∀ (fuel : Nat) (min max : Int) (log : List (Probe γ)), 0 ≤ min → max < (n : Int) →
      (bsearch_loop fuel key base size compar arg mem min max log).2.length ≤
        log.length + Nat.size (max + 1 - min).toNat ∧
      (Nat.size (max + 1 - min).toNat < fuel →
        (bsearch_loop fuel key base size compar arg mem min max log).1 ≠ Outcome.running) := by
  intro fuel
  induction fuel with
  | zero =>
    intro min max log _ _
    simp only [bsearch_loop]
    exact ⟨by omega, by omega⟩
  | succ fuel ih =>
    intro min max log h0 hmax
    simp only [bsearch_loop]
    by_cases hle : min ≤ max
    · simp only [hle, if_true]
      obtain ⟨m1, m2⟩ := mid_bounds min max h0 hle (by omega)
      have m3 := tdiv_two_bounds (min + max) (by omega)
      rw [wrap_int_id (min + max) (by omega) (by omega)] at m1 m2 ⊢
      generalize hmid : Int.tdiv (min + max) 2 = mid at m1 m2 m3
      have hw1 : wrap_int (mid - 1) = mid - 1 := wrap_int_id _ (by omega) (by omega)
      have hw2 : wrap_int (mid + 1) = mid + 1 := wrap_int_id _ (by omega) (by omega)
      rw [hw1, hw2]
      have hs1 : Nat.size (mid - 1 + 1 - min).toNat + 1 ≤ Nat.size (max + 1 - min).toNat :=
        size_half _ _ (by omega) (by omega)
      have hs2 : Nat.size (max + 1 - (mid + 1)).toNat + 1 ≤ Nat.size (max + 1 - min).toNat :=
        size_half _ _ (by omega) (by omega)
      split_ifs with hc1 hc2
      · obtain ⟨a1, a2⟩ := ih min (mid - 1)
          (⟨min, max, mid, (base : Int) + mid * (size : Int), arg⟩ :: log) h0 (by omega)
        refine ⟨?_, fun hf => a2 (by omega)⟩
        rw [List.length_cons] at a1
        omega
      · obtain ⟨a1, a2⟩ := ih (mid + 1) max
          (⟨min, max, mid, (base : Int) + mid * (size : Int), arg⟩ :: log) (by omega) hmax
        refine ⟨?_, fun hf => a2 (by omega)⟩
        rw [List.length_cons] at a1
        omega
      · refine ⟨?_, fun _ h => by cases h⟩
        rw [List.length_cons]
        have : 0 < Nat.size (max + 1 - min).toNat := Nat.size_pos.mpr (by omega)
        omega
    · simp only [hle, if_false]
      exact ⟨by omega, fun _ h => by cases h⟩

/-- The search on `1 ≤ nmemb ≤ 2^30` elements (where `min + max` cannot overflow): at
most `floor(log2 nmemb) + 1` comparator calls, whatever the key and the comparator, and
the call returns once the fuel exceeds that number. -/
theorem hb_bsearch_r_log_bounded {κ γ : Type} (fuel : Nat) (key : κ) (base nmemb size : Nat)
    (compar : KeyCompar κ γ) (arg : γ) (mem : List Byte) (hn : nmemb ≤ 1073741824) :
    (hb_bsearch_r fuel key base nmemb size compar arg mem).2.length ≤ Nat.log 2 nmemb + 1 ∧
    (Nat.log 2 nmemb + 1 < fuel →
      (hb_bsearch_r fuel key base nmemb size compar arg mem).1 ≠ Outcome.running) := by
  have hmax : wrap_int (wrap_int (nmemb : Int) - 1) = (nmemb : Int) - 1 := by
    rw [wrap_int_id (nmemb : Int) (by omega) (by omega), wrap_int_id _ (by omega) (by omega)]
  unfold hb_bsearch_r
  rw [hmax]
  obtain ⟨a1, a2⟩ := bsearch_loop_log key base size nmemb compar arg mem hn fuel 0
    ((nmemb : Int) - 1) [] (le_refl _) (by omega)
  have e : ((nmemb : Int) - 1 + 1 - 0).toNat = nmemb := by omega
  rw [e] at a1 a2
  have := size_le_log nmemb
  refine ⟨?_, fun hf => a2 (by omega)⟩
  rw [List.length_nil] at a1
  omega

/-- The loop of the search with `max = 2147483646` and a key above every byte of the
memory makes one probe per unit of fuel, without end. -/
theorem bsearch_loop_never_count (n base : Nat) :
    ∀ (fuel : Nat) (min : Int) (log : List (Probe Unit)), -2147483648 ≤ min →
      min ≤ 1073741824 →
      (bsearch_loop fuel (1 : Nat) base 1 byteKeyCmp () (List.replicate n 0) min 2147483646
        log).2.length = log.length + fuel := by
  intro fuel
  induction fuel with
  | zero => intro min log _ _; rfl
  | succ fuel ih =>
    intro min log h1 h2
    have hle : min ≤ 2147483646 := by omega
    obtain ⟨r1, r2⟩ := wrap_int_range (min + 2147483646)
    obtain ⟨d1, d2⟩ := tdiv_two_range _ r1 r2
    simp only [bsearch_loop, hle, if_true, byteKeyCmp_zeros]
    rw [if_neg (by decide), if_pos (by decide)]
    rw [wrap_int_id _ (by omega) (by omega)]
    rw [ih _ _ (by omega) (by omega), List.length_cons]
    omega

/-- C18, the code at a failing input: more than `floor(log2 n) + 1` comparator calls.
For `n = 2^31 - 1` (an `int`) the bound is 31; on `n` zero bytes with the key 1 the
call makes as many comparator calls as it is given fuel, 32 among them, and has not
returned: after the first probe `min + max` overflows `int` and the range stops
shrinking. -/
theorem hb_bsearch_r_probe_count_unbounded :
    Nat.log 2 2147483647 + 1 = 31 ∧
    (hb_bsearch_r 32 1 0 2147483647 1 byteKeyCmp ()
      (List.replicate 2147483647 0)).2.length = 32 ∧
    ∀ fuel, (hb_bsearch_r fuel 1 0 2147483647 1 byteKeyCmp ()
        (List.replicate 2147483647 0)).2.length = fuel ∧
      (hb_bsearch_r fuel 1 0 2147483647 1 byteKeyCmp ()
        (List.replicate 2147483647 0)).1 = Outcome.running := by
  have e0 : wrap_int (wrap_int ((2147483647 : ℕ) : ℤ) - 1) = 2147483646 := by decide
  have hall : ∀ fuel, (hb_bsearch_r fuel 1 0 2147483647 1 byteKeyCmp ()
        (List.replicate 2147483647 0)).2.length = fuel ∧
      (hb_bsearch_r fuel 1 0 2147483647 1 byteKeyCmp ()
        (List.replicate 2147483647 0)).1 = Outcome.running := by
    intro fuel
    unfold hb_bsearch_r
    rw [e0]
    refine ⟨?_, bsearch_loop_never 2147483647 0 fuel 0 [] (by decide) (by decide)⟩
    rw [bsearch_loop_never_count 2147483647 0 fuel 0 [] (by decide) (by decide)]
    exact Nat.zero_add fuel
  refine ⟨?_, (hall 32).1, hall⟩
  have hlog : Nat.log 2 2147483647 = 30 :=
    Nat.log_eq_of_pow_le_of_lt_pow (by norm_num) (by norm_num)
  rw [hlog]

/-! ## Element level: the insertion sort exchanges neighbours -/

namespace Abs

variable {α : Type} [Inhabited α]

theorem AdjSwaps.andAlso {cmp : α → α → Int} {n m : Nat} {a b c : List α}
    (h1 : AdjSwaps cmp n a b) (h2 : AdjSwaps cmp m b c) : AdjSwaps cmp (n + m) a c := by
  induction h1 with
  | refl es => rw [Nat.zero_add]; exact h2
  | step n es es' k a1 a2 _ ih =>
    rw [Nat.add_right_comm]
    exact AdjSwaps.step (n + m) es c k a1 a2 (ih h2)

theorem AdjSwaps.toPermOf {cmp : α → α → Int} {n : Nat} {a b : List α}
    (h : AdjSwaps cmp n a b) : b.Perm a := by
  induction h with
  | refl es => exact List.Perm.refl _
  | step n es es' k a1 a2 _ ih => exact ih.trans (swap_perm es k (k + 1) (by omega) a1)

theorem AdjLog.same (l : List Event) : AdjLog l l := ⟨[], rfl, by simp⟩

theorem AdjLog.join {a b c : List Event} (h1 : AdjLog a b) (h2 : AdjLog b c) :
    AdjLog a c := by
  obtain ⟨n1, e1, p1⟩ := h1
  obtain ⟨n2, e2, p2⟩ := h2
  refine ⟨n2 ++ n1, by rw [e2, e1, List.append_assoc], ?_⟩
  intro e he
  rcases List.mem_append.mp he with h | h
  · exact p2 e h
  · exact p1 e h

theorem AdjLog.push (l : List Event) (e : Event) (h : AdjEvent e) : AdjLog l (e :: l) :=
  ⟨[e], rfl, by simpa using h⟩

/-- One `cmpswap` of an element and its right neighbour: one exchange, logged, when the
left one compares strictly greater, and none otherwise. -/
theorem cmpswap_adj (cmp : α → α → Int) (k : Nat) (s : State α) (hk : k + 1 < s.es.length) :
    ∃ n, AdjSwaps cmp n s.es (cmpswap cmp k (k + 1) s).2.es ∧
      AdjLog s.log (cmpswap cmp k (k + 1) s).2.log ∧
      swapCount (cmpswap cmp k (k + 1) s).2.log = swapCount s.log + n := by
  rcases cmpswap_cases cmp k (k + 1) s with ⟨hc, h⟩ | ⟨_, h⟩
  · rw [h]
    refine ⟨1, AdjSwaps.step 0 _ _ k hk hc (AdjSwaps.refl _), ?_, rfl⟩
    refine ⟨[Event.swap k (k + 1), Event.compar k (k + 1), Event.cmpswap k (k + 1)], rfl, ?_⟩
    intro e he
    simp only [List.mem_cons, List.mem_singleton, List.not_mem_nil, or_false] at he
    rcases he with rfl | rfl | rfl <;> simp only [AdjEvent]
  · rw [h]
    refine ⟨0, AdjSwaps.refl _, ?_, rfl⟩
    refine ⟨[Event.compar k (k + 1), Event.cmpswap k (k + 1)], rfl, ?_⟩
    intro e he
    simp only [List.mem_cons, List.mem_singleton, List.not_mem_nil, or_false] at he
    rcases he with rfl | rfl <;> simp only [AdjEvent]

theorem ins_inner_adj (cmp : α → α → Int) (b : Nat) :
    ∀ (fuel j : Nat) (s s' : State α), j < s.es.length →
      ins_inner fuel b cmp j s = some s' →
      ∃ n, AdjSwaps cmp n s.es s'.es ∧ AdjLog s.log s'.log ∧
        swapCount s'.log = swapCount s.log + n := by
  intro fuel
  induction fuel with
  | zero => intro j s s' _ h; simp [ins_inner] at h
  | succ fuel ih =>
    intro j s s' hl h
    simp only [ins_inner] at h
    split at h
    · rename_i hjb
      obtain ⟨k, rfl⟩ : ∃ k, j = k + 1 := ⟨j - 1, by omega⟩
      rw [Nat.add_sub_cancel] at h
      obtain ⟨n1, c1, c2, c3⟩ := cmpswap_adj cmp k s hl
      split at h
      · obtain ⟨n2, d1, d2, d3⟩ := ih k _ s' (by rw [c1.toPermOf.length_eq]; omega) h
        exact ⟨n1 + n2, c1.andAlso d1, c2.join d2, by rw [d3, c3, Nat.add_assoc]⟩
      · simp only [Option.some.injEq] at h
        rw [← h]; exact ⟨n1, c1, c2, c3⟩
    · simp only [Option.some.injEq] at h
      rw [h]; exact ⟨0, AdjSwaps.refl _, AdjLog.same _, rfl⟩

theorem ins_outer_adj (cmp : α → α → Int) (b e : Nat) :
    ∀ (fuel i : Nat) (s s' : State α), e ≤ s.es.length →
      ins_outer fuel b e cmp i s = some s' →
      ∃ n, AdjSwaps cmp n s.es s'.es ∧ AdjLog s.log s'.log ∧
        swapCount s'.log = swapCount s.log + n := by
  intro fuel
  induction fuel with
  | zero => intro i s s' _ h; simp [ins_outer] at h
  | succ fuel ih =>
    intro i s s' he h
    simp only [ins_outer] at h
    split at h
    · split at h
      · simp at h
      · rename_i s1 h1
        obtain ⟨n1, c1, c2, c3⟩ := ins_inner_adj cmp b fuel i s s1 (by omega) h1
        obtain ⟨n2, d1, d2, d3⟩ := ih (i + 1) s1 s'
          (by rw [c1.toPermOf.length_eq]; exact he) h
        exact ⟨n1 + n2, c1.andAlso d1, c2.join d2, by rw [d3, c3, Nat.add_assoc]⟩
    · simp only [Option.some.injEq] at h
      rw [h]; exact ⟨0, AdjSwaps.refl _, AdjLog.same _, rfl⟩

/-- The sort of fewer than 7 elements: exchanges of adjacent elements only, each made
when the left one compares strictly greater, and each logged. -/
theorem sort_small_adj (cmp : α → α → Int) (fuel b nel : Nat) (s s' : State α)
    (hn : nel < 7) (hb : b + nel ≤ s.es.length) (h : sort fuel b nel cmp s = some s') :
    ∃ n, AdjSwaps cmp n s.es s'.es ∧ AdjLog s.log s'.log ∧
      swapCount s'.log = swapCount s.log + n := by
  cases fuel with
  | zero => simp [sort] at h
  | succ fuel =>
    simp only [sort, hn, if_true] at h
    split at h
    · simp at h
    · rename_i s1 h1
      simp only [Option.some.injEq] at h
      rw [← h]
      obtain ⟨n, c1, c2, c3⟩ := ins_outer_adj cmp b (b + nel) fuel (b + 1)
        (s.note (Event.enter b nel)) s1 hb h1
      refine ⟨n, c1, ?_, c3⟩
      exact (AdjLog.push s.log (Event.enter b nel) trivial).join
        (c2.join (AdjLog.push _ Event.leave trivial))

/-- Exchanges of adjacent elements, the left one strictly greater, keep the order of
elements that compare equal. -/
theorem AdjSwaps.stable {cmp : α → α → Int} {n : Nat} {es es' : List α}
    (h : AdjSwaps cmp n es es')
    (hanti : ∀ x ∈ es, ∀ y ∈ es, cmp x y > 0 → cmp y x < 0) :
    ∃ σ, StableMap cmp es es' σ := by
  induction h with
  | refl es =>
    exact ⟨fun i => i, fun i hi => hi, fun i j _ _ hij => hij, fun i _ => rfl,
      fun i j hij _ _ => hij⟩
  | step n es es' k a1 a2 hrest ih =>
    have hperm := swap_perm es k (k + 1) (by omega) a1
    have hlen : (swap es k (k + 1)).length = es.length := hperm.length_eq
    obtain ⟨σ, s1, s2, s3, s4⟩ := ih (by
      intro x hx y hy
      exact hanti x (hperm.subset hx) y (hperm.subset hy))
    rw [hlen] at s1 s2 s3 s4
    refine ⟨fun i => if σ i = k then k + 1 else if σ i = k + 1 then k else σ i,
      ?_, ?_, ?_, ?_⟩
    · intro i hi
      have := s1 i hi
      show (if σ i = k then k + 1 else if σ i = k + 1 then k else σ i) < es.length
      split_ifs <;> omega
    · intro i j hi hj hij
      apply s2 i j hi hj
      have hij : (if σ i = k then k + 1 else if σ i = k + 1 then k else σ i) =
          (if σ j = k then k + 1 else if σ j = k + 1 then k else σ j) := hij
      split_ifs at hij <;> omega
    · intro i hi
      rw [s3 i hi, swap_getD es k (k + 1) (σ i) (by omega) a1]
      show _ = es.getD (if σ i = k then k + 1 else if σ i = k + 1 then k else σ i) default
      by_cases h1 : σ i = k
      · rw [if_neg (by omega), if_pos h1, if_pos h1]
      · by_cases h2 : σ i = k + 1
        · rw [if_pos h2, if_neg h1, if_pos h2]
        · rw [if_neg h2, if_neg h1, if_neg h1, if_neg h2]
    · intro i j hij hj h0
      have hlt := s4 i j hij hj h0
      show (if σ i = k then k + 1 else if σ i = k + 1 then k else σ i) <
        (if σ j = k then k + 1 else if σ j = k + 1 then k else σ j)
      by_cases hbad : σ i = k ∧ σ j = k + 1
      · exfalso
        rw [s3 i (by omega), s3 j hj, hbad.1, hbad.2,
          swap_getD es k (k + 1) k (by omega) a1,
          swap_getD es k (k + 1) (k + 1) (by omega) a1,
          if_neg (by omega), if_pos rfl, if_pos rfl] at h0
        have := hanti _ (getD_mem es k (by omega)) _ (getD_mem es (k + 1) a1) a2
        omega
      · split_ifs <;> omega

end Abs

/-! ## The log of exchanges of neighbours, on bytes -/

theorem concEvent_adj {γ : Type} (B w : Nat) (arg : γ) (ev : Abs.Event)
    (hev : Abs.AdjEvent ev) (l : List (Access γ)) (e : Access γ)
    (he : e ∈ concEvent B w arg ev l) : e ∈ l ∨ AdjacentAccess w e := by
  cases ev with
  | compar i j =>
    simp only [concEvent, List.mem_cons] at he
    simp only [Abs.AdjEvent] at hev
    rcases he with rfl | he
    · right; simp only [AdjacentAccess]; rw [hev, Nat.succ_mul]; omega
    · left; exact he
  | swap i j =>
    simp only [concEvent] at he
    simp only [Abs.AdjEvent] at hev
    rcases xchgs_mem _ _ _ _ _ he with h | ⟨k, _, rfl⟩
    · left; exact h
    · right; simp only [AdjacentAccess]; rw [hev, Nat.succ_mul]; omega
  | cmpswap i j =>
    simp only [concEvent, List.mem_cons] at he
    simp only [Abs.AdjEvent] at hev
    rcases he with rfl | he
    · right; simp only [AdjacentAccess]; rw [hev, Nat.succ_mul]; omega
    · left; exact he
  | enter b m =>
    simp only [concEvent, List.mem_cons] at he
    rcases he with rfl | he
    · right; trivial
    · left; exact he
  | leave =>
    simp only [concEvent, List.mem_cons] at he
    rcases he with rfl | he
    · right; trivial
    · left; exact he

theorem concLog_adj {γ : Type} (B w : Nat) (arg : γ) (al : List Abs.Event)
    (hal : ∀ ev ∈ al, Abs.AdjEvent ev) :
    ∀ e ∈ concLog B w arg ([] : List (Access γ)) al, AdjacentAccess w e := by
  induction al with
  | nil => intro e he; simp [concLog] at he
  | cons ev al ih =>
    intro e he
    simp only [concLog] at he
    rcases concEvent_adj B w arg ev (hal ev (List.mem_cons_self _ _)) _ e he with h | h
    · exact ih (fun x hx => hal x (List.mem_cons_of_mem _ hx)) e h
    · exact h

/-! ## Element level: elements that all compare equal -/

namespace Abs

theorem AllEq.ofPermOf {α : Type} {cmp : α → α → Int} {es es' : List α} (h : AllEq cmp es)
    (hp : es'.Perm es) : AllEq cmp es' :=
  fun x hx y hy => h x (hp.subset hx) y (hp.subset hy)

variable {α : Type} [Inhabited α]

theorem callTrace_compar (i j : Nat) (l : List Event) :
    callTrace (Event.compar i j :: l) = callTrace l := by
  simp [callTrace, List.filterMap_append]

theorem callTrace_swap (i j : Nat) (l : List Event) :
    callTrace (Event.swap i j :: l) = callTrace l := by
  simp [callTrace, List.filterMap_append]

theorem callTrace_cmpswap (i j : Nat) (l : List Event) :
    callTrace (Event.cmpswap i j :: l) = callTrace l := by
  simp [callTrace, List.filterMap_append]

theorem callTrace_enter (b n : Nat) (l : List Event) :
    callTrace (Event.enter b n :: l) = callTrace l ++ [true] := by
  simp [callTrace, List.filterMap_append]

theorem callTrace_leave (l : List Event) :
    callTrace (Event.leave :: l) = callTrace l ++ [false] := by
  simp [callTrace, List.filterMap_append]

/-- On elements that all compare equal `cmpswap` exchanges nothing. -/
theorem cmpswap_alleq (cmp : α → α → Int) (i j : Nat) (s : State α) (heq : AllEq cmp s.es)
    (hi : i < s.es.length) (hj : j < s.es.length) :
    cmpswap cmp i j s = (0, ⟨s.es, Event.compar i j :: Event.cmpswap i j :: s.log⟩) := by
  rcases cmpswap_cases cmp i j s with ⟨hc, _⟩ | ⟨_, h⟩
  · have := heq _ (getD_mem s.es i hi) _ (getD_mem s.es j hj)
    omega
  · exact h

theorem ins_inner_alleq (cmp : α → α → Int) (b : Nat) :
    ∀ (fuel j : Nat) (s s' : State α), AllEq cmp s.es → j < s.es.length →
      ins_inner fuel b cmp j s = some s' →
      s'.es = s.es ∧ callTrace s'.log = callTrace s.log := by
  intro fuel
  cases fuel with
  | zero => intro j s s' _ _ h; simp [ins_inner] at h
  | succ fuel =>
    intro j s s' heq hl h
    simp only [ins_inner] at h
    split at h
    · rw [cmpswap_alleq cmp (j - 1) j s heq (by omega) hl] at h
      simp only [ne_eq, not_true_eq_false, if_false, Option.some.injEq] at h
      rw [← h]
      exact ⟨rfl, by rw [callTrace_compar, callTrace_cmpswap]⟩
    · simp only [Option.some.injEq] at h
      rw [h]; exact ⟨rfl, rfl⟩

theorem ins_outer_alleq (cmp : α → α → Int) (b e : Nat) :
    ∀ (fuel i : Nat) (s s' : State α), AllEq cmp s.es → e ≤ s.es.length →
      ins_outer fuel b e cmp i s = some s' →
      s'.es = s.es ∧ callTrace s'.log = callTrace s.log := by
  intro fuel
  induction fuel with
  | zero => intro i s s' _ _ h; simp [ins_outer] at h
  | succ fuel ih =>
    intro i s s' heq he h
    simp only [ins_outer] at h
    split at h
    · split at h
      · simp at h
      · rename_i s1 h1
        obtain ⟨c1, c2⟩ := ins_inner_alleq cmp b fuel i s s1 heq (by omega) h1
        obtain ⟨d1, d2⟩ := ih (i + 1) s1 s' (by rw [c1]; exact heq) (by rw [c1]; exact he) h
        exact ⟨d1.trans c1, d2.trans c2⟩
    · simp only [Option.some.injEq] at h
      rw [h]; exact ⟨rfl, rfl⟩

/-- On elements that all compare equal the left scan runs up to the right pointer
and exchanges nothing. -/
theorem scan_left_alleq (cmp : α → α → Int) :
    ∀ (fuel pl pr : Nat) (s : State α) (pl' pr' : Nat) (s' : State α), AllEq cmp s.es →
      pl ≤ pr → pr < s.es.length →
      scan_left fuel cmp pl pr s = some (pl', pr', s') →
      pl' = pr ∧ pr' = pr ∧ s'.es = s.es ∧ callTrace s'.log = callTrace s.log ∧
        swapCount s'.log = swapCount s.log := by
  intro fuel
  induction fuel with
  | zero => intro pl pr s pl' pr' s' _ _ _ h; simp [scan_left] at h
  | succ fuel ih =>
    intro pl pr s pl' pr' s' heq hle hpr h
    simp only [scan_left] at h
    split at h
    · rw [cmpswap_alleq cmp pl pr s heq (by omega) hpr] at h
      simp only [ne_eq, not_true_eq_false, if_false] at h
      obtain ⟨a1, a2, a3, a4, a5⟩ := ih (pl + 1) pr
        ⟨s.es, Event.compar pl pr :: Event.cmpswap pl pr :: s.log⟩ pl' pr' s' heq (by omega)
        hpr h
      refine ⟨a1, a2, a3, ?_, ?_⟩
      · rw [a4, callTrace_compar, callTrace_cmpswap]
      · rw [a5]; rfl
    · simp only [Option.some.injEq, Prod.mk.injEq] at h
      obtain ⟨rfl, rfl, rfl⟩ := h
      exact ⟨by omega, rfl, rfl, rfl, rfl⟩

theorem scan_right_same (cmp : α → α → Int) (fuel p : Nat) (s : State α) (x : Nat × Nat × State α)
    (h : scan_right fuel cmp p p s = some x) : x = (p, p, s) := by
  cases fuel with
  | zero => simp [scan_right] at h
  | succ fuel =>
    simp only [scan_right, Nat.lt_irrefl, if_false, Option.some.injEq] at h
    exact h.symm

/-- On elements that all compare equal the partition loop ends with both pointers at
the right end and exchanges nothing. -/
theorem partition_loop_alleq (cmp : α → α → Int) :
    ∀ (fuel pl pr : Nat) (s : State α) (pl' pr' : Nat) (s' : State α), AllEq cmp s.es →
      pl ≤ pr → pr < s.es.length →
      partition_loop fuel cmp pl pr s = some (pl', pr', s') →
      pl' = pr ∧ pr' = pr ∧ s'.es = s.es ∧ callTrace s'.log = callTrace s.log ∧
        swapCount s'.log = swapCount s.log := by
  intro fuel
  induction fuel with
  | zero => intro pl pr s pl' pr' s' _ _ _ h; simp [partition_loop] at h
  | succ fuel ih =>
    intro pl pr s pl' pr' s' heq hle hpr h
    simp only [partition_loop] at h
    split at h
    · split at h
      · simp at h
      · rename_i pl1 pr1 s1 h1
        obtain ⟨a1, a2, a3, a4, a5⟩ := scan_left_alleq cmp fuel pl pr s pl1 pr1 s1 heq hle
          hpr h1
        split at h
        · simp at h
        · rename_i pl2 pr2 s2 h2
          rw [a1, a2] at h2
          have := scan_right_same cmp fuel pr s1 _ h2
          simp only [Prod.mk.injEq] at this
          obtain ⟨e1, e2, e3⟩ := this
          rw [e1, e2, e3] at h
          obtain ⟨b1, b2, b3, b4, b5⟩ := ih pr pr s1 pl' pr' s' (by rw [a3]; exact heq)
            (Nat.le_refl _) (by rw [a3]; exact hpr) h
          exact ⟨b1, b2, b3.trans a3, b4.trans a4, b5.trans a5⟩
    · simp only [Option.some.injEq, Prod.mk.injEq] at h
      obtain ⟨rfl, rfl, rfl⟩ := h
      exact ⟨by omega, rfl, rfl, rfl, rfl⟩

theorem median3_callTrace (b nel : Nat) (cmp : α → α → Int) (s : State α) :
    callTrace (median3 b nel cmp s).2.log = callTrace s.log := by
  unfold median3
  simp only [State.note]
  split_ifs <;> simp only [callTrace_compar]

theorem pivot_last_callTrace (b nel : Nat) (cmp : α → α → Int) (s : State α) :
    callTrace (pivot_last b nel cmp s).log = callTrace s.log := by
  unfold pivot_last
  simp only
  rw [callTrace_swap, median3_callTrace]

/-- On elements that all compare equal the partition leaves the pivot in the last
slot and exchanges nothing after the pivot step. -/
theorem qs_partition_alleq (cmp : α → α → Int) (fuel b nel : Nat) (s : State α)
    (pl pr : Nat) (s' : State α) (hn : 0 < nel) (hb : b + nel ≤ s.es.length)
    (heq : AllEq cmp s.es) (h : qs_partition fuel b nel cmp s = some (pl, pr, s')) :
    pl = b + (nel - 1) ∧ pr = b + (nel - 1) ∧ s'.es = (pivot_last b nel cmp s).es ∧
      callTrace s'.log = callTrace s.log ∧
      swapCount s'.log = swapCount (pivot_last b nel cmp s).log := by
  unfold qs_partition at h
  have hp := pivot_last_perm b nel cmp s hn hb
  obtain ⟨a1, a2, a3, a4, a5⟩ := partition_loop_alleq cmp fuel b (b + (nel - 1)) _ pl pr s'
    (heq.ofPermOf hp) (by omega) (by rw [hp.length_eq]; omega) h
  exact ⟨a1, a2, a3, a4.trans (pivot_last_callTrace b nel cmp s), a5⟩

theorem depthProfile_leaf : DepthProfile [true, false] 1 := by
  intro rest c m
  show depthScan (true :: false :: rest) c m = _
  simp only [depthScan, Nat.add_sub_cancel]

theorem depthProfile_node (t1 t2 : List Bool) (d1 : Nat) (h1 : DepthProfile t1 d1)
    (h2 : DepthProfile t2 1) (hd : 1 ≤ d1) :
    DepthProfile (true :: (t1 ++ t2 ++ [false])) (d1 + 1) := by
  intro rest c m
  have e : (true :: (t1 ++ t2 ++ [false])) ++ rest =
      true :: (t1 ++ (t2 ++ (false :: rest))) := by simp
  rw [e]
  simp only [depthScan]
  rw [h1, h2]
  simp only [depthScan, Nat.add_sub_cancel]
  congr 1
  omega

/-- The sort on elements that all compare equal: the elements stay equal, and the
calls it makes nest to depth 1 for fewer than 7 elements and to depth `nel - 5`
otherwise. -/
theorem sort_alleq (cmp : α → α → Int) :
    ∀ (fuel b nel : Nat) (s s' : State α), AllEq cmp s.es → b + nel ≤ s.es.length →
      sort fuel b nel cmp s = some s' →
      s'.es.Perm s.es ∧
        ∃ t, callTrace s'.log = callTrace s.log ++ t ∧
          DepthProfile t (if nel < 7 then 1 else nel - 5) := by
  intro fuel
  induction fuel with
  | zero => intro b nel s s' _ _ h; simp [sort] at h
  | succ fuel ih =>
    intro b nel s s' heq hb h
    simp only [sort] at h
    split at h
    · rename_i hn
      split at h
      · simp at h
      · rename_i s1 h1
        simp only [Option.some.injEq] at h
        rw [← h]
        obtain ⟨c1, c2⟩ := ins_outer_alleq cmp b (b + nel) fuel (b + 1)
          (s.note (Event.enter b nel)) s1 heq hb h1
        have c1 : s1.es = s.es := c1
        refine ⟨by rw [← c1]; exact List.Perm.refl _, [true, false], ?_, ?_⟩
        · simp only [State.note]
          rw [callTrace_leave, c2]
          simp only [State.note]
          rw [callTrace_enter, List.append_assoc]
          rfl
        · rw [if_pos hn]; exact depthProfile_leaf
    · rename_i hn
      split at h
      · simp at h
      · rename_i pl pr s1 h1
        obtain ⟨a1, a2, a3, a4, a5⟩ := qs_partition_alleq cmp fuel b nel
          (s.note (Event.enter b nel)) pl pr s1 (by omega) hb heq h1
        have hp1 : s1.es.Perm s.es := by
          rw [a3]; exact pivot_last_perm b nel cmp (s.note (Event.enter b nel)) (by omega) hb
        subst a1
        split at h
        · simp at h
        · rename_i s2 h2
          obtain ⟨d1, t1, d2, d3⟩ := ih b (b + (nel - 1) - b) s1 s2 (heq.ofPermOf hp1)
            (by rw [hp1.length_eq]; omega) h2
          split at h
          · simp at h
          · rename_i s3 h3
            obtain ⟨e1, t2, e2, e3⟩ := ih (b + (nel - 1) + 1) (b + nel - (b + (nel - 1) + 1))
              s2 s3 (heq.ofPermOf (d1.trans hp1))
              (by rw [d1.length_eq, hp1.length_eq]; omega) h3
            simp only [Option.some.injEq] at h
            rw [← h]
            refine ⟨(e1.trans d1).trans hp1, true :: (t1 ++ t2 ++ [false]), ?_, ?_⟩
            · simp only [State.note]
              rw [callTrace_leave, e2, d2, a4]
              simp only [State.note]
              rw [callTrace_enter]
              simp only [List.append_assoc, List.cons_append, List.nil_append]
            · have hz : b + nel - (b + (nel - 1) + 1) = 0 := by omega
              rw [hz, if_pos (by omega)] at e3
              rw [if_neg hn]
              have hd : nel - 5 = (if b + (nel - 1) - b < 7 then 1 else b + (nel - 1) - b - 5) + 1 := by
                split_ifs <;> omega
              rw [hd]
              exact depthProfile_node t1 t2 _ d3 e3 (by split_ifs <;> omega)

end Abs

/-! ## The sort on elements that all compare equal -/

theorem callTrace_cons_compar {γ : Type} (a b : Nat) (arg : γ) (l : List (Access γ)) :
    callTrace (Access.compar a b arg :: l) = callTrace l := by
  simp [callTrace, List.filterMap_append]

theorem callTrace_cons_xchg {γ : Type} (a b : Nat) (l : List (Access γ)) :
    callTrace (Access.xchg a b :: l) = callTrace l := by
  simp [callTrace, List.filterMap_append]

theorem callTrace_cons_cmpswap {γ : Type} (a b : Nat) (l : List (Access γ)) :
    callTrace (Access.cmpswap a b :: l) = callTrace l := by
  simp [callTrace, List.filterMap_append]

theorem callTrace_cons_enter {γ : Type} (a b : Nat) (l : List (Access γ)) :
    callTrace (Access.enter a b :: l) = callTrace l ++ [true] := by
  simp [callTrace, List.filterMap_append]

theorem callTrace_cons_leave {γ : Type} (l : List (Access γ)) :
    callTrace (Access.leave :: l) = callTrace l ++ [false] := by
  simp [callTrace, List.filterMap_append]

theorem callTrace_xchgs {γ : Type} (n a b : Nat) (l : List (Access γ)) :
    callTrace (xchgs n a b l) = callTrace l := by
  induction n generalizing a b l with
  | zero => rfl
  | succ n ih => simp only [xchgs]; rw [ih, callTrace_cons_xchg]

theorem xchgCount_xchgs {γ : Type} (n a b : Nat) (l : List (Access γ)) :
    xchgCount (xchgs n a b l) = xchgCount l + n := by
  induction n generalizing a b l with
  | zero => rfl
  | succ n ih => simp only [xchgs]; rw [ih]; simp only [xchgCount]; omega

/-- The calls and returns in the byte-level log of an element-level log. -/
theorem callTrace_concLog {γ : Type} (B w : Nat) (arg : γ) (l0 : List (Access γ))
    (al : List Abs.Event) :
    callTrace (concLog B w arg l0 al) = callTrace l0 ++ Abs.callTrace al := by
  induction al with
  | nil => simp [concLog, Abs.callTrace]
  | cons e al ih =>
    simp only [concLog]
    cases e with
    | compar i j => simp only [concEvent]; rw [callTrace_cons_compar, ih, Abs.callTrace_compar]
    | swap i j => simp only [concEvent]; rw [callTrace_xchgs, ih, Abs.callTrace_swap]
    | cmpswap i j => simp only [concEvent]; rw [callTrace_cons_cmpswap, ih, Abs.callTrace_cmpswap]
    | enter b n =>
      simp only [concEvent]
      rw [callTrace_cons_enter, ih, Abs.callTrace_enter, List.append_assoc]
    | leave =>
      simp only [concEvent]
      rw [callTrace_cons_leave, ih, Abs.callTrace_leave, List.append_assoc]

/-- The byte exchanges in the byte-level log of an element-level log: `w` for each
exchange of two elements. -/
theorem xchgCount_concLog {γ : Type} (B w : Nat) (arg : γ) (l0 : List (Access γ))
    (al : List Abs.Event) :
    xchgCount (concLog B w arg l0 al) = xchgCount l0 + w * Abs.swapCount al := by
  induction al with
  | nil => simp [concLog, Abs.swapCount]
  | cons e al ih =>
    simp only [concLog]
    cases e with
    | compar i j => simp only [concEvent, xchgCount, Abs.swapCount]; exact ih
    | swap i j =>
      simp only [concEvent, Abs.swapCount]
      rw [xchgCount_xchgs, ih, Nat.mul_succ]
      omega
    | cmpswap i j => simp only [concEvent, xchgCount, Abs.swapCount]; exact ih
    | enter b n => simp only [concEvent, xchgCount, Abs.swapCount]; exact ih
    | leave => simp only [concEvent, xchgCount, Abs.swapCount]; exact ih

/-- C19 (linear recursion depth on all-equal input): for `nel ≥ 7` elements of width
`w > 0` that all compare equal, the partition loop of `sort_r_simple` exchanges no byte
(the memory and the number of byte exchanges in the log are those after the pivot step)
and ends with both pointers at the last element, `p = nel - 1`; the two recursive calls
are on `nel - 1` and on `0` elements and return; the call returns; the calls of
`sort_r_simple` it logs nest to depth exactly `nel - 5`; and the result is in order and
a permutation of the input. -/
theorem sort_r_simple_all_equal {γ : Type} (fuel base nel w : Nat) (compar : Compar γ)
    (arg : γ) (h : Heap γ) (hw : 0 < w) (hn : 7 ≤ nel)
    (hb : base + nel * w ≤ h.mem.length) (hf : sortFuel nel ≤ fuel)
    (heq : ∀ a ∈ elems h.mem base w nel, ∀ b ∈ elems h.mem base w nel,
      compar a b arg = 0) :
    ∃ hp h2 h3,
      qs_partition (fuel - 1) base nel w compar arg (h.note (Access.enter base nel)) =
        some (base + (nel - 1) * w, base + (nel - 1) * w, hp) ∧
      hp.mem = (pivot_step base nel w compar arg (h.note (Access.enter base nel))).2.mem ∧
      xchgCount hp.log =
        xchgCount (pivot_step base nel w compar arg (h.note (Access.enter base nel))).2.log ∧
      (base + (nel - 1) * w - base) / w = nel - 1 ∧
      (base + nel * w - (base + (nel - 1) * w + w)) / w = 0 ∧
      sort_r_simple (fuel - 1) base (nel - 1) w compar arg hp = some h2 ∧
      sort_r_simple (fuel - 1) (base + (nel - 1) * w + w) 0 w compar arg h2 = some h3 ∧
      sort_r_simple fuel base nel w compar arg h = some (h3.note Access.leave) ∧
      (∃ new, (h3.note Access.leave).log = new ++ h.log ∧ callDepth new = nel - 5) ∧
      SortedArr compar arg h3.mem base w nel ∧
      (elems h3.mem base w nel).Perm (elems h.mem base w nel) := by
  have hlen : (elems h.mem base w nel).length = nel := elems_length _ _ _ _
  have hall : Abs.AllEq (fun x y => compar x y arg) (elems h.mem base w nel) := heq
  obtain ⟨s', hs', hrun, hpre, hl, hu, hel⟩ :=
    sort_r_simple_run fuel base nel w compar arg h hw hb hf
  obtain ⟨f, rfl⟩ : ∃ f, fuel = f + 1 := ⟨fuel - 1, by unfold sortFuel at hf; omega⟩
  rw [Nat.add_sub_cancel]
  obtain ⟨p, s1, hq, hqb, hp⟩ := qs_partition_run f base nel w compar arg
    (h.note (Access.enter base nel)) hw hb (by omega) (by unfold sortFuel at hf; omega)
  obtain ⟨a1, _, a3, _, a5⟩ := Abs.qs_partition_alleq (fun x y => compar x y arg) f 0 nel
    ⟨elems h.mem base w nel, []⟩ p p s1 (by omega) (by simp [hlen]) hall hq
  rw [Nat.zero_add] at a1
  subst a1
  have e1 : base + (nel - 1) * w - base = (nel - 1) * w := by omega
  have e2 : base + nel * w - (base + (nel - 1) * w + w) = 0 * w := by
    have : nel * w = (nel - 1) * w + w := by
      rw [← Nat.succ_mul]; congr 1; omega
    omega
  have hrun0 := hrun
  simp only [sort_r_simple, show ¬ nel < 7 by omega, if_false, hqb] at hrun
  rw [e1, e2, Nat.mul_div_cancel _ hw, Nat.mul_div_cancel _ hw] at hrun
  split at hrun
  · simp at hrun
  · rename_i h2 hh2
    split at hrun
    · simp at hrun
    · rename_i h3 hh3
      simp only [Option.some.injEq] at hrun
      have hmem : (h3.note Access.leave).mem = (concHeap (h.mem.take base)
          (h.mem.drop (base + nel * w)) w arg h.log s').mem := congrArg Heap.mem hrun
      have hmem : h3.mem = (concHeap (h.mem.take base) (h.mem.drop (base + nel * w)) w arg
          h.log s').mem := hmem
      have hlog : (h3.note Access.leave).log = (concHeap (h.mem.take base)
          (h.mem.drop (base + nel * w)) w arg h.log s').log := congrArg Heap.log hrun
      obtain ⟨b1, t, b2, b3⟩ := Abs.sort_alleq (fun x y => compar x y arg) (f + 1) 0 nel
        ⟨elems h.mem base w nel, []⟩ s' hall (by simp [hlen]) hs'
      have hanti : Abs.Anti (fun x y => compar x y arg) (elems h.mem base w nel) := by
        intro x hx y hy _
        exact le_of_eq (heq y hy x hx)
      have hsorted := Abs.sort_sorted (fun x y => compar x y arg) (f + 1) 0 nel
        ⟨elems h.mem base w nel, []⟩ s' (by simp [hlen]) hanti hs'
      rw [Nat.zero_add] at hsorted
      refine ⟨_, h2, h3, hqb, ?_, ?_, ?_, ?_, hh2, hh3, ?_, ?_, ?_, ?_⟩
      · rw [pivot_step_run base nel w compar arg (h.note (Access.enter base nel)) hb
          (by omega)]
        simp only [concHeap]
        rw [a3]
        rfl
      · rw [pivot_step_run base nel w compar arg (h.note (Access.enter base nel)) hb
          (by omega)]
        simp only [concHeap]
        rw [xchgCount_concLog, xchgCount_concLog, a5]
        rfl
      · rw [e1, Nat.mul_div_cancel _ hw]
      · rw [e2, Nat.mul_div_cancel _ hw]
      · rw [hrun0, hrun]
      · refine ⟨concLog base w arg [] s'.log, ?_, ?_⟩
        · rw [hlog]
          simp only [concHeap, hpre]
          exact concLog_append base w arg h.log s'.log
        · unfold callDepth
          rw [callTrace_concLog, b2]
          have ht := b3 [] 0 0
          rw [List.append_nil, if_neg (by omega)] at ht
          have e0 : callTrace ([] : List (Access γ)) ++
              (Abs.callTrace ([] : List Abs.Event) ++ t) = t := by
            simp [callTrace, Abs.callTrace]
          show depthScan (callTrace ([] : List (Access γ)) ++
              (Abs.callTrace ([] : List Abs.Event) ++ t)) 0 0 = nel - 5
          rw [e0, ht]
          simp [depthScan]
      · apply sortedArr_of_sortedOn
        rw [hmem]
        simp only [concHeap]
        rw [hel]
        exact hsorted
      · rw [hmem]
        simp only [concHeap]
        rw [hel]
        exact b1

/-- Witness of C19: eight two-byte elements with the same first byte after one leading
byte, ordered by their first byte; the calls nest to depth 3. -/
theorem sort_r_simple_all_equal_witness :
    ∃ hp h2 h3,
      qs_partition (20 - 1) 1 8 2 byteCmp ()
          ((⟨[9, 4, 0, 4, 1, 4, 2, 4, 3, 4, 4, 4, 5, 4, 6, 4, 7, 9], []⟩ : Heap Unit).note
            (Access.enter 1 8)) =
        some (1 + (8 - 1) * 2, 1 + (8 - 1) * 2, hp) ∧
      hp.mem = (pivot_step 1 8 2 byteCmp ()
        ((⟨[9, 4, 0, 4, 1, 4, 2, 4, 3, 4, 4, 4, 5, 4, 6, 4, 7, 9], []⟩ : Heap Unit).note
          (Access.enter 1 8))).2.mem ∧
      xchgCount hp.log =
        xchgCount (pivot_step 1 8 2 byteCmp ()
          ((⟨[9, 4, 0, 4, 1, 4, 2, 4, 3, 4, 4, 4, 5, 4, 6, 4, 7, 9], []⟩ : Heap Unit).note
            (Access.enter 1 8))).2.log ∧
      (1 + (8 - 1) * 2 - 1) / 2 = 8 - 1 ∧
      (1 + 8 * 2 - (1 + (8 - 1) * 2 + 2)) / 2 = 0 ∧
      sort_r_simple (20 - 1) 1 (8 - 1) 2 byteCmp () hp = some h2 ∧
      sort_r_simple (20 - 1) (1 + (8 - 1) * 2 + 2) 0 2 byteCmp () h2 = some h3 ∧
      sort_r_simple 20 1 8 2 byteCmp ()
        ⟨[9, 4, 0, 4, 1, 4, 2, 4, 3, 4, 4, 4, 5, 4, 6, 4, 7, 9], []⟩ =
          some (h3.note Access.leave) ∧
      (∃ new, (h3.note Access.leave).log = new ++ [] ∧ callDepth new = 8 - 5) ∧
      SortedArr byteCmp () h3.mem 1 2 8 ∧
      (elems h3.mem 1 2 8).Perm
        (elems [9, 4, 0, 4, 1, 4, 2, 4, 3, 4, 4, 4, 5, 4, 6, 4, 7, 9] 1 2 8) :=
  sort_r_simple_all_equal 20 1 8 2 byteCmp ()
    ⟨[9, 4, 0, 4, 1, 4, 2, 4, 3, 4, 4, 4, 5, 4, 6, 4, 7, 9], []⟩ (by decide) (by decide)
    (by decide) (by decide) (by decide)

/-! ## Small arrays are sorted stably -/

/-- Exchanges of adjacent elements on the element level are exchanges of the same
elements by the byte loop, in the memory that holds the elements. -/
theorem adjExchanges_conc {γ : Type} (pre post : List Byte) (w nel : Nat) (compar : Compar γ)
    (arg : γ) {n : Nat} {es es' : List (List Byte)}
    (h : Abs.AdjSwaps (fun x y => compar x y arg) n es es') :
    (∀ e ∈ es, e.length = w) → es.length = nel →
      AdjExchanges compar arg pre.length w nel n (pre ++ es.flatten ++ post)
        (pre ++ es'.flatten ++ post) := by
  induction h with
  | refl es => intro _ _; exact AdjExchanges.done _
  | step n es es' k a1 a2 _ ih =>
    intro hu hl
    have hperm := swap_perm es k (k + 1) (by omega) a1
    have ih' := ih (uniform_of_perm hperm hu) (by rw [hperm.length_eq]; exact hl)
    refine AdjExchanges.step n _ _ k (by omega) ?_ ?_
    · rw [elem_concHeap pre post w es hu k (by omega),
        elem_concHeap pre post w es hu (k + 1) a1]
      exact a2
    · rw [swap_loop_conc pre post w es hu k (k + 1) (by omega) a1 []]
      exact ih'

/-- C17 (small arrays are sorted stably): for an array of `nel < 7` elements of width
`w > 0` inside the memory and a comparator valid on its elements, `sort_r_simple`
returns and the array is in order and a permutation of the input. Every comparator
call, every call of `sort_r_cmpswap` and every byte exchange it logs concerns an
element and its right neighbour; the memory it leaves arises from the input by `n`
exchanges of an element with its right neighbour, each made when the left one
compares strictly greater (`> 0`), and the log holds the `n * w` byte exchanges of
these and no other. There is a one-to-one map `σ` of the positions `0 .. nel-1` such
that element `i` of the output is element `σ i` of the input and, whenever two elements
of the output at positions `i < j` compare equal, they come from positions
`σ i < σ j` of the input: equal elements keep their relative order. -/
theorem sort_r_simple_small_stable {γ : Type} (fuel base nel w : Nat) (compar : Compar γ)
    (arg : γ) (h : Heap γ) (hw : 0 < w) (hn : nel < 7)
    (hb : base + nel * w ≤ h.mem.length) (hf : sortFuel nel ≤ fuel)
    (hv : ValidOn compar arg (elems h.mem base w nel)) :
    ∃ h', sort_r_simple fuel base nel w compar arg h = some h' ∧
      (∃ new, h'.log = new ++ h.log ∧ (∀ e ∈ new, AdjacentAccess w e) ∧
        ∃ n, AdjExchanges compar arg base w nel n h.mem h'.mem ∧
          xchgCount new = n * w) ∧
      SortedArr compar arg h'.mem base w nel ∧
      (elems h'.mem base w nel).Perm (elems h.mem base w nel) ∧
      ∃ σ : Nat → Nat,
        (∀ i, i < nel → σ i < nel) ∧
        (∀ i j, i < nel → j < nel → σ i = σ j → i = j) ∧
        (∀ i, i < nel →
          elem h'.mem w (base + i * w) = elem h.mem w (base + σ i * w)) ∧
        (∀ i j, i < j → j < nel →
          compar (elem h'.mem w (base + i * w)) (elem h'.mem w (base + j * w)) arg = 0 →
          σ i < σ j) := by
  have hlen : (elems h.mem base w nel).length = nel := elems_length _ _ _ _
  have hu0 := elems_uniform h.mem base w nel hb
  obtain ⟨s', hs', hrun, hpre, hl, hu, hel⟩ :=
    sort_r_simple_run fuel base nel w compar arg h hw hb hf
  obtain ⟨n, c1, ⟨new, hnew, hadj⟩, c3⟩ := Abs.sort_small_adj (fun x y => compar x y arg)
    fuel 0 nel ⟨elems h.mem base w nel, []⟩ s' hn (by simp [hlen]) hs'
  obtain ⟨σ, s1, s2, s3, s4⟩ := c1.stable (fun x hx y hy hc => (hv.1 x hx y hy).mp hc)
  simp only [hlen] at s1 s2 s3 s4
  simp only [List.append_nil] at hnew
  have c3 : Abs.swapCount s'.log = n := by
    rw [c3]; exact Nat.zero_add n
  have hget : ∀ k, k < nel → elem (concHeap (h.mem.take base) (h.mem.drop (base + nel * w)) w
      arg h.log s').mem w (base + k * w) = s'.es.getD k default :=
    fun k hk => elem_conc_getD h.mem base nel w s'.es hb hu hl k hk
  have hsorted := Abs.sort_sorted (fun x y => compar x y arg) fuel 0 nel
    ⟨elems h.mem base w nel, []⟩ s' (by simp [hlen])
    (anti_of_validOn compar arg _ hv) hs'
  rw [Nat.zero_add] at hsorted
  have hexch := adjExchanges_conc (h.mem.take base) (h.mem.drop (base + nel * w)) w nel
    compar arg c1 hu0 hlen
  rw [hpre, ← mem_eq_conc h.mem base w nel hb] at hexch
  refine ⟨_, hrun, ⟨concLog base w arg [] s'.log, ?_, ?_, n, hexch, ?_⟩, ?_, ?_,
    σ, s1, s2, ?_, ?_⟩
  · simp only [concHeap, hpre]
    exact concLog_append base w arg h.log s'.log
  · rw [hnew]
    exact concLog_adj base w arg new hadj
  · rw [xchgCount_concLog, c3, Nat.mul_comm]
    exact Nat.zero_add _
  · apply sortedArr_of_sortedOn
    simp only [concHeap]
    rw [hel]
    exact hsorted
  · simp only [concHeap]
    rw [hel]
    exact c1.toPermOf
  · intro i hi
    rw [hget i hi, s3 i hi]
    exact elems_getD h.mem base w nel _ (s1 i hi)
  · intro i j hij hj h0
    rw [hget i (by omega), hget j hj] at h0
    exact s4 i j hij hj h0

/-- Witness of C17: five two-byte elements ordered by their first byte, with ties. -/
theorem sort_r_simple_small_stable_witness :
    ∃ h', sort_r_simple 14 0 5 2 byteCmp () ⟨[2, 0, 1, 1, 2, 2, 1, 3, 0, 4], []⟩ = some h' ∧
      (∃ new, h'.log = new ++ [] ∧ (∀ e ∈ new, AdjacentAccess 2 e) ∧
        ∃ n, AdjExchanges byteCmp () 0 2 5 n [2, 0, 1, 1, 2, 2, 1, 3, 0, 4] h'.mem ∧
          xchgCount new = n * 2) ∧
      SortedArr byteCmp () h'.mem 0 2 5 ∧
      (elems h'.mem 0 2 5).Perm (elems [2, 0, 1, 1, 2, 2, 1, 3, 0, 4] 0 2 5) ∧
      ∃ σ : Nat → Nat,
        (∀ i, i < 5 → σ i < 5) ∧
        (∀ i j, i < 5 → j < 5 → σ i = σ j → i = j) ∧
        (∀ i, i < 5 →
          elem h'.mem 2 (0 + i * 2) = elem [2, 0, 1, 1, 2, 2, 1, 3, 0, 4] 2 (0 + σ i * 2)) ∧
        (∀ i j, i < j → j < 5 →
          byteCmp (elem h'.mem 2 (0 + i * 2)) (elem h'.mem 2 (0 + j * 2)) () = 0 →
          σ i < σ j) :=
  sort_r_simple_small_stable 14 0 5 2 byteCmp () ⟨[2, 0, 1, 1, 2, 2, 1, 3, 0, 4], []⟩
    (by decide) (by decide) (by decide) (by decide) (byteCmp_validOn _)

end HbSortR
